import Mathlib

/-!
# A verification development for the `hashing` dictionary

Shallow embedding of `hash.c` and `dictionary.c`.

Conventions of the embedding.

* A C string is the list of its bytes before the terminating NUL (`Key`), so
  the bytes of a key are non-zero and `strcmp` is equality of lists; a
  nullable `char *` argument is an `Option Key`.
* `dict_value_t` (`void *`) is a natural number, `0` being `NULL`.
* `long` fields are integers; the `int` argument of `select_next_prime` is
  reduced to 32 bits explicitly (`int_of_long`); `unsigned long` arithmetic is
  reduced modulo `2 ^ 64`.
* A `double` is the rational number it denotes (infinities and NaN are left
  out).  The conversion `long → double` and the product of two doubles are
  rounded to the nearest double, ties to even, with 53 significant bits
  (`round_double`, IEEE 754 binary64 evaluated in double precision); the
  exponent range is not modelled, which does not change the outcome of the
  comparison with an integer made by `dictionary_put`.
* The parallel arrays `keys`/`values` of a collision bucket, with their count
  `num_elements`, are one list of pairs (cell `i` of both arrays, `i <
  num_elements`), `none` while the arrays are still `NULL`.
* An operation returns `none` where the C program has no defined result: a
  division by zero, an index outside an array, a value cell dereferenced as a
  bucket pointer.  Allocation never fails, so the slot arrays of a dictionary
  are never `NULL`.
* `dictionary_put` and `dictionary_rebuild_table` call each other; the depth
  of nested rebuilds is bounded by a fuel argument, and running out of fuel is
  `none` as well.  The theorems show that fuel 1 is enough on every reachable
  dictionary.
* `dictionary_enumerate` returns the list of the calls it makes to the
  visitor; it does not return a dictionary because it writes none.
-/

namespace Hashing

/-! ## Definitions translated from the sources -/

/-- C string: the bytes before the terminating NUL. -/
abbrev Key := List Nat

/-- The type `void *` of dictionary values; `0` is `NULL`. -/
abbrev dict_value_t := Nat

def MAX_KEY : Nat := 4096

def CB_INITIAL_SIZE : Nat := 16

def DICT_INITIAL_SIZE : Int := 5

def LOAD_FACTOR : ℚ := 3 / 4

def LONG_MAX : Nat := 2 ^ 63 - 1

/-- The loop of `hash` (hash.c): stops at the first NUL byte (or at the end of
the list, where the terminator stands). -/
def hash_loop : Nat → List Nat → Nat
  | h, [] => h
  | h, c :: str =>
    if c = 0 then h
    else hash_loop ((((h <<< 5) + h + c) % 2 ^ 64) &&& LONG_MAX) str

/-- Function `hash` of hash.c. -/
def hash (str : List Nat) : Nat := hash_loop 5381 str

/-- Test `strncmp(s1, s2, n)`: `0` when the strings agree on their first `n`
bytes, non-zero otherwise (only zero-ness is used by the program). -/
def strncmp (s1 s2 : Key) (n : Nat) : Int :=
  if s1.take n = s2.take n then 0 else 1

/-- Test `strcmp(s1, s2)`: `0` exactly when the strings are equal. -/
def strcmp (s1 s2 : Key) : Int :=
  if s1 = s2 then 0 else 1

/-- Conversion of a `long` to the 32-bit `int`. -/
def int_of_long (x : Int) : Int := (x + 2 ^ 31) % 2 ^ 32 - 2 ^ 31

/-- The table `primes[148]` of `select_next_prime`. -/
def primes : List Int :=
  [3, 5, 7, 11, 17, 19, 23, 29, 37, 53, 73, 107, 157, 233, 347, 503, 751,
   1009, 1511, 2003, 3001, 4001, 5003, 6007, 7001, 8009, 9001,
   10007, 11003, 12007, 13001, 14009, 15013, 16001, 17011, 18013, 19001,
   20011, 21001, 22003, 23003, 24001, 25013, 26003, 27011, 28001, 29009,
   30011, 31013, 32003, 33013, 34019, 35023, 36007, 37003, 38011, 39019,
   40009, 41011, 42013, 43003, 44017, 45007, 46021, 47017, 48017, 49003,
   50021, 51001, 52009, 53003, 54001, 55001, 56003, 57037, 58013, 59009,
   60013, 61001, 62003, 63029, 64007, 65003, 66029, 67003, 68023, 69001,
   70001, 71011, 72019, 73009, 74017, 75011, 76001, 77003, 78007, 79031,
   80021, 81001, 82003, 83003, 84011, 85009, 86011, 87011, 88001, 89003,
   90001, 91009, 92003, 93001, 94007, 95003, 96001, 97001, 98009, 99013,
   100003, 101009, 102001, 103001, 104003, 224737, 350377, 479909,
   611953, 746773, 882377, 1020379, 1159523, 1299709, 2750159, 4256233,
   5800079, 7368787, 8960453, 10570841, 12195257, 13834103, 15485863,
   32452843, 49979687, 67867967, 86028121, 104395301, 122949823,
   141650939, 160481183]

/-- The `while (high - low > 1)` loop of `select_next_prime`; the first
argument bounds the number of iterations and is started at `high - low`,
which the loop decreases at every turn. -/
def select_next_prime_search (intValue : Int) : Nat → Nat → Nat → Nat
  | 0, _, high => high
  | fuel + 1, low, high =>
    if high - low > 1 then
      if intValue ≤ primes.getD ((high + low) / 2) 0 then
        select_next_prime_search intValue fuel low ((high + low) / 2)
      else
        select_next_prime_search intValue fuel ((high + low) / 2) high
    else high

/-- Function `select_next_prime` of dictionary.c; `intValue * 2 + 1` is
computed in 32 bits. -/
def select_next_prime (intValue : Int) : Int :=
  if intValue > primes.getD 147 0 then int_of_long (intValue * 2 + 1)
  else primes.getD (select_next_prime_search intValue 147 0 147) 0

/-- Struct `collision_bucket_t`. -/
structure collision_bucket_t where
  max_elements : Nat
  keys_values : Option (List (Key × dict_value_t))
deriving DecidableEq

/-- Union `entry_t`: a value or a pointer to a collision bucket.  The `NULL`
cell is `value 0`. -/
inductive entry_t where
  | value (v : dict_value_t)
  | collision_buckets (b : collision_bucket_t)
deriving DecidableEq

/-- Struct `dictionary_t`. -/
structure dictionary_t where
  num_collisions : Int
  num_entries : Int
  maximum_chain : Int
  max_entries : Int
  keys : List (Option Key)
  values : List entry_t
  load_factor : ℚ
deriving DecidableEq

/-- Function `new_dictionary_size_load`: zeroed counters and zeroed arrays. -/
def new_dictionary_size_load (initial_size : Int) (load_factor : ℚ) : dictionary_t :=
  { num_collisions := 0
    num_entries := 0
    maximum_chain := 0
    max_entries := initial_size
    keys := List.replicate initial_size.toNat none
    values := List.replicate initial_size.toNat (entry_t.value 0)
    load_factor := load_factor }

def new_dictionary_size (initial_size : Int) : dictionary_t :=
  new_dictionary_size_load initial_size LOAD_FACTOR

def new_dictionary : dictionary_t :=
  new_dictionary_size DICT_INITIAL_SIZE

/-- Function `new_collision_bucket`: a zeroed struct, arrays not yet
allocated. -/
def new_collision_bucket : collision_bucket_t :=
  { max_elements := 0, keys_values := none }

/-- Pairs held by a bucket, cells `0 .. num_elements - 1`. -/
def bucket_pairs (bucket : collision_bucket_t) : List (Key × dict_value_t) :=
  bucket.keys_values.getD []

/-- Function `collision_bucket_size`: the field `num_elements`. -/
def collision_bucket_size (bucket : collision_bucket_t) : Nat :=
  (bucket_pairs bucket).length

/-- Function `cb_reinitializeArrays`: fresh arrays of `new_size` cells into
which the `num_elements` pairs are copied in order. -/
def cb_reinitializeArrays (bucket : collision_bucket_t) (new_size : Nat) : collision_bucket_t :=
  { max_elements := new_size, keys_values := some (bucket_pairs bucket) }

/-- The scan of `collision_bucket_get`: value of the first pair whose key
matches, `NULL` when there is none. -/
def collision_bucket_get_scan (key : Key) : List (Key × dict_value_t) → dict_value_t
  | [] => 0
  | p :: rest =>
    if strncmp key p.1 MAX_KEY = 0 then p.2 else collision_bucket_get_scan key rest

/-- Function `collision_bucket_get`. -/
def collision_bucket_get (bucket : collision_bucket_t) (key : Option Key) : dict_value_t :=
  match key with
  | none => 0
  | some key => collision_bucket_get_scan key (bucket_pairs bucket)

/-- The replacement scan of `collision_bucket_addpair`: overwrite the value of
the first pair whose key matches; `none` when no key matches. -/
def collision_bucket_replace (key : Key) (value : dict_value_t) :
    List (Key × dict_value_t) → Option (List (Key × dict_value_t))
  | [] => none
  | p :: rest =>
    if strncmp p.1 key MAX_KEY = 0 then some ((p.1, value) :: rest)
    else (collision_bucket_replace key value rest).map (fun l => p :: l)

/-- Function `collision_bucket_addpair`: the bucket afterwards and the
returned `int` (`-1` null key, `0` replaced, `1` added). -/
def collision_bucket_addpair (bucket : collision_bucket_t) (key : Option Key)
    (value : dict_value_t) : collision_bucket_t × Int :=
  match key with
  | none => (bucket, -1)
  | some key =>
    let bucket1 :=
      if bucket.keys_values.isNone then cb_reinitializeArrays bucket CB_INITIAL_SIZE
      else bucket
    match collision_bucket_replace key value (bucket_pairs bucket1) with
    | some pairs => ({ bucket1 with keys_values := some pairs }, 0)
    | none =>
      let bucket2 :=
        if collision_bucket_size bucket1 ≥ bucket1.max_elements then
          cb_reinitializeArrays bucket1 (collision_bucket_size bucket1 + 8)
        else bucket1
      ({ bucket2 with keys_values := some (bucket_pairs bucket2 ++ [(key, value)]) }, 1)

/-- The slot index `hash(key) % (dict->max_entries - 1)`, computed in
`unsigned long` from the field `max_entries`; `none` when the modulus is
zero. -/
def hash_index (max_entries : Int) (key : Key) : Option Nat :=
  if ((max_entries - 1) % 2 ^ 64).toNat = 0 then none
  else some (hash key % ((max_entries - 1) % 2 ^ 64).toNat)

/-- Function `dictionary_get`. -/
def dictionary_get (dict : dictionary_t) (key : Option Key) : Option dict_value_t :=
  match key with
  | none => some 0
  | some key =>
    match hash_index dict.max_entries key with
    | none => none
    | some hash_value =>
      match dict.keys[hash_value]?, dict.values[hash_value]? with
      | some none, some (entry_t.collision_buckets bucket) =>
        some (collision_bucket_get bucket (some key))
      | some none, some (entry_t.value v) => if v = 0 then some 0 else none
      | some (some hash_key), some (entry_t.value v) =>
        if strncmp key hash_key MAX_KEY = 0 then some v else some 0
      | some (some hash_key), some (entry_t.collision_buckets _) =>
        if strncmp key hash_key MAX_KEY = 0 then none else some 0
      | _, _ => none

/-- The body of `dictionary_put` up to the load-factor test (lines 180-280). -/
def dictionary_put_core (dict : dictionary_t) (key : Key) (value : dict_value_t) :
    Option dictionary_t :=
  match hash_index dict.max_entries key with
  | none => none
  | some theHash =>
    match dict.keys[theHash]?, dict.values[theHash]? with
    | some none, some (entry_t.value v) =>
      if v = 0 then
        some { dict with
          keys := dict.keys.set theHash (some key)
          values := dict.values.set theHash (entry_t.value value)
          num_entries := dict.num_entries + 1 }
      else none
    | some none, some (entry_t.collision_buckets bucket) =>
      let r := collision_bucket_addpair bucket (some key) value
      if r.2 > 0 then
        some { dict with
          values := dict.values.set theHash (entry_t.collision_buckets r.1)
          num_entries := dict.num_entries + 1
          num_collisions :=
            if collision_bucket_size r.1 > 1 then dict.num_collisions + 1
            else dict.num_collisions
          maximum_chain :=
            if (collision_bucket_size r.1 : Int) > dict.maximum_chain then
              (collision_bucket_size r.1 : Int)
            else dict.maximum_chain }
      else
        some { dict with values := dict.values.set theHash (entry_t.collision_buckets r.1) }
    | some (some hash_key), some (entry_t.value hash_value) =>
      if strncmp hash_key key MAX_KEY = 0 then
        some { dict with values := dict.values.set theHash (entry_t.value value) }
      else
        let r1 := collision_bucket_addpair new_collision_bucket (some key) value
        let r2 := collision_bucket_addpair r1.1 (some hash_key) hash_value
        some { dict with
          keys := dict.keys.set theHash none
          values := dict.values.set theHash (entry_t.collision_buckets r2.1)
          num_entries := dict.num_entries + 1
          num_collisions :=
            if r2.2 > 0 ∧ collision_bucket_size r2.1 > 1 then dict.num_collisions + 1
            else dict.num_collisions
          maximum_chain :=
            if r2.2 > 0 ∧ (collision_bucket_size r2.1 : Int) > dict.maximum_chain then
              (collision_bucket_size r2.1 : Int)
            else dict.maximum_chain }
    | some (some hash_key), some (entry_t.collision_buckets _) =>
      if strncmp hash_key key MAX_KEY = 0 then
        some { dict with values := dict.values.set theHash (entry_t.value value) }
      else none
    | _, _ => none

/-- One slot of `dictionary_enumerate`: the visitor calls made for cell `i`. -/
def enumerate_slot (key : Option Key) (entry : entry_t) : Option (List (Key × dict_value_t)) :=
  match key, entry with
  | none, entry_t.value v => if v = 0 then some [] else none
  | none, entry_t.collision_buckets bucket => some (bucket_pairs bucket)
  | some key, entry_t.value v => some [(key, v)]
  | some _, entry_t.collision_buckets _ => none

/-- The loop of `dictionary_enumerate` over the given slot indices. -/
def enumerate_slots (dict : dictionary_t) : List Nat → Option (List (Key × dict_value_t))
  | [] => some []
  | i :: rest =>
    match dict.keys[i]?, dict.values[i]? with
    | some key, some entry =>
      match enumerate_slot key entry, enumerate_slots dict rest with
      | some l, some ls => some (l ++ ls)
      | _, _ => none
    | _, _ => none

/-- Function `dictionary_enumerate`: the list of visitor calls
`enum_function(key, value)`, in order. -/
def dictionary_enumerate (dict : dictionary_t) : Option (List (Key × dict_value_t)) :=
  enumerate_slots dict (List.range dict.max_entries.toNat)

/-- The callback `copy_pair` of `dictionary_rebuild_table` applied to every
enumerated pair; `put` is `dictionary_put` on the new dictionary. -/
def copy_pairs (put : dictionary_t → Key → dict_value_t → Option dictionary_t) :
    dictionary_t → List (Key × dict_value_t) → Option dictionary_t
  | new_dict, [] => some new_dict
  | new_dict, p :: rest =>
    match put new_dict p.1 p.2 with
    | none => none
    | some new_dict1 => copy_pairs put new_dict1 rest

/-- Function `dictionary_rebuild_table`, `put` being the `dictionary_put` it
calls back. -/
def dictionary_rebuild_table (put : dictionary_t → Key → dict_value_t → Option dictionary_t)
    (dict : dictionary_t) (new_size : Int) : Option dictionary_t :=
  match dictionary_enumerate dict with
  | none => none
  | some pairs =>
    match copy_pairs put (new_dictionary_size new_size) pairs with
    | none => none
    | some new_dict =>
      some { dict with
        keys := new_dict.keys
        values := new_dict.values
        max_entries := new_dict.max_entries
        num_collisions := new_dict.num_collisions
        maximum_chain := new_dict.maximum_chain }

/-- Rounding of a rational to the nearest integer, ties to the even one. -/
def round_half_even (t : ℚ) : Int :=
  if t - (⌊t⌋ : ℚ) < 1 / 2 then ⌊t⌋
  else if 1 / 2 < t - (⌊t⌋ : ℚ) then ⌊t⌋ + 1
  else if ⌊t⌋ % 2 = 0 then ⌊t⌋ else ⌊t⌋ + 1

/-- The spacing of the doubles between the two powers of two that enclose
`q`: `2 ^ (e - 52)` for `2 ^ e ≤ |q| < 2 ^ (e + 1)`. -/
def double_ulp (q : ℚ) : ℚ := 2 ^ (Int.log 2 |q| - 52)

/-- Rounding of a rational to a `double`: the nearest multiple of
`double_ulp q`, ties to the even significand. -/
def round_double (q : ℚ) : ℚ :=
  if q = 0 then 0 else (round_half_even (q / double_ulp q) : ℚ) * double_ulp q

/-- The test `dict->num_entries > dict->load_factor * dict->max_entries` that
guards the rebuild at the end of `dictionary_put`: both `long` fields are
converted to `double` and the product is a `double`. -/
def resize_needed (dict : dictionary_t) : Bool :=
  decide (round_double (dict.num_entries : ℚ) >
    round_double (dict.load_factor * round_double (dict.max_entries : ℚ)))

/-- The body of `dictionary_put` for a non-null key, given the procedure used
for `dictionary_rebuild_table`. -/
def dictionary_put_body (rebuild : dictionary_t → Int → Option dictionary_t)
    (dict : dictionary_t) (key : Key) (value : dict_value_t) :
    Option (dictionary_t × dict_value_t) :=
  match dictionary_get dict (some key), dictionary_put_core dict key value with
  | some previous, some dict1 =>
    if resize_needed dict1 then
      match rebuild dict1 (select_next_prime (int_of_long (dict1.num_entries * 2))) with
      | none => none
      | some dict2 => some (dict2, previous)
    else some (dict1, previous)
  | _, _ => none

/-- Function `dictionary_put` on a non-null key; the first argument bounds the
depth of nested rebuilds. -/
def dictionary_put_key : Nat → dictionary_t → Key → dict_value_t →
    Option (dictionary_t × dict_value_t)
  | 0 => dictionary_put_body (fun _ _ => none)
  | fuel + 1 =>
    dictionary_put_body
      (dictionary_rebuild_table (fun d k v => (dictionary_put_key fuel d k v).map Prod.fst))

/-- Function `dictionary_put`: the dictionary afterwards and the returned
previous value. -/
def dictionary_put (fuel : Nat) (dict : dictionary_t) (key : Option Key)
    (value : dict_value_t) : Option (dictionary_t × dict_value_t) :=
  match key with
  | none => some (dict, 0)
  | some key => dictionary_put_key fuel dict key value

/-- The scan of `dictionary_remove` through a bucket: index of the first pair
whose key equals `key_in`. -/
def remove_scan (key_in : Key) : List (Key × dict_value_t) → Option Nat
  | [] => none
  | p :: rest =>
    if strcmp key_in p.1 = 0 then some 0 else (remove_scan key_in rest).map (fun j => j + 1)

/-- Function `dictionary_remove`: the dictionary afterwards and the returned
value. -/
def dictionary_remove (dict : dictionary_t) (key_in : Option Key) :
    Option (dictionary_t × dict_value_t) :=
  match key_in with
  | none => some (dict, 0)
  | some key_in =>
    match hash_index dict.max_entries key_in with
    | none => none
    | some hash_index =>
      match dict.keys[hash_index]?, dict.values[hash_index]? with
      | some none, some (entry_t.value v) => if v = 0 then some (dict, 0) else none
      | some none, some (entry_t.collision_buckets bucket) =>
        match remove_scan key_in (bucket_pairs bucket) with
        | none => some (dict, 0)
        | some j =>
          let pairs := bucket_pairs bucket
          let new_size := collision_bucket_size bucket - 1
          if new_size = 1 then
            match pairs[j]?, pairs[if j = 0 then 1 else 0]? with
            | some removed, some last =>
              some ({ dict with
                num_collisions := dict.num_collisions - 1
                keys := dict.keys.set hash_index (some last.1)
                values := dict.values.set hash_index (entry_t.value last.2) }, removed.2)
            | _, _ => none
          else
            match pairs[j]?, pairs[new_size]? with
            | some removed, some last =>
              some ({ dict with
                num_collisions := dict.num_collisions - 1
                values := dict.values.set hash_index (entry_t.collision_buckets
                  { bucket with keys_values := some ((pairs.set j last).take new_size) }) },
                removed.2)
            | _, _ => none
      | some (some key), some (entry_t.value v) =>
        if strcmp key_in key = 0 then
          some ({ dict with
            values := dict.values.set hash_index (entry_t.value 0)
            keys := dict.keys.set hash_index none
            num_entries := dict.num_entries - 1 }, v)
        else some (dict, 0)
      | some (some key), some (entry_t.collision_buckets _) =>
        if strcmp key_in key = 0 then none else some (dict, 0)
      | _, _ => none

/-! ## Definitions used to state the properties -/

/-- The pairs stored in one slot, read off its key cell and its value cell. -/
def slot_pairs (key : Option Key) (entry : entry_t) : List (Key × dict_value_t) :=
  match key, entry with
  | none, entry_t.value _ => []
  | none, entry_t.collision_buckets bucket => bucket_pairs bucket
  | some key, entry_t.value v => [(key, v)]
  | some _, entry_t.collision_buckets _ => []

/-- All pairs stored in the dictionary, slot after slot. -/
def contents (dict : dictionary_t) : List (Key × dict_value_t) :=
  (dict.keys.zip dict.values).flatMap (fun c => slot_pairs c.1 c.2)

/-- Value of the first pair with the given key in an association list, `NULL`
when there is none. -/
def assoc_value (key : Key) : List (Key × dict_value_t) → dict_value_t
  | [] => 0
  | p :: rest => if p.1 = key then p.2 else assoc_value key rest

/-- Shape of a slot at index `i` of a table of `max_entries` slots: the value
cell under a null key is `NULL` or a bucket of at least two pairs with
distinct keys, the value cell under a key is a value, and every stored key is
shorter than `MAX_KEY` and hashes to `i`. -/
def slot_ok (max_entries : Int) (i : Nat) (key : Option Key) (entry : entry_t) : Prop :=
  (match key, entry with
    | none, entry_t.value v => v = 0
    | none, entry_t.collision_buckets bucket =>
      bucket.keys_values.isSome = true ∧ 2 ≤ collision_bucket_size bucket ∧
        ((bucket_pairs bucket).map Prod.fst).Nodup
    | some _, entry_t.value _ => True
    | some _, entry_t.collision_buckets _ => False) ∧
  ∀ p ∈ slot_pairs key entry, p.1.length < MAX_KEY ∧ hash_index max_entries p.1 = some i

/-- Structural invariant of a dictionary. -/
structure WellFormed (dict : dictionary_t) : Prop where
  capacity_ge : 2 ≤ dict.max_entries
  capacity_lt : dict.max_entries < 2 ^ 63
  keys_length : dict.keys.length = dict.max_entries.toNat
  values_length : dict.values.length = dict.max_entries.toNat
  slots : ∀ i key entry, dict.keys[i]? = some key → dict.values[i]? = some entry →
    slot_ok dict.max_entries i key entry

/-- Invariant of the reachable dictionaries: well-formed, and `num_entries`
is at least the number of stored pairs. -/
def Inv (dict : dictionary_t) : Prop :=
  WellFormed dict ∧ ((contents dict).length : Int) ≤ dict.num_entries

/-- Largest `num_entries` for which `select_next_prime (2 * num_entries)` is
computed without leaving the 32-bit `int` range. -/
def ENTRY_LIMIT : Int := 536870911

/-- Dictionaries reachable from `new_dictionary_size_load` (capacity at least
2) by `dictionary_put` with keys shorter than `MAX_KEY` and by
`dictionary_remove`, while `num_entries` stays within `ENTRY_LIMIT`. -/
inductive Reachable : dictionary_t → Prop where
  | create (initial_size : Int) (load_factor : ℚ) :
      2 ≤ initial_size → initial_size < 2 ^ 63 →
      Reachable (new_dictionary_size_load initial_size load_factor)
  | put (fuel : Nat) (dict : dictionary_t) (key : Key) (value : dict_value_t)
      (dict1 : dictionary_t) (previous : dict_value_t) :
      Reachable dict → key.length < MAX_KEY → dict.num_entries < ENTRY_LIMIT →
      dictionary_put (fuel + 1) dict (some key) value = some (dict1, previous) →
      Reachable dict1
  | remove (dict : dictionary_t) (key : Key) (dict1 : dictionary_t) (removed : dict_value_t) :
      Reachable dict → dictionary_remove dict (some key) = some (dict1, removed) →
      Reachable dict1

/-- A sequence of `dictionary_put` calls, as made by `load_words`. -/
def put_all (fuel : Nat) : dictionary_t → List (Key × dict_value_t) → Option dictionary_t
  | dict, [] => some dict
  | dict, p :: rest =>
    match dictionary_put fuel dict (some p.1) p.2 with
    | none => none
    | some r => put_all fuel r.1 rest

/-- The smallest entry of the table `primes` that is at least `target`, in the
words of the specification of the prime capacity table. -/
def smallest_tabulated_prime (target : Int) : Option Int :=
  primes.find? (fun p => decide (target ≤ p))

/-! ## Example dictionaries -/

/-- The dictionary `new_dictionary_size_load(5, 0.75)`. -/
def example_empty : dictionary_t := new_dictionary_size_load 5 (3 / 4)

/-- The dictionary `example_empty` after `dictionary_put("a", 1)`. -/
def example_a : dictionary_t :=
  { num_collisions := 0
    num_entries := 1
    maximum_chain := 0
    max_entries := 5
    keys := [none, none, some [97], none, none]
    values := [entry_t.value 0, entry_t.value 0, entry_t.value 1, entry_t.value 0,
      entry_t.value 0]
    load_factor := 3 / 4 }

/-- The dictionary `example_a` after `dictionary_put("e", 2)`: the keys "a"
and "e" hash to slot 2 and share a collision bucket. -/
def example_ae : dictionary_t :=
  { num_collisions := 1
    num_entries := 2
    maximum_chain := 2
    max_entries := 5
    keys := [none, none, none, none, none]
    values := [entry_t.value 0, entry_t.value 0,
      entry_t.collision_buckets
        { max_elements := 16, keys_values := some [([101], 2), ([97], 1)] },
      entry_t.value 0, entry_t.value 0]
    load_factor := 3 / 4 }

/-- The dictionary `new_dictionary_size_load(2, 0.5)` after
`dictionary_put("a", 1)`: with capacity 2 every key hashes to slot 0. -/
def example_small : dictionary_t :=
  { num_collisions := 0
    num_entries := 1
    maximum_chain := 0
    max_entries := 2
    keys := [some [97], none]
    values := [entry_t.value 1, entry_t.value 0]
    load_factor := 1 / 2 }

/-- Trial division by `d`, `d + 2`, `d + 4`, ... up to the square root of
`n`; the first argument bounds the number of divisors tried. -/
def trial_division (n : Nat) : Nat → Nat → Bool
  | 0, _ => false
  | fuel + 1, d =>
    bif Nat.blt n (d * d) then true
    else bif Nat.beq (n % d) 0 then false
    else trial_division n fuel (d + 2)

/-- Primality test for odd numbers from 3 on, by trial division. -/
def is_odd_prime (n : Nat) : Bool :=
  Nat.ble 3 n && !(Nat.beq (n % 2) 0) && trial_division n n 3

/-- The djb2 recurrence in the words of the specification of the hash
function: `h 0 = 5381` and `h i = ((h (i - 1) << 5) + h (i - 1) + byte i) &
MASK`, in 64-bit unsigned arithmetic, `MASK` being the largest positive signed
64-bit value and `byte i` the `i`-th byte of the string (the first byte is
`byte 1`). -/
def djb2_recurrence (bytes : List Nat) : Nat → Nat
  | 0 => 5381
  | i + 1 =>
    (((djb2_recurrence bytes i <<< 5) + djb2_recurrence bytes i + bytes.getD i 0) % 2 ^ 64) &&&
      (2 ^ 63 - 1)

/-- The bucket `bucket` is attached to slot `i`: the key cell is null and the
value cell points to the bucket. -/
def bucket_attached (dict : dictionary_t) (i : Nat) (bucket : collision_bucket_t) : Prop :=
  dict.keys[i]? = some none ∧ dict.values[i]? = some (entry_t.collision_buckets bucket)

/-- Slot `i` is Empty: null key cell and null value cell. -/
def slot_is_empty (dict : dictionary_t) (i : Nat) : Prop :=
  dict.keys[i]? = some none ∧ dict.values[i]? = some (entry_t.value 0)

/-- Slot `i` is Direct: a key in the key cell, its value in the value cell. -/
def slot_is_direct (dict : dictionary_t) (i : Nat) : Prop :=
  ∃ k v, dict.keys[i]? = some (some k) ∧ dict.values[i]? = some (entry_t.value v)

/-- Slot `i` is Bucketed: a bucket is attached to it. -/
def slot_is_bucketed (dict : dictionary_t) (i : Nat) : Prop :=
  ∃ bucket, bucket_attached dict i bucket

/-- Number of pairs beyond the first in the bucket attached to a slot, `0` for
a slot without a bucket. -/
def bucket_excess (key : Option Key) (entry : entry_t) : Int :=
  match key, entry with
  | none, entry_t.collision_buckets bucket => (collision_bucket_size bucket : Int) - 1
  | _, _ => 0

/-- The sum over all attached buckets of (bucket size - 1). -/
def collision_sum (dict : dictionary_t) : Int :=
  ((dict.keys.zip dict.values).map (fun c => bucket_excess c.1 c.2)).sum

/-- Invariant of the statistics fields: `num_collisions` counts the pairs
beyond the first of every attached bucket, and `maximum_chain` is at least the
size of every attached bucket. -/
structure Stats (dict : dictionary_t) : Prop where
  collisions : dict.num_collisions = collision_sum dict
  chain : ∀ i bucket, bucket_attached dict i bucket →
    (collision_bucket_size bucket : Int) ≤ dict.maximum_chain

/-- The dictionary `example_ae` after `dictionary_put("b", 3)`: slot 2 holds
the bucket of "e" and "a", slot 3 holds "b". -/
def example_aeb : dictionary_t :=
  { num_collisions := 1
    num_entries := 3
    maximum_chain := 2
    max_entries := 5
    keys := [none, none, none, some [98], none]
    values := [entry_t.value 0, entry_t.value 0,
      entry_t.collision_buckets
        { max_elements := 16, keys_values := some [([101], 2), ([97], 1)] },
      entry_t.value 3, entry_t.value 0]
    load_factor := 3 / 4 }

/-- The dictionary `example_aeb` after `dictionary_put("d", 4)`, which rebuilds
the table with 11 slots: every key has a slot of its own. -/
def example_aebd : dictionary_t :=
  { num_collisions := 0
    num_entries := 4
    maximum_chain := 0
    max_entries := 11
    keys := [some [97], some [98], none, some [100], some [101], none, none, none, none, none,
      none]
    values := [entry_t.value 1, entry_t.value 3, entry_t.value 0, entry_t.value 4,
      entry_t.value 2, entry_t.value 0, entry_t.value 0, entry_t.value 0, entry_t.value 0,
      entry_t.value 0, entry_t.value 0]
    load_factor := 3 / 4 }

/-- The test `dict->num_entries > dict->load_factor * dict->max_entries` at
the end of `dictionary_put(dict, key, value)` succeeds: the call reaches
`dictionary_rebuild_table`. -/
def put_rebuilds (dict : dictionary_t) (key : Key) (value : dict_value_t) : Bool :=
  match dictionary_put_core dict key value with
  | some dict1 => resize_needed dict1
  | none => false

/-- The closed form of the djb2 hash in the words of the specification:
`(5381 * 33^n + sum over i of b_i * 33^(n-i)) mod 2^63` for the bytes
`b_1 .. b_n`, computed in unbounded natural numbers (`b_i` is cell `i - 1` of
the list). -/
def djb2_closed_form (bytes : List Nat) : Nat :=
  (5381 * 33 ^ bytes.length +
    ((List.range bytes.length).map
      (fun i => bytes.getD i 0 * 33 ^ (bytes.length - (i + 1)))).sum) % 2 ^ 63

/-- A key of 4097 bytes: 4096 times "a", then "b". -/
def example_long_key1 : Key := List.replicate 4096 97 ++ [98]

/-- A key of 4097 bytes: 4096 times "a", then "c". -/
def example_long_key2 : Key := List.replicate 4096 97 ++ [99]

/-- The dictionary `new_dictionary_size_load(2, 0.75)` after
`dictionary_put(key, value)`: with capacity 2 every key hashes to slot 0. -/
def example_two_slots (key : Key) (value : dict_value_t) : dictionary_t :=
  { num_collisions := 0
    num_entries := 1
    maximum_chain := 0
    max_entries := 2
    keys := [some key, none]
    values := [entry_t.value value, entry_t.value 0]
    load_factor := 3 / 4 }

/-- The keys stored in slot `i`, in order: the key of a direct entry or the
keys of the pairs of the attached bucket. -/
def slot_keys (dict : dictionary_t) (i : Nat) : List Key :=
  match dict.keys[i]?, dict.values[i]? with
  | some key, some entry => (slot_pairs key entry).map Prod.fst
  | _, _ => []

/-- The dictionary `new_dictionary_size_load(5, 0.25)` after the puts of "a",
"b", "c" (the third put rebuilds the table with 7 slots) and
`dictionary_remove("c")`. -/
def example_low_load : dictionary_t :=
  { num_collisions := 0
    num_entries := 2
    maximum_chain := 0
    max_entries := 7
    keys := [none, none, none, none, some [97], some [98], none]
    values := [entry_t.value 0, entry_t.value 0, entry_t.value 0, entry_t.value 0,
      entry_t.value 1, entry_t.value 2, entry_t.value 0]
    load_factor := 1 / 4 }

/-- The dictionary `example_low_load` after `dictionary_put("a", 9)`. -/
def example_low_load_replaced : dictionary_t :=
  { num_collisions := 0
    num_entries := 2
    maximum_chain := 0
    max_entries := 5
    keys := [none, none, some [97], some [98], none]
    values := [entry_t.value 0, entry_t.value 0, entry_t.value 9, entry_t.value 2,
      entry_t.value 0]
    load_factor := 1 / 4 }

/-- The bucket of "a", "i" and "e", which all hash to slot 2 of a table of 5
slots. -/
def example_bucket_aie : collision_bucket_t :=
  { max_elements := 16, keys_values := some [([97], 1), ([105], 9), ([101], 2)] }

/-- The dictionary `new_dictionary_size_load(5, 0.75)` after the puts of "i",
"a" and "e": slot 2 holds the bucket `example_bucket_aie`. -/
def example_iae : dictionary_t :=
  { num_collisions := 2
    num_entries := 3
    maximum_chain := 3
    max_entries := 5
    keys := [none, none, none, none, none]
    values := [entry_t.value 0, entry_t.value 0, entry_t.collision_buckets example_bucket_aie,
      entry_t.value 0, entry_t.value 0]
    load_factor := 3 / 4 }

/-- The dictionary `example_iae` after `dictionary_remove("a")`: the bucket of
slot 2 still holds "e" and "i". -/
def example_ie : dictionary_t :=
  { num_collisions := 1
    num_entries := 3
    maximum_chain := 3
    max_entries := 5
    keys := [none, none, none, none, none]
    values := [entry_t.value 0, entry_t.value 0,
      entry_t.collision_buckets
        { max_elements := 16, keys_values := some [([101], 2), ([105], 9)] },
      entry_t.value 0, entry_t.value 0]
    load_factor := 3 / 4 }

/-- The dictionary `new_dictionary_size_load(5, 0.75)` after
`dictionary_put("i", 9)`: "i" is the direct entry of slot 2. -/
def example_i : dictionary_t :=
  { num_collisions := 0
    num_entries := 1
    maximum_chain := 0
    max_entries := 5
    keys := [none, none, some [105], none, none]
    values := [entry_t.value 0, entry_t.value 0, entry_t.value 9, entry_t.value 0,
      entry_t.value 0]
    load_factor := 3 / 4 }

/-- The double nearest to 0.6. -/
def example_load_06 : ℚ := 5404319552844595 / 9007199254740992

/-- The dictionary `new_dictionary_size_load(5, 0.6)` after the puts of "a"
and "b". -/
def example_06_ab : dictionary_t :=
  { num_collisions := 0
    num_entries := 2
    maximum_chain := 0
    max_entries := 5
    keys := [none, none, some [97], some [98], none]
    values := [entry_t.value 0, entry_t.value 0, entry_t.value 1, entry_t.value 2,
      entry_t.value 0]
    load_factor := example_load_06 }

/-- The dictionary `example_06_ab` after `dictionary_put("c", 3)`, which does
not rebuild the table. -/
def example_06_abc : dictionary_t :=
  { num_collisions := 0
    num_entries := 3
    maximum_chain := 0
    max_entries := 5
    keys := [some [99], none, some [97], some [98], none]
    values := [entry_t.value 3, entry_t.value 0, entry_t.value 1, entry_t.value 2,
      entry_t.value 0]
    load_factor := example_load_06 }

/-- The dictionary `new_dictionary_size_load(11, 0.125)` after
`dictionary_put("a", 1)`. -/
def example_eighth_a : dictionary_t :=
  { num_collisions := 0
    num_entries := 1
    maximum_chain := 0
    max_entries := 11
    keys := [some [97], none, none, none, none, none, none, none, none, none, none]
    values := [entry_t.value 1, entry_t.value 0, entry_t.value 0, entry_t.value 0,
      entry_t.value 0, entry_t.value 0, entry_t.value 0, entry_t.value 0, entry_t.value 0,
      entry_t.value 0, entry_t.value 0]
    load_factor := 1 / 8 }

/-- The dictionary `example_eighth_a` after `dictionary_put("b", 2)`, which
rebuilds the table with 5 slots. -/
def example_eighth_ab : dictionary_t :=
  { num_collisions := 0
    num_entries := 2
    maximum_chain := 0
    max_entries := 5
    keys := [none, none, some [97], some [98], none]
    values := [entry_t.value 0, entry_t.value 0, entry_t.value 1, entry_t.value 2,
      entry_t.value 0]
    load_factor := 1 / 8 }

/-! ## Lemmas -/

theorem round_half_even_int (k : Int) : round_half_even (k : ℚ) = k := by
  unfold round_half_even
  rw [Int.floor_intCast]
  simp

theorem round_half_even_floor (t : ℚ) :
    round_half_even t = ⌊t⌋ ∨ round_half_even t = ⌊t⌋ + 1 := by
  unfold round_half_even
  split_ifs
  · exact Or.inl rfl
  · exact Or.inr rfl
  · exact Or.inl rfl
  · exact Or.inr rfl

theorem round_half_even_mono {s t : ℚ} (h : s ≤ t) : round_half_even s ≤ round_half_even t := by
  have hfl : ⌊s⌋ ≤ ⌊t⌋ := Int.floor_mono h
  rcases lt_or_eq_of_le hfl with hlt | heq
  · have h1 : round_half_even s ≤ ⌊s⌋ + 1 := by
      rcases round_half_even_floor s with e | e <;> omega
    have h2 : ⌊t⌋ ≤ round_half_even t := by
      rcases round_half_even_floor t with e | e <;> omega
    omega
  · unfold round_half_even
    rw [heq]
    have hf : s - (⌊t⌋ : ℚ) ≤ t - (⌊t⌋ : ℚ) := by linarith
    split_ifs <;> first | omega | (exfalso; linarith)

theorem double_ulp_pos (q : ℚ) : 0 < double_ulp q := by
  unfold double_ulp
  positivity

theorem two_zpow_52 : (2 : ℚ) ^ (52 : Int) = 4503599627370496 := by norm_num

theorem two_zpow_53 : (2 : ℚ) ^ (53 : Int) = 9007199254740992 := by norm_num

theorem int_log_eq (r : ℚ) (x : Int) (h1 : (2 : ℚ) ^ x ≤ r) (h2 : r < (2 : ℚ) ^ (x + 1)) :
    Int.log 2 r = x := by
  have hr : 0 < r := lt_of_lt_of_le (by positivity) h1
  have a : x ≤ Int.log 2 r := (Int.zpow_le_iff_le_log (by norm_num) hr).mp (by exact_mod_cast h1)
  have b : Int.log 2 r < x + 1 :=
    (Int.lt_zpow_iff_log_lt (by norm_num) hr).mp (by exact_mod_cast h2)
  omega

theorem int_log_bounds (r : ℚ) (hr : 0 < r) :
    (2 : ℚ) ^ Int.log 2 r ≤ r ∧ r < (2 : ℚ) ^ (Int.log 2 r + 1) := by
  constructor
  · exact_mod_cast Int.zpow_log_le_self (by norm_num : 1 < 2) hr
  · exact_mod_cast Int.lt_zpow_succ_log_self (by norm_num : 1 < 2) r

theorem binade_eq (q : ℚ) (hq : 0 < q) :
    (2 : ℚ) ^ Int.log 2 q = 4503599627370496 * double_ulp q ∧
      (2 : ℚ) ^ (Int.log 2 q + 1) = 9007199254740992 * double_ulp q := by
  unfold double_ulp
  rw [abs_of_pos hq, ← two_zpow_52, ← two_zpow_53, ← zpow_add₀ (by norm_num),
    ← zpow_add₀ (by norm_num)]
  constructor <;> congr 1 <;> omega

theorem double_scaled_bounds (q : ℚ) (hq : 0 < q) :
    4503599627370496 ≤ q / double_ulp q ∧ q / double_ulp q < 9007199254740992 := by
  obtain ⟨h1, h2⟩ := int_log_bounds q hq
  have hu := double_ulp_pos q
  obtain ⟨e1, e2⟩ := binade_eq q hq
  rw [e1] at h1
  rw [e2] at h2
  exact ⟨(le_div_iff₀ hu).mpr h1, (div_lt_iff₀ hu).mpr h2⟩

theorem round_double_zero : round_double 0 = 0 := by
  unfold round_double
  rw [if_pos rfl]

theorem round_double_pos_eq (q : ℚ) (hq : 0 < q) :
    round_double q = (round_half_even (q / double_ulp q) : ℚ) * double_ulp q := by
  unfold round_double
  rw [if_neg (ne_of_gt hq)]

theorem round_double_mantissa (q : ℚ) (hq : 0 < q) :
    4503599627370496 ≤ round_half_even (q / double_ulp q) ∧
      round_half_even (q / double_ulp q) ≤ 9007199254740992 := by
  obtain ⟨h1, h2⟩ := double_scaled_bounds q hq
  constructor
  · have := round_half_even_mono h1
    have e : (4503599627370496 : ℚ) = ((4503599627370496 : Int) : ℚ) := by norm_num
    rw [e, round_half_even_int] at this
    exact this
  · have := round_half_even_mono (le_of_lt h2)
    have e : (9007199254740992 : ℚ) = ((9007199254740992 : Int) : ℚ) := by norm_num
    rw [e, round_half_even_int] at this
    exact this

theorem round_double_binade (q : ℚ) (hq : 0 < q) :
    (2 : ℚ) ^ Int.log 2 q ≤ round_double q ∧ round_double q ≤ (2 : ℚ) ^ (Int.log 2 q + 1) := by
  obtain ⟨h1, h2⟩ := round_double_mantissa q hq
  have hu := double_ulp_pos q
  obtain ⟨e1, e2⟩ := binade_eq q hq
  rw [round_double_pos_eq q hq, e1, e2]
  have c1 : (4503599627370496 : ℚ) ≤ (round_half_even (q / double_ulp q) : ℚ) := by
    exact_mod_cast h1
  have c2 : (round_half_even (q / double_ulp q) : ℚ) ≤ 9007199254740992 := by
    exact_mod_cast h2
  exact ⟨mul_le_mul_of_nonneg_right c1 (le_of_lt hu), mul_le_mul_of_nonneg_right c2 (le_of_lt hu)⟩

theorem round_double_nonneg (q : ℚ) (hq : 0 ≤ q) : 0 ≤ round_double q := by
  rcases eq_or_lt_of_le hq with e | h
  · rw [← e, round_double_zero]
  · exact le_trans (by positivity) (round_double_binade q h).1

theorem round_double_mono {x y : ℚ} (hx : 0 ≤ x) (h : x ≤ y) :
    round_double x ≤ round_double y := by
  rcases eq_or_lt_of_le hx with e | hx0
  · rw [← e, round_double_zero]
    exact round_double_nonneg y (le_trans hx h)
  · have hy0 : 0 < y := lt_of_lt_of_le hx0 h
    have hl : Int.log 2 x ≤ Int.log 2 y := Int.log_mono_right hx0 h
    rcases lt_or_eq_of_le hl with hlt | heq
    · have a := (round_double_binade x hx0).2
      have b := (round_double_binade y hy0).1
      have c : (2 : ℚ) ^ (Int.log 2 x + 1) ≤ (2 : ℚ) ^ Int.log 2 y :=
        zpow_le_zpow_right₀ (by norm_num) (by omega)
      linarith
    · have hu : double_ulp x = double_ulp y := by
        unfold double_ulp
        rw [abs_of_pos hx0, abs_of_pos hy0, heq]
      rw [round_double_pos_eq x hx0, round_double_pos_eq y hy0, hu]
      have hpos := double_ulp_pos y
      have hdiv : x / double_ulp y ≤ y / double_ulp y :=
        div_le_div_of_nonneg_right h (le_of_lt hpos)
      have := round_half_even_mono hdiv
      have c : (round_half_even (x / double_ulp y) : ℚ) ≤
          (round_half_even (y / double_ulp y) : ℚ) := by
        exact_mod_cast this
      exact mul_le_mul_of_nonneg_right c (le_of_lt hpos)

theorem round_double_repr (m e : Int) (h1 : 4503599627370496 ≤ m)
    (h2 : m ≤ 9007199254740992) :
    round_double ((m : ℚ) * 2 ^ e) = (m : ℚ) * 2 ^ e := by
  have hm : (0 : ℚ) < (m : ℚ) := by exact_mod_cast (by omega : 0 < m)
  have hpe : (0 : ℚ) < (2 : ℚ) ^ e := by positivity
  have hq : (0 : ℚ) < (m : ℚ) * 2 ^ e := mul_pos hm hpe
  have c1 : (4503599627370496 : ℚ) ≤ (m : ℚ) := by exact_mod_cast h1
  rcases lt_or_eq_of_le h2 with hlt | heq
  · have c2 : (m : ℚ) < 9007199254740992 := by exact_mod_cast hlt
    have hlog : Int.log 2 ((m : ℚ) * 2 ^ e) = 52 + e := by
      apply int_log_eq
      · rw [zpow_add₀ (by norm_num), two_zpow_52]
        exact mul_le_mul_of_nonneg_right c1 (le_of_lt hpe)
      · have : (52 + e + 1 : Int) = 53 + e := by omega
        rw [this, zpow_add₀ (by norm_num), two_zpow_53]
        exact mul_lt_mul_of_pos_right c2 hpe
    have hu : double_ulp ((m : ℚ) * 2 ^ e) = 2 ^ e := by
      unfold double_ulp
      rw [abs_of_pos hq, hlog]
      congr 1
      omega
    rw [round_double_pos_eq _ hq, hu, mul_div_assoc, div_self (ne_of_gt hpe), mul_one,
      round_half_even_int]
  · have hm53 : (m : ℚ) = 9007199254740992 := by exact_mod_cast heq
    have hlog : Int.log 2 ((m : ℚ) * 2 ^ e) = 53 + e := by
      apply int_log_eq
      · rw [hm53, zpow_add₀ (by norm_num), two_zpow_53]
      · rw [hm53]
        have : (53 + e + 1 : Int) = 53 + e + 1 := rfl
        rw [zpow_add₀ (by norm_num), zpow_add₀ (by norm_num), two_zpow_53, zpow_one]
        linarith
    have hu : double_ulp ((m : ℚ) * 2 ^ e) = 2 ^ e * 2 := by
      unfold double_ulp
      rw [abs_of_pos hq, hlog]
      have : (53 + e - 52 : Int) = e + 1 := by omega
      rw [this, zpow_add₀ (by norm_num), zpow_one]
    have hdiv : (m : ℚ) * 2 ^ e / (2 ^ e * 2) = ((4503599627370496 : Int) : ℚ) := by
      rw [hm53, div_eq_iff (ne_of_gt (by positivity))]
      push_cast
      ring
    rw [round_double_pos_eq _ hq, hu, hdiv, round_half_even_int, hm53]
    push_cast
    ring

theorem round_double_idem (q : ℚ) (hq : 0 ≤ q) :
    round_double (round_double q) = round_double q := by
  rcases eq_or_lt_of_le hq with e | h
  · rw [← e, round_double_zero, round_double_zero]
  · obtain ⟨h1, h2⟩ := round_double_mantissa q h
    rw [round_double_pos_eq q h]
    unfold double_ulp
    exact round_double_repr _ _ h1 h2

theorem round_double_half (q : ℚ) (hq : 0 ≤ q) : round_double (q / 2) = round_double q / 2 := by
  rcases eq_or_lt_of_le hq with e | h
  · rw [← e]
    simp [round_double_zero]
  · have h2 : 0 < q / 2 := by positivity
    obtain ⟨b1, b2⟩ := int_log_bounds q h
    have hlog : Int.log 2 (q / 2) = Int.log 2 q - 1 := by
      apply int_log_eq
      · rw [zpow_sub₀ (by norm_num), zpow_one]
        exact div_le_div_of_nonneg_right b1 (by norm_num)
      · have : (Int.log 2 q - 1 + 1 : Int) = Int.log 2 q + 1 - 1 := by omega
        rw [this, zpow_sub₀ (by norm_num), zpow_one]
        exact div_lt_div_of_pos_right b2 (by norm_num)
    have hu : double_ulp (q / 2) = double_ulp q / 2 := by
      unfold double_ulp
      rw [abs_of_pos h, abs_of_pos h2, hlog]
      have : (Int.log 2 q - 1 - 52 : Int) = Int.log 2 q - 52 - 1 := by omega
      rw [this, zpow_sub₀ (by norm_num), zpow_one]
    have hpos := double_ulp_pos q
    rw [round_double_pos_eq _ h2, round_double_pos_eq _ h, hu]
    have : q / 2 / (double_ulp q / 2) = q / double_ulp q := by
      field_simp
    rw [this]
    ring

theorem round_double_half_load (n cap lf : ℚ) (hn : 0 ≤ n) (h : 2 * n ≤ cap)
    (hlf : 1 / 2 ≤ lf) :
    round_double n ≤ round_double (lf * round_double cap) := by
  have hcap : 0 ≤ cap := by linarith
  have hc := round_double_nonneg cap hcap
  have a : round_double n ≤ round_double (cap / 2) := round_double_mono hn (by linarith)
  have b : round_double (cap / 2) = round_double (round_double cap / 2) := by
    rw [round_double_half cap hcap, round_double_half _ hc, round_double_idem cap hcap]
  have c : round_double (round_double cap / 2) ≤ round_double (lf * round_double cap) :=
    round_double_mono (by positivity) (by nlinarith)
  linarith

theorem no_resize_of_half_load (d : dictionary_t) (hlf : 1 / 2 ≤ d.load_factor)
    (h : 2 * d.num_entries ≤ d.max_entries) (h0 : 0 ≤ d.num_entries) :
    resize_needed d = false := by
  unfold resize_needed
  rw [decide_eq_false_iff_not]
  apply not_lt.mpr
  apply round_double_half_load _ _ _ _ _ hlf
  · exact_mod_cast h0
  · exact_mod_cast h

theorem resize_needed_congr (d d1 : dictionary_t) (hn : d1.num_entries = d.num_entries)
    (hlf : d1.load_factor = d.load_factor) (hcap : d1.max_entries = d.max_entries) :
    resize_needed d1 = resize_needed d := by
  unfold resize_needed
  rw [hn, hlf, hcap]

theorem strncmp_eq_zero_iff_left (a b : Key) (n : Nat) (ha : a.length < n) :
    strncmp a b n = 0 ↔ a = b := by
  unfold strncmp
  constructor
  · intro h
    split at h
    · rename_i heq
      have h1 : a.take n = a := List.take_of_length_le (le_of_lt ha)
      rw [h1] at heq
      have h2 : (b.take n).length < n := by rw [← heq]; exact ha
      rw [List.length_take] at h2
      have h3 : b.length < n := by omega
      rw [List.take_of_length_le (le_of_lt h3)] at heq
      exact heq
    · simp at h
  · intro h
    subst h
    simp

theorem strncmp_eq_zero_iff_right (a b : Key) (n : Nat) (hb : b.length < n) :
    strncmp a b n = 0 ↔ a = b := by
  have h := strncmp_eq_zero_iff_left b a n hb
  unfold strncmp at h ⊢
  constructor
  · intro h1
    split at h1
    · rename_i heq
      exact (h.mp (by simp [heq])).symm
    · simp at h1
  · intro h1
    subst h1
    simp

theorem strcmp_eq_zero_iff (a b : Key) : strcmp a b = 0 ↔ a = b := by
  unfold strcmp
  split <;> simp_all

theorem assoc_value_of_not_mem (k : Key) (l : List (Key × dict_value_t))
    (h : k ∉ l.map Prod.fst) : assoc_value k l = 0 := by
  induction l with
  | nil => rfl
  | cons p rest ih =>
    simp only [List.map_cons, List.mem_cons, not_or] at h
    simp only [assoc_value]
    rw [if_neg (fun e => h.1 e.symm)]
    exact ih h.2

theorem assoc_value_of_mem (k : Key) (v : dict_value_t) (l : List (Key × dict_value_t))
    (hn : (l.map Prod.fst).Nodup) (h : (k, v) ∈ l) : assoc_value k l = v := by
  induction l with
  | nil => simp at h
  | cons p rest ih =>
    simp only [List.map_cons, List.nodup_cons] at hn
    simp only [assoc_value]
    rcases List.mem_cons.mp h with h1 | h1
    · subst h1
      simp
    · have hne : p.1 ≠ k := by
        intro e
        apply hn.1
        rw [e]
        exact List.mem_map_of_mem Prod.fst h1
      rw [if_neg hne]
      exact ih hn.2 h1

theorem assoc_value_mem (k : Key) (l : List (Key × dict_value_t))
    (h : k ∈ l.map Prod.fst) : (k, assoc_value k l) ∈ l := by
  induction l with
  | nil => simp at h
  | cons p rest ih =>
    simp only [assoc_value]
    by_cases hp : p.1 = k
    · rw [if_pos hp]
      subst hp
      simp
    · rw [if_neg hp]
      simp only [List.map_cons, List.mem_cons] at h
      rcases h with h | h
      · exact absurd h.symm hp
      · exact List.mem_cons_of_mem _ (ih h)

theorem assoc_value_append_of_not_mem (k : Key) (l1 l2 : List (Key × dict_value_t))
    (h : k ∉ l1.map Prod.fst) : assoc_value k (l1 ++ l2) = assoc_value k l2 := by
  induction l1 with
  | nil => rfl
  | cons p rest ih =>
    simp only [List.map_cons, List.mem_cons, not_or] at h
    simp only [List.cons_append, assoc_value]
    rw [if_neg (fun e => h.1 e.symm)]
    exact ih h.2

theorem assoc_value_append_right_of_not_mem (k : Key) (l1 l2 : List (Key × dict_value_t))
    (h : k ∉ l2.map Prod.fst) : assoc_value k (l1 ++ l2) = assoc_value k l1 := by
  induction l1 with
  | nil => simpa using assoc_value_of_not_mem k l2 h
  | cons p rest ih =>
    show (if p.1 = k then p.2 else assoc_value k (rest ++ l2)) =
      (if p.1 = k then p.2 else assoc_value k rest)
    rw [ih]

theorem get_scan_eq_assoc (k : Key) (l : List (Key × dict_value_t))
    (hl : ∀ p ∈ l, p.1.length < MAX_KEY) :
    collision_bucket_get_scan k l = assoc_value k l := by
  induction l with
  | nil => rfl
  | cons p rest ih =>
    simp only [collision_bucket_get_scan, assoc_value]
    have hp := hl p (List.mem_cons_self _ _)
    have hiff := strncmp_eq_zero_iff_right k p.1 MAX_KEY hp
    by_cases hk : p.1 = k
    · rw [if_pos (hiff.mpr hk.symm), if_pos hk]
    · rw [if_neg (fun e => hk (hiff.mp e).symm), if_neg hk]
      exact ih (fun q hq => hl q (List.mem_cons_of_mem _ hq))

theorem replace_eq_none (k : Key) (v : dict_value_t) (l : List (Key × dict_value_t))
    (hk : k.length < MAX_KEY) (h : k ∉ l.map Prod.fst) :
    collision_bucket_replace k v l = none := by
  induction l with
  | nil => rfl
  | cons p rest ih =>
    simp only [List.map_cons, List.mem_cons, not_or] at h
    simp only [collision_bucket_replace]
    have hiff := strncmp_eq_zero_iff_right p.1 k MAX_KEY hk
    rw [if_neg (fun e => h.1 (hiff.mp e).symm)]
    rw [ih h.2]
    rfl

theorem replace_eq_some (k : Key) (v : dict_value_t) (l : List (Key × dict_value_t))
    (hk : k.length < MAX_KEY) (hn : (l.map Prod.fst).Nodup) (h : k ∈ l.map Prod.fst) :
    ∃ l1, collision_bucket_replace k v l = some l1 ∧ l1.map Prod.fst = l.map Prod.fst ∧
      l1.length = l.length ∧
      ∀ p, p ∈ l1 ↔ p = (k, v) ∨ (p.1 ≠ k ∧ p ∈ l) := by
  induction l with
  | nil => simp at h
  | cons q rest ih =>
    simp only [List.map_cons, List.nodup_cons] at hn
    simp only [collision_bucket_replace]
    have hiff := strncmp_eq_zero_iff_right q.1 k MAX_KEY hk
    by_cases hq : q.1 = k
    · rw [if_pos (hiff.mpr hq)]
      refine ⟨(q.1, v) :: rest, rfl, by simp, by simp, ?_⟩
      intro p
      have hrest : ∀ p ∈ rest, p.1 ≠ k := by
        intro p hp e
        apply hn.1
        rw [hq, ← e]
        exact List.mem_map_of_mem Prod.fst hp
      simp only [List.mem_cons]
      constructor
      · rintro (h1 | h1)
        · left; rw [h1, hq]
        · right; exact ⟨hrest p h1, Or.inr h1⟩
      · rintro (h1 | ⟨h1, h2 | h2⟩)
        · left; rw [h1, hq]
        · exact absurd (by rw [h2]; exact hq) h1
        · right; exact h2
    · rw [if_neg (fun e => hq (hiff.mp e))]
      simp only [List.map_cons, List.mem_cons] at h
      rcases h with h | h
      · exact absurd h.symm hq
      · obtain ⟨l1, h1, h2, h3, h4⟩ := ih hn.2 h
        refine ⟨q :: l1, by rw [h1]; rfl, by simp [h2], by simp [h3], ?_⟩
        intro p
        simp only [List.mem_cons, h4]
        constructor
        · rintro (h5 | h5 | ⟨h5, h6⟩)
          · right; exact ⟨by rw [h5]; exact hq, Or.inl h5⟩
          · left; exact h5
          · right; exact ⟨h5, Or.inr h6⟩
        · rintro (h5 | ⟨h5, h6 | h6⟩)
          · right; left; exact h5
          · left; exact h6
          · right; right; exact ⟨h5, h6⟩

theorem addpair_absent (b : collision_bucket_t) (k : Key) (v : dict_value_t)
    (hk : k.length < MAX_KEY) (h : k ∉ (bucket_pairs b).map Prod.fst) :
    (collision_bucket_addpair b (some k) v).2 = 1 ∧
    bucket_pairs (collision_bucket_addpair b (some k) v).1 = bucket_pairs b ++ [(k, v)] ∧
    (collision_bucket_addpair b (some k) v).1.keys_values.isSome = true := by
  have hb1 : bucket_pairs (if b.keys_values.isNone then cb_reinitializeArrays b CB_INITIAL_SIZE
      else b) = bucket_pairs b := by
    split
    · simp [cb_reinitializeArrays, bucket_pairs]
    · rfl
  have hb2 : ∀ b1 : collision_bucket_t, bucket_pairs (if collision_bucket_size b1 ≥ b1.max_elements
      then cb_reinitializeArrays b1 (collision_bucket_size b1 + 8) else b1) = bucket_pairs b1 := by
    intro b1
    split
    · simp [cb_reinitializeArrays, bucket_pairs]
    · rfl
  simp only [collision_bucket_addpair]
  rw [hb1, replace_eq_none k v _ hk h]
  simp only
  refine ⟨trivial, ?_, rfl⟩
  rw [hb2, hb1]
  rfl

theorem addpair_present (b : collision_bucket_t) (k : Key) (v : dict_value_t)
    (hk : k.length < MAX_KEY) (hn : ((bucket_pairs b).map Prod.fst).Nodup)
    (h : k ∈ (bucket_pairs b).map Prod.fst) :
    (collision_bucket_addpair b (some k) v).2 = 0 ∧
    (collision_bucket_addpair b (some k) v).1.keys_values.isSome = true ∧
    (bucket_pairs (collision_bucket_addpair b (some k) v).1).map Prod.fst =
      (bucket_pairs b).map Prod.fst ∧
    (bucket_pairs (collision_bucket_addpair b (some k) v).1).length = (bucket_pairs b).length ∧
    ∀ p, p ∈ bucket_pairs (collision_bucket_addpair b (some k) v).1 ↔
      p = (k, v) ∨ (p.1 ≠ k ∧ p ∈ bucket_pairs b) := by
  have hb1 : bucket_pairs (if b.keys_values.isNone then cb_reinitializeArrays b CB_INITIAL_SIZE
      else b) = bucket_pairs b := by
    split
    · simp [cb_reinitializeArrays, bucket_pairs]
    · rfl
  obtain ⟨l1, h1, h2, h3, h4⟩ := replace_eq_some k v (bucket_pairs b) hk hn h
  simp only [collision_bucket_addpair]
  rw [hb1, h1]
  simp only [bucket_pairs, Option.getD_some]
  exact ⟨trivial, rfl, h2, h3, h4⟩

theorem zip_set_set {α β : Type} (l1 : List α) (l2 : List β) (i : Nat) (a : α) (b : β) :
    (l1.set i a).zip (l2.set i b) = (l1.zip l2).set i (a, b) := by
  induction l1 generalizing l2 i with
  | nil => simp
  | cons x xs ih =>
    cases l2 with
    | nil => simp
    | cons y ys =>
      cases i with
      | zero => simp
      | succ i => simp [ih]

theorem mem_flatMap_index {α β : Type} (f : α → List β) (l : List α) (p : β)
    (h : p ∈ l.flatMap f) : ∃ (j : Nat) (c : α), l[j]? = some c ∧ p ∈ f c := by
  obtain ⟨c, hc, hp⟩ := List.mem_flatMap.mp h
  obtain ⟨j, hj⟩ := List.mem_iff_getElem?.mp hc
  exact ⟨j, c, hj, hp⟩

theorem flatMap_set_split {α β : Type} (f : α → List β) (l : List α) (i : Nat) (c0 : α)
    (h : l[i]? = some c0) :
    ∃ A B, l.flatMap f = A ++ f c0 ++ B ∧ (∀ c, (l.set i c).flatMap f = A ++ f c ++ B) ∧
      ∀ p ∈ A ++ B, ∃ (j : Nat) (cj : α), j ≠ i ∧ l[j]? = some cj ∧ p ∈ f cj := by
  induction l generalizing i with
  | nil => simp at h
  | cons a l ih =>
    cases i with
    | zero =>
      simp only [List.getElem?_cons_zero, Option.some.injEq] at h
      subst h
      refine ⟨[], l.flatMap f, by simp, by simp, ?_⟩
      intro p hp
      simp only [List.nil_append] at hp
      obtain ⟨j, cj, hj, hpj⟩ := mem_flatMap_index f l p hp
      exact ⟨j + 1, cj, by omega, by simpa using hj, hpj⟩
    | succ i =>
      simp only [List.getElem?_cons_succ] at h
      obtain ⟨A, B, h1, h2, h3⟩ := ih i h
      refine ⟨f a ++ A, B, by simp [h1], by simp [h2], ?_⟩
      intro p hp
      simp only [List.append_assoc, List.mem_append] at hp
      rcases hp with hp | hp | hp
      · exact ⟨0, a, by omega, by simp, hp⟩
      · obtain ⟨j, cj, hj1, hj2, hj3⟩ := h3 p (List.mem_append_left _ hp)
        exact ⟨j + 1, cj, by omega, by simpa using hj2, hj3⟩
      · obtain ⟨j, cj, hj1, hj2, hj3⟩ := h3 p (List.mem_append_right _ hp)
        exact ⟨j + 1, cj, by omega, by simpa using hj2, hj3⟩

theorem getElem?_zip_some {α β : Type} (l1 : List α) (l2 : List β) (i : Nat) (a : α) (b : β) :
    (l1.zip l2)[i]? = some (a, b) ↔ l1[i]? = some a ∧ l2[i]? = some b := by
  rw [List.getElem?_zip_eq_some]

theorem mem_contents_iff (d : dictionary_t) (p : Key × dict_value_t) :
    p ∈ contents d ↔ ∃ (j : Nat) (kj : Option Key) (ej : entry_t), d.keys[j]? = some kj ∧ d.values[j]? = some ej ∧
      p ∈ slot_pairs kj ej := by
  unfold contents
  constructor
  · intro h
    obtain ⟨j, c, hj, hp⟩ := mem_flatMap_index _ _ p h
    obtain ⟨kj, ej⟩ := c
    exact ⟨j, kj, ej, ((getElem?_zip_some _ _ _ _ _).mp hj).1,
      ((getElem?_zip_some _ _ _ _ _).mp hj).2, hp⟩
  · rintro ⟨j, kj, ej, h1, h2, h3⟩
    apply List.mem_flatMap.mpr
    refine ⟨(kj, ej), ?_, h3⟩
    exact List.mem_iff_getElem?.mpr ⟨j, (getElem?_zip_some _ _ _ _ _).mpr ⟨h1, h2⟩⟩

theorem contents_split_raw (d : dictionary_t) (i : Nat) (key : Option Key) (entry : entry_t)
    (hk : d.keys[i]? = some key) (hv : d.values[i]? = some entry) :
    ∃ A B, contents d = A ++ slot_pairs key entry ++ B ∧
      (∀ (d1 : dictionary_t) (key1 : Option Key) (entry1 : entry_t),
        d1.keys = d.keys.set i key1 → d1.values = d.values.set i entry1 →
        contents d1 = A ++ slot_pairs key1 entry1 ++ B) ∧
      ∀ p ∈ A ++ B, ∃ (j : Nat) (kj : Option Key) (ej : entry_t), j ≠ i ∧
        d.keys[j]? = some kj ∧ d.values[j]? = some ej ∧ p ∈ slot_pairs kj ej := by
  have hz : (d.keys.zip d.values)[i]? = some (key, entry) :=
    (getElem?_zip_some _ _ _ _ _).mpr ⟨hk, hv⟩
  obtain ⟨A, B, h1, h2, h3⟩ :=
    flatMap_set_split (fun c : Option Key × entry_t => slot_pairs c.1 c.2) _ i _ hz
  refine ⟨A, B, h1, ?_, ?_⟩
  · intro d1 key1 entry1 hk1 hv1
    unfold contents
    rw [hk1, hv1, zip_set_set]
    exact h2 (key1, entry1)
  · intro p hp
    obtain ⟨j, cj, hj1, hj2, hj3⟩ := h3 p hp
    obtain ⟨kj, ej⟩ := cj
    exact ⟨j, kj, ej, hj1, ((getElem?_zip_some _ _ _ _ _).mp hj2).1,
      ((getElem?_zip_some _ _ _ _ _).mp hj2).2, hj3⟩

theorem hash_index_some (m : Int) (k : Key) (h2 : 2 ≤ m) (h63 : m < 2 ^ 63) :
    ∃ i, hash_index m k = some i ∧ i < m.toNat := by
  have hm : (m - 1) % 2 ^ 64 = m - 1 := Int.emod_eq_of_lt (by omega) (by omega)
  unfold hash_index
  rw [hm]
  have hpos : 0 < (m - 1).toNat := by omega
  rw [if_neg (by omega)]
  refine ⟨_, rfl, ?_⟩
  have := Nat.mod_lt (hash k) hpos
  omega

theorem hash_index_lt (m : Int) (k : Key) (i : Nat) (h2 : 2 ≤ m) (h63 : m < 2 ^ 63)
    (h : hash_index m k = some i) : i < m.toNat := by
  obtain ⟨j, hj, hlt⟩ := hash_index_some m k h2 h63
  rw [hj] at h
  cases h
  exact hlt

theorem WellFormed.slot_at {d : dictionary_t} (hw : WellFormed d) (i : Nat)
    (hi : i < d.max_entries.toNat) :
    ∃ key entry, d.keys[i]? = some key ∧ d.values[i]? = some entry ∧
      slot_ok d.max_entries i key entry := by
  have h1 : i < d.keys.length := by rw [hw.keys_length]; exact hi
  have h2 : i < d.values.length := by rw [hw.values_length]; exact hi
  refine ⟨d.keys[i], d.values[i], List.getElem?_eq_getElem h1, List.getElem?_eq_getElem h2, ?_⟩
  exact hw.slots i _ _ (List.getElem?_eq_getElem h1) (List.getElem?_eq_getElem h2)

theorem WellFormed.slot_of_key {d : dictionary_t} (hw : WellFormed d) (k : Key) :
    ∃ i key entry, hash_index d.max_entries k = some i ∧ i < d.max_entries.toNat ∧
      d.keys[i]? = some key ∧ d.values[i]? = some entry ∧ slot_ok d.max_entries i key entry := by
  obtain ⟨i, hi, hlt⟩ := hash_index_some d.max_entries k hw.capacity_ge hw.capacity_lt
  obtain ⟨key, entry, h1, h2, h3⟩ := hw.slot_at i hlt
  exact ⟨i, key, entry, hi, hlt, h1, h2, h3⟩

theorem WellFormed.mem_contents {d : dictionary_t} (hw : WellFormed d) (p : Key × dict_value_t)
    (hp : p ∈ contents d) :
    p.1.length < MAX_KEY ∧ ∃ (j : Nat) (kj : Option Key) (ej : entry_t),
      hash_index d.max_entries p.1 = some j ∧
      d.keys[j]? = some kj ∧ d.values[j]? = some ej ∧ p ∈ slot_pairs kj ej := by
  obtain ⟨j, kj, ej, h1, h2, h3⟩ := (mem_contents_iff d p).mp hp
  have hs := hw.slots j kj ej h1 h2
  exact ⟨(hs.2 p h3).1, j, kj, ej, (hs.2 p h3).2, h1, h2, h3⟩

theorem slot_pairs_nodup (m : Int) (i : Nat) (key : Option Key) (entry : entry_t)
    (h : slot_ok m i key entry) : ((slot_pairs key entry).map Prod.fst).Nodup := by
  unfold slot_ok at h
  cases key with
  | none =>
    cases entry with
    | value v => simp [slot_pairs]
    | collision_buckets b => exact h.1.2.2
  | some k =>
    cases entry with
    | value v => simp [slot_pairs]
    | collision_buckets b => simp [slot_pairs]

theorem WellFormed.nodup_contents {d : dictionary_t} (hw : WellFormed d) :
    ((contents d).map Prod.fst).Nodup := by
  unfold contents
  rw [List.map_flatMap, List.nodup_flatMap]
  constructor
  · intro c hc
    obtain ⟨j, hj⟩ := List.mem_iff_getElem?.mp hc
    obtain ⟨kj, ej⟩ := c
    have h1 := (getElem?_zip_some _ _ _ _ _).mp hj
    exact slot_pairs_nodup _ _ _ _ (hw.slots j kj ej h1.1 h1.2)
  · rw [List.pairwise_iff_getElem]
    intro i j hi hj hij
    have h1 := (getElem?_zip_some _ _ i _ _).mp
      (List.getElem?_eq_getElem hi : (d.keys.zip d.values)[i]? = some ((d.keys.zip d.values)[i].1,
        (d.keys.zip d.values)[i].2))
    have h2 := (getElem?_zip_some _ _ j _ _).mp
      (List.getElem?_eq_getElem hj : (d.keys.zip d.values)[j]? = some ((d.keys.zip d.values)[j].1,
        (d.keys.zip d.values)[j].2))
    have hs1 := hw.slots i _ _ h1.1 h1.2
    have hs2 := hw.slots j _ _ h2.1 h2.2
    simp only [Function.onFun]
    rw [List.disjoint_left]
    intro a ha hb
    obtain ⟨p, hp, hpa⟩ := List.mem_map.mp ha
    obtain ⟨q, hq, hqa⟩ := List.mem_map.mp hb
    have e1 := (hs1.2 p hp).2
    have e2 := (hs2.2 q hq).2
    rw [hpa] at e1
    rw [hqa, e1] at e2
    simp only [Option.some.injEq] at e2
    omega

theorem WellFormed.contents_split {d : dictionary_t} (hw : WellFormed d) (k : Key) (i : Nat)
    (key : Option Key) (entry : entry_t) (hi : hash_index d.max_entries k = some i)
    (hk : d.keys[i]? = some key) (hv : d.values[i]? = some entry) :
    ∃ A B, contents d = A ++ slot_pairs key entry ++ B ∧
      (∀ p ∈ A ++ B, p.1 ≠ k ∧ p ∈ contents d) ∧
      ∀ (d1 : dictionary_t) (key1 : Option Key) (entry1 : entry_t),
        d1.keys = d.keys.set i key1 → d1.values = d.values.set i entry1 →
        contents d1 = A ++ slot_pairs key1 entry1 ++ B := by
  obtain ⟨A, B, h1, h2, h3⟩ := contents_split_raw d i key entry hk hv
  refine ⟨A, B, h1, ?_, h2⟩
  intro p hp
  obtain ⟨j, kj, ej, hj1, hj2, hj3, hj4⟩ := h3 p hp
  constructor
  · intro e
    have := ((hw.slots j kj ej hj2 hj3).2 p hj4).2
    rw [e, hi] at this
    simp only [Option.some.injEq] at this
    exact hj1 this.symm
  · rw [h1]
    simp only [List.mem_append] at hp ⊢
    tauto

theorem WellFormed.assoc_contents {d : dictionary_t} (hw : WellFormed d) (k : Key) (i : Nat)
    (key : Option Key) (entry : entry_t) (hi : hash_index d.max_entries k = some i)
    (hk : d.keys[i]? = some key) (hv : d.values[i]? = some entry) :
    assoc_value k (contents d) = assoc_value k (slot_pairs key entry) ∧
    (k ∈ (contents d).map Prod.fst ↔ k ∈ (slot_pairs key entry).map Prod.fst) := by
  obtain ⟨A, B, h1, h2, -⟩ := hw.contents_split k i key entry hi hk hv
  have hA : k ∉ A.map Prod.fst := by
    intro h
    obtain ⟨p, hp, e⟩ := List.mem_map.mp h
    exact (h2 p (List.mem_append_left _ hp)).1 e
  have hB : k ∉ B.map Prod.fst := by
    intro h
    obtain ⟨p, hp, e⟩ := List.mem_map.mp h
    exact (h2 p (List.mem_append_right _ hp)).1 e
  rw [h1]
  constructor
  · rw [List.append_assoc, assoc_value_append_of_not_mem k A _ hA,
      assoc_value_append_right_of_not_mem k _ B hB]
  · simp only [List.map_append, List.mem_append]
    tauto

theorem get_spec (d : dictionary_t) (hw : WellFormed d) (k : Key) :
    dictionary_get d (some k) = some (assoc_value k (contents d)) := by
  obtain ⟨i, key, entry, hi, -, hk, hv, hs⟩ := hw.slot_of_key k
  rw [(hw.assoc_contents k i key entry hi hk hv).1]
  simp only [dictionary_get, hi, hk, hv]
  unfold slot_ok at hs
  cases key with
  | none =>
    cases entry with
    | value v =>
      simp only at hs ⊢
      simp [hs.1, slot_pairs, assoc_value]
    | collision_buckets b =>
      simp only [slot_pairs, collision_bucket_get]
      rw [get_scan_eq_assoc k (bucket_pairs b) (fun p hp => (hs.2 p hp).1)]
  | some hkey =>
    cases entry with
    | value v =>
      simp only [slot_pairs, assoc_value]
      have hlen := (hs.2 (hkey, v) (by simp [slot_pairs])).1
      have hiff := strncmp_eq_zero_iff_right k hkey MAX_KEY hlen
      by_cases e : hkey = k
      · rw [if_pos (hiff.mpr e.symm), if_pos e]
      · rw [if_neg (fun h => e (hiff.mp h).symm), if_neg e]
    | collision_buckets b => exact absurd hs.1 (by simp)

theorem set_eq_self_of_getElem? {α : Type} (l : List α) (i : Nat) (a : α) (h : l[i]? = some a) :
    l = l.set i a := by
  induction l generalizing i with
  | nil => simp
  | cons x xs ih =>
    cases i with
    | zero =>
      simp only [List.getElem?_cons_zero, Option.some.injEq] at h
      simp [h]
    | succ i =>
      simp only [List.getElem?_cons_succ] at h
      simp only [List.set_cons_succ, List.cons.injEq, true_and]
      exact ih i h

theorem WellFormed.update {d d1 : dictionary_t} (hw : WellFormed d) (i : Nat)
    (key1 : Option Key) (entry1 : entry_t)
    (hk1 : d1.keys = d.keys.set i key1) (hv1 : d1.values = d.values.set i entry1)
    (hm : d1.max_entries = d.max_entries) (hs : slot_ok d.max_entries i key1 entry1) :
    WellFormed d1 := by
  refine ⟨by rw [hm]; exact hw.capacity_ge, by rw [hm]; exact hw.capacity_lt,
    by rw [hk1, hm, List.length_set]; exact hw.keys_length,
    by rw [hv1, hm, List.length_set]; exact hw.values_length, ?_⟩
  intro j key entry hj1 hj2
  rw [hm]
  rw [hk1] at hj1
  rw [hv1] at hj2
  by_cases e : i = j
  · subst e
    have e1 : key = key1 := by
      rw [List.getElem?_set] at hj1
      simp only [if_true] at hj1
      split at hj1
      · exact (Option.some.inj hj1).symm
      · simp at hj1
    have e2 : entry = entry1 := by
      rw [List.getElem?_set] at hj2
      simp only [if_true] at hj2
      split at hj2
      · exact (Option.some.inj hj2).symm
      · simp at hj2
    rw [e1, e2]
    exact hs
  · rw [List.getElem?_set_ne e] at hj1 hj2
    exact hw.slots j key entry hj1 hj2

theorem put_lift (d d1 : dictionary_t) (hw : WellFormed d) (k : Key) (v : dict_value_t)
    (i : Nat) (key key1 : Option Key) (entry entry1 : entry_t) (delta : Nat)
    (hi : hash_index d.max_entries k = some i)
    (hkey : d.keys[i]? = some key) (hval : d.values[i]? = some entry)
    (hk1 : d1.keys = d.keys.set i key1) (hv1 : d1.values = d.values.set i entry1)
    (hm : d1.max_entries = d.max_entries) (hs : slot_ok d.max_entries i key1 entry1)
    (ha : ∀ p, p ∈ slot_pairs key1 entry1 ↔ p = (k, v) ∨ (p.1 ≠ k ∧ p ∈ slot_pairs key entry))
    (hlen : (slot_pairs key1 entry1).length = (slot_pairs key entry).length + delta) :
    WellFormed d1 ∧ (∀ p, p ∈ contents d1 ↔ p = (k, v) ∨ (p.1 ≠ k ∧ p ∈ contents d)) ∧
      (contents d1).length = (contents d).length + delta := by
  obtain ⟨A, B, h1, h2, h3⟩ := hw.contents_split k i key entry hi hkey hval
  have h4 := h3 d1 key1 entry1 hk1 hv1
  refine ⟨hw.update i key1 entry1 hk1 hv1 hm hs, ?_, ?_⟩
  · intro p
    rw [h4, h1]
    have hA : p ∈ A → p.1 ≠ k := fun hp => (h2 p (List.mem_append_left _ hp)).1
    have hB : p ∈ B → p.1 ≠ k := fun hp => (h2 p (List.mem_append_right _ hp)).1
    have hkv : p = (k, v) → p.1 = k := fun e => by rw [e]
    simp only [List.mem_append, ha p]
    tauto
  · rw [h4, h1]
    simp only [List.length_append, hlen]
    omega

theorem put_core_spec (d : dictionary_t) (hw : WellFormed d) (k : Key) (v : dict_value_t)
    (hk : k.length < MAX_KEY) :
    ∃ d1, dictionary_put_core d k v = some d1 ∧ WellFormed d1 ∧
      d1.max_entries = d.max_entries ∧ d1.load_factor = d.load_factor ∧
      (∀ p, p ∈ contents d1 ↔ p = (k, v) ∨ (p.1 ≠ k ∧ p ∈ contents d)) ∧
      (k ∈ (contents d).map Prod.fst →
        d1.num_entries = d.num_entries ∧ (contents d1).length = (contents d).length) ∧
      (k ∉ (contents d).map Prod.fst →
        d1.num_entries = d.num_entries + 1 ∧
        (contents d1).length = (contents d).length + 1) := by
  obtain ⟨i, key, entry, hi, -, hkey, hval, hs⟩ := hw.slot_of_key k
  have hmem := (hw.assoc_contents k i key entry hi hkey hval).2
  unfold slot_ok at hs
  cases key with
  | none =>
    cases entry with
    | value v0 =>
      have hv0 : v0 = 0 := hs.1
      subst hv0
      refine ⟨_, by simp only [dictionary_put_core, hi, hkey, hval]; rfl, ?_⟩
      have hl := put_lift d
          ({ d with
            keys := d.keys.set i (some k)
            values := d.values.set i (entry_t.value v)
            num_entries := d.num_entries + 1 })
          hw k v i none (some k) (entry_t.value 0) (entry_t.value v) 1 hi hkey hval
          rfl rfl rfl
        ⟨trivial, by
          intro p hp
          simp only [slot_pairs, List.mem_singleton] at hp
          rw [hp]
          exact ⟨hk, hi⟩⟩
        (by intro p; simp [slot_pairs]) (by simp [slot_pairs])
      refine ⟨hl.1, rfl, rfl, hl.2.1, ?_, ?_⟩
      · intro h
        rw [hmem] at h
        simp [slot_pairs] at h
      · intro _
        exact ⟨rfl, hl.2.2⟩
    | collision_buckets b =>
      have hkeys : d.keys = d.keys.set i none := set_eq_self_of_getElem? _ _ _ hkey
      by_cases hin : k ∈ (bucket_pairs b).map Prod.fst
      · obtain ⟨r1, r2, r3, r4, r5⟩ := addpair_present b k v hk hs.1.2.2 hin
        refine ⟨_, by simp only [dictionary_put_core, hi, hkey, hval, r1]; rfl, ?_⟩
        have hl := put_lift d
            ({ d with
              values := d.values.set i
                (entry_t.collision_buckets (collision_bucket_addpair b (some k) v).1) })
            hw k v i none none (entry_t.collision_buckets b)
          (entry_t.collision_buckets (collision_bucket_addpair b (some k) v).1) 0 hi hkey hval
            hkeys rfl rfl
          ⟨⟨r2, by unfold collision_bucket_size; rw [r4]; exact hs.1.2.1, by rw [r3]; exact hs.1.2.2⟩,
            by
              intro p hp
              simp only [slot_pairs] at hp
              rcases (r5 p).mp hp with e | ⟨-, e⟩
              · rw [e]; exact ⟨hk, hi⟩
              · exact hs.2 p e⟩
          (by intro p; simp only [slot_pairs]; exact r5 p) (by simp only [slot_pairs]; rw [r4]; rfl)
        refine ⟨hl.1, rfl, rfl, hl.2.1, ?_, ?_⟩
        · intro _
          exact ⟨rfl, hl.2.2⟩
        · intro h
          rw [hmem] at h
          exact absurd hin h
      · obtain ⟨r1, r2, r3⟩ := addpair_absent b k v hk hin
        refine ⟨_, by simp only [dictionary_put_core, hi, hkey, hval, r1]; rfl, ?_⟩
        have hl := put_lift d
            ({ d with
              values := d.values.set i
                (entry_t.collision_buckets (collision_bucket_addpair b (some k) v).1)
              num_entries := d.num_entries + 1
              num_collisions :=
                if collision_bucket_size (collision_bucket_addpair b (some k) v).1 > 1 then
                  d.num_collisions + 1
                else d.num_collisions
              maximum_chain :=
                if (collision_bucket_size (collision_bucket_addpair b (some k) v).1 : Int) >
                    d.maximum_chain then
                  (collision_bucket_size (collision_bucket_addpair b (some k) v).1 : Int)
                else d.maximum_chain })
            hw k v i none none (entry_t.collision_buckets b)
          (entry_t.collision_buckets (collision_bucket_addpair b (some k) v).1) 1 hi hkey hval
            hkeys rfl rfl
          ⟨⟨r3, by
              unfold collision_bucket_size
              rw [r2, List.length_append]
              have := hs.1.2.1
              unfold collision_bucket_size at this
              omega, by
              rw [r2, List.map_append, List.nodup_append]
              refine ⟨hs.1.2.2, by simp, ?_⟩
              rw [List.disjoint_left]
              intro a ha hb
              simp only [List.map_cons, List.map_nil, List.mem_singleton] at hb
              rw [hb] at ha
              exact hin ha⟩,
            by
              intro p hp
              simp only [slot_pairs, r2, List.mem_append, List.mem_singleton] at hp
              rcases hp with e | e
              · exact hs.2 p e
              · rw [e]; exact ⟨hk, hi⟩⟩
          (by
            intro p
            simp only [slot_pairs, r2, List.mem_append, List.mem_singleton]
            have : p ∈ bucket_pairs b → p.1 ≠ k := by
              intro hp e
              apply hin
              rw [← e]
              exact List.mem_map_of_mem Prod.fst hp
            tauto)
          (by simp only [slot_pairs, r2, List.length_append, List.length_singleton])
        refine ⟨hl.1, rfl, rfl, hl.2.1, ?_, ?_⟩
        · intro h
          rw [hmem] at h
          exact absurd h hin
        · intro _
          exact ⟨rfl, hl.2.2⟩
  | some hkey0 =>
    cases entry with
    | value hv0 =>
      have hlen0 := (hs.2 (hkey0, hv0) (by simp [slot_pairs]))
      have hiff := strncmp_eq_zero_iff_right hkey0 k MAX_KEY hk
      have hvals : d.keys = d.keys.set i (some hkey0) := set_eq_self_of_getElem? _ _ _ hkey
      by_cases e : hkey0 = k
      · subst e
        refine ⟨_, by simp only [dictionary_put_core, hi, hkey, hval, hiff.mpr rfl]; rfl, ?_⟩
        have hl := put_lift d
            ({ d with values := d.values.set i (entry_t.value v) })
            hw hkey0 v i (some hkey0) (some hkey0) (entry_t.value hv0)
          (entry_t.value v) 0 hi hkey hval
            hvals rfl rfl
          ⟨trivial, by
            intro p hp
            simp only [slot_pairs, List.mem_singleton] at hp
            rw [hp]
            exact ⟨hk, hi⟩⟩
          (by
            intro p
            simp only [slot_pairs, List.mem_singleton]
            constructor
            · intro h; left; exact h
            · rintro (h | ⟨h1, h2⟩)
              · exact h
              · rw [h2] at h1; exact absurd rfl h1)
          (by simp [slot_pairs])
        refine ⟨hl.1, rfl, rfl, hl.2.1, ?_, ?_⟩
        · intro _
          exact ⟨rfl, hl.2.2⟩
        · intro h
          rw [hmem] at h
          simp [slot_pairs] at h
      · have hne : ¬ strncmp hkey0 k MAX_KEY = 0 := fun h => e (hiff.mp h)
        have hb1 : bucket_pairs new_collision_bucket = [] := rfl
        obtain ⟨a1, a2, a3⟩ := addpair_absent new_collision_bucket k v hk (by simp [hb1])
        rw [hb1, List.nil_append] at a2
        obtain ⟨c1, c2, c3⟩ := addpair_absent
          (collision_bucket_addpair new_collision_bucket (some k) v).1 hkey0 hv0 hlen0.1
          (by rw [a2]; simpa using e)
        rw [a2] at c2
        have hsz : collision_bucket_size (collision_bucket_addpair
            (collision_bucket_addpair new_collision_bucket (some k) v).1 (some hkey0) hv0).1 = 2 := by
          unfold collision_bucket_size
          rw [c2]
          rfl
        refine ⟨_, by simp only [dictionary_put_core, hi, hkey, hval, if_neg hne]; rfl, ?_⟩
        have hl := put_lift d
            ({ d with
              keys := d.keys.set i none
              values := d.values.set i (entry_t.collision_buckets (collision_bucket_addpair
                (collision_bucket_addpair new_collision_bucket (some k) v).1 (some hkey0) hv0).1)
              num_entries := d.num_entries + 1
              num_collisions :=
                if (collision_bucket_addpair
                    (collision_bucket_addpair new_collision_bucket (some k) v).1
                    (some hkey0) hv0).2 > 0 ∧
                  collision_bucket_size (collision_bucket_addpair
                    (collision_bucket_addpair new_collision_bucket (some k) v).1
                    (some hkey0) hv0).1 > 1 then d.num_collisions + 1
                else d.num_collisions
              maximum_chain :=
                if (collision_bucket_addpair
                    (collision_bucket_addpair new_collision_bucket (some k) v).1
                    (some hkey0) hv0).2 > 0 ∧
                  (collision_bucket_size (collision_bucket_addpair
                    (collision_bucket_addpair new_collision_bucket (some k) v).1
                    (some hkey0) hv0).1 : Int) > d.maximum_chain then
                  (collision_bucket_size (collision_bucket_addpair
                    (collision_bucket_addpair new_collision_bucket (some k) v).1
                    (some hkey0) hv0).1 : Int)
                else d.maximum_chain })
            hw k v i (some hkey0) none (entry_t.value hv0)
          (entry_t.collision_buckets (collision_bucket_addpair
            (collision_bucket_addpair new_collision_bucket (some k) v).1 (some hkey0) hv0).1)
          1 hi hkey hval
            rfl rfl rfl
          ⟨⟨c3, by rw [hsz], by
              rw [c2]
              simp only [List.cons_append, List.nil_append, List.map_cons, List.map_nil,
                List.nodup_cons, List.mem_singleton, List.not_mem_nil, not_false_eq_true,
                List.nodup_nil, and_true]
              exact fun h => e h.symm⟩,
            by
              intro p hp
              simp only [slot_pairs, c2, List.cons_append, List.nil_append, List.mem_cons,
                List.not_mem_nil, or_false] at hp
              rcases hp with h | h
              · rw [h]; exact ⟨hk, hi⟩
              · rw [h]; exact hlen0⟩
          (by
            intro p
            simp only [slot_pairs, c2, List.cons_append, List.nil_append, List.mem_cons,
              List.not_mem_nil, or_false, List.mem_singleton]
            constructor
            · rintro (h | h)
              · left; exact h
              · right; exact ⟨by rw [h]; exact e, h⟩
            · rintro (h | ⟨-, h⟩)
              · left; exact h
              · right; exact h)
          (by simp [slot_pairs, c2])
        refine ⟨hl.1, rfl, rfl, hl.2.1, ?_, ?_⟩
        · intro h
          rw [hmem] at h
          simp only [slot_pairs, List.map_cons, List.map_nil, List.mem_singleton] at h
          exact absurd h.symm e
        · intro _
          exact ⟨rfl, hl.2.2⟩
    | collision_buckets b => exact absurd hs.1 (by simp)

theorem int_of_long_eq (x : Int) (h1 : -(2 ^ 31) ≤ x) (h2 : x < 2 ^ 31) : int_of_long x = x := by
  unfold int_of_long
  rw [Int.emod_eq_of_lt (by omega) (by omega)]
  omega

theorem primes_getD_bounds : ∀ i, i < 148 → 3 ≤ primes.getD i 0 ∧ primes.getD i 0 ≤ 160481183 := by
  decide

theorem search_spec (x : Int) (fuel low high : Nat) (hlh : low < high) (hh : high ≤ 147)
    (hx : x ≤ primes.getD high 0) :
    low < select_next_prime_search x fuel low high ∧
    select_next_prime_search x fuel low high ≤ 147 ∧
    x ≤ primes.getD (select_next_prime_search x fuel low high) 0 := by
  induction fuel generalizing low high with
  | zero => exact ⟨hlh, hh, hx⟩
  | succ fuel ih =>
    simp only [select_next_prime_search]
    split
    · split
      · rename_i h1 h2
        exact ih low ((high + low) / 2) (by omega) (by omega) h2
      · rename_i h1 h2
        have := ih ((high + low) / 2) high (by omega) hh hx
        exact ⟨by omega, this.2⟩
    · exact ⟨hlh, hh, hx⟩

theorem select_next_prime_table (x : Int) (hx : x ≤ 160481183) :
    x ≤ select_next_prime x ∧ 5 ≤ select_next_prime x ∧ select_next_prime x ≤ 160481183 := by
  unfold select_next_prime
  have h147 : primes.getD 147 0 = 160481183 := by decide
  rw [h147, if_neg (by omega)]
  have hs := search_spec x 147 0 147 (by omega) (by omega) (by rw [h147]; exact hx)
  have hb := primes_getD_bounds _ (by omega : select_next_prime_search x 147 0 147 < 148)
  refine ⟨hs.2.2, ?_, hb.2⟩
  have h5 : ∀ i, i < 148 → 0 < i → 5 ≤ primes.getD i 0 := by decide
  exact h5 _ (by omega) hs.1

theorem select_next_prime_fallback (x : Int) (hx : 160481183 < x) (hx2 : x ≤ 1073741823) :
    select_next_prime x = x * 2 + 1 := by
  unfold select_next_prime
  have h147 : primes.getD 147 0 = 160481183 := by decide
  rw [h147, if_pos (by omega)]
  exact int_of_long_eq _ (by omega) (by omega)

theorem select_next_prime_bounds (x : Int) (hx2 : x ≤ 1073741823) :
    x ≤ select_next_prime x ∧ 5 ≤ select_next_prime x ∧ select_next_prime x < 2 ^ 31 := by
  by_cases h : x ≤ 160481183
  · have := select_next_prime_table x h
    omega
  · rw [select_next_prime_fallback x (by omega) hx2]
    omega

theorem enumerate_slot_eq (m : Int) (i : Nat) (key : Option Key) (entry : entry_t)
    (h : slot_ok m i key entry) : enumerate_slot key entry = some (slot_pairs key entry) := by
  unfold slot_ok at h
  cases key with
  | none =>
    cases entry with
    | value v =>
      have : v = 0 := h.1
      simp [enumerate_slot, slot_pairs, this]
    | collision_buckets b => rfl
  | some k =>
    cases entry with
    | value v => rfl
    | collision_buckets b => exact absurd h.1 (by simp)

theorem enumerate_slots_range (d : dictionary_t) (hw : WellFormed d) (m s : Nat)
    (h : s + m = d.max_entries.toNat) :
    enumerate_slots d (List.range' s m) =
      some (((d.keys.zip d.values).drop s).flatMap (fun c => slot_pairs c.1 c.2)) := by
  induction m generalizing s with
  | zero =>
    have hlen : (d.keys.zip d.values).length ≤ s := by
      rw [List.length_zip, hw.keys_length, hw.values_length]
      omega
    rw [List.drop_eq_nil_of_le hlen]
    rfl
  | succ m ih =>
    obtain ⟨key, entry, h1, h2, h3⟩ := hw.slot_at s (by omega)
    have hz : (d.keys.zip d.values)[s]? = some (key, entry) :=
      (getElem?_zip_some _ _ _ _ _).mpr ⟨h1, h2⟩
    have hlt : s < (d.keys.zip d.values).length := by
      rw [List.length_zip, hw.keys_length, hw.values_length]
      omega
    have hget : (d.keys.zip d.values)[s] = (key, entry) := by
      rw [List.getElem?_eq_getElem hlt] at hz
      exact Option.some.inj hz
    rw [List.drop_eq_getElem_cons hlt, hget]
    simp only [List.range'_succ, enumerate_slots, h1, h2, enumerate_slot_eq _ _ _ _ h3,
      ih (s + 1) (by omega), List.flatMap_cons]

theorem enumerate_spec (d : dictionary_t) (hw : WellFormed d) :
    dictionary_enumerate d = some (contents d) := by
  unfold dictionary_enumerate
  rw [List.range_eq_range', enumerate_slots_range d hw _ 0 (by omega)]
  rfl

theorem put_key_eq_body (fuel : Nat) :
    ∃ rb, dictionary_put_key fuel = dictionary_put_body rb := by
  cases fuel with
  | zero => exact ⟨_, rfl⟩
  | succ f => exact ⟨_, rfl⟩

theorem put_body_no_resize (rb : dictionary_t → Int → Option dictionary_t) (d d1 : dictionary_t)
    (hw : WellFormed d) (k : Key) (v : dict_value_t)
    (hc : dictionary_put_core d k v = some d1) (hr : resize_needed d1 = false) :
    dictionary_put_body rb d k v = some (d1, assoc_value k (contents d)) := by
  simp [dictionary_put_body, get_spec d hw k, hc, hr]

theorem put_body_resize (rb : dictionary_t → Int → Option dictionary_t) (d d1 d2 : dictionary_t)
    (hw : WellFormed d) (k : Key) (v : dict_value_t)
    (hc : dictionary_put_core d k v = some d1) (hr : resize_needed d1 = true)
    (hb : rb d1 (select_next_prime (int_of_long (d1.num_entries * 2))) = some d2) :
    dictionary_put_body rb d k v = some (d2, assoc_value k (contents d)) := by
  simp [dictionary_put_body, get_spec d hw k, hc, hr, hb]

theorem new_dictionary_wf (cap : Int) (lf : ℚ) (h2 : 2 ≤ cap) (h63 : cap < 2 ^ 63) :
    WellFormed (new_dictionary_size_load cap lf) ∧
    contents (new_dictionary_size_load cap lf) = [] := by
  constructor
  · refine ⟨h2, h63, by simp [new_dictionary_size_load], by simp [new_dictionary_size_load], ?_⟩
    intro i key entry h1 h2
    simp only [new_dictionary_size_load, List.getElem?_replicate] at h1 h2
    split at h1
    · rename_i hlt
      rw [if_pos hlt] at h2
      cases h1
      cases h2
      exact ⟨rfl, by simp [slot_pairs]⟩
    · simp at h1
  · unfold contents
    rw [List.flatMap_eq_nil_iff]
    intro c hc
    obtain ⟨j, hj⟩ := List.mem_iff_getElem?.mp hc
    obtain ⟨kj, ej⟩ := c
    have h := (getElem?_zip_some _ _ _ _ _).mp hj
    simp only [new_dictionary_size_load, List.getElem?_replicate] at h
    obtain ⟨h1, h2⟩ := h
    split at h1
    · rename_i hlt
      rw [if_pos hlt] at h2
      cases h1
      cases h2
      rfl
    · simp at h1

theorem no_resize_of_half (d : dictionary_t) (hlf : d.load_factor = LOAD_FACTOR)
    (h : 2 * d.num_entries ≤ d.max_entries) (h0 : 0 ≤ d.num_entries) :
    resize_needed d = false := by
  apply no_resize_of_half_load d _ h h0
  rw [hlf]
  unfold LOAD_FACTOR
  norm_num

theorem copy_pairs_spec (f : Nat) (cap : Int) (l : List (Key × dict_value_t)) (nd : dictionary_t)
    (hw : WellFormed nd) (hcap : nd.max_entries = cap) (hlf : nd.load_factor = LOAD_FACTOR)
    (hn : nd.num_entries = ((contents nd).length : Int))
    (hnd : (l.map Prod.fst).Nodup)
    (hl : ∀ p ∈ l, p.1.length < MAX_KEY ∧ p.1 ∉ (contents nd).map Prod.fst)
    (hsz : 2 * (((contents nd).length : Int) + (l.length : Int)) ≤ cap) :
    ∃ nd1, copy_pairs (fun d k v => (dictionary_put_key f d k v).map Prod.fst) nd l = some nd1 ∧
      WellFormed nd1 ∧ nd1.max_entries = cap ∧
      (∀ p, p ∈ contents nd1 ↔ p ∈ contents nd ∨ p ∈ l) ∧
      (contents nd1).length = (contents nd).length + l.length := by
  induction l generalizing nd with
  | nil => exact ⟨nd, rfl, hw, hcap, by simp, by simp⟩
  | cons p rest ih =>
    obtain ⟨hp1, hp2⟩ := hl p (List.mem_cons_self _ _)
    simp only [List.map_cons, List.nodup_cons] at hnd
    simp only [List.length_cons, Nat.cast_add, Nat.cast_one] at hsz
    obtain ⟨nd', c1, c2, c3, c4, c5, -, c7⟩ := put_core_spec nd hw p.1 p.2 hp1
    obtain ⟨c7a, c7b⟩ := c7 hp2
    have hres : resize_needed nd' = false := by
      apply no_resize_of_half nd' (by rw [c4, hlf])
      · rw [c7a, hn, c3, hcap]; omega
      · rw [c7a, hn]; omega
    obtain ⟨rb, hrb⟩ := put_key_eq_body f
    have hput : dictionary_put_key f nd p.1 p.2 = some (nd', assoc_value p.1 (contents nd)) := by
      rw [hrb]
      exact put_body_no_resize rb nd nd' hw p.1 p.2 c1 hres
    have hmem' : ∀ q, q ∈ contents nd' ↔ q = p ∨ q ∈ contents nd := by
      intro q
      rw [c5 q]
      constructor
      · rintro (h | ⟨-, h⟩)
        · left; exact h
        · right; exact h
      · rintro (h | h)
        · left; exact h
        · right
          refine ⟨?_, h⟩
          intro e
          apply hp2
          rw [← e]
          exact List.mem_map_of_mem Prod.fst h
    obtain ⟨nd1, i1, i2, i3, i4, i5⟩ := ih nd' c2 (by rw [c3, hcap]) (by rw [c4, hlf])
      (by rw [c7a, hn, c7b]; push_cast; rfl) hnd.2
      (by
        intro q hq
        refine ⟨(hl q (List.mem_cons_of_mem _ hq)).1, ?_⟩
        intro hmem
        obtain ⟨q', hq', e⟩ := List.mem_map.mp hmem
        rcases (hmem' q').mp hq' with h | h
        · apply hnd.1
          rw [← h, e]
          exact List.mem_map_of_mem Prod.fst hq
        · apply (hl q (List.mem_cons_of_mem _ hq)).2
          rw [← e]
          exact List.mem_map_of_mem Prod.fst h)
      (by rw [c7b]; push_cast; omega)
    refine ⟨nd1, ?_, i2, i3, ?_, ?_⟩
    · simp only [copy_pairs, hput, Option.map_some']
      exact i1
    · intro q
      rw [i4 q, hmem' q]
      simp only [List.mem_cons]
      tauto
    · rw [i5, c7b]
      simp only [List.length_cons]
      omega

theorem WellFormed.congr {d d1 : dictionary_t} (hw : WellFormed d) (hk : d1.keys = d.keys)
    (hv : d1.values = d.values) (hm : d1.max_entries = d.max_entries) : WellFormed d1 := by
  refine ⟨by rw [hm]; exact hw.capacity_ge, by rw [hm]; exact hw.capacity_lt,
    by rw [hk, hm]; exact hw.keys_length, by rw [hv, hm]; exact hw.values_length, ?_⟩
  intro i key entry h1 h2
  rw [hk] at h1
  rw [hv] at h2
  rw [hm]
  exact hw.slots i key entry h1 h2

theorem contents_congr {d d1 : dictionary_t} (hk : d1.keys = d.keys) (hv : d1.values = d.values) :
    contents d1 = contents d := by
  unfold contents
  rw [hk, hv]

theorem rebuild_spec (f : Nat) (d1 : dictionary_t) (hw : WellFormed d1) (new_size : Int)
    (h2 : 2 ≤ new_size) (h63 : new_size < 2 ^ 63)
    (hsz : 2 * ((contents d1).length : Int) ≤ new_size) :
    ∃ d2, dictionary_rebuild_table (fun d k v => (dictionary_put_key f d k v).map Prod.fst)
        d1 new_size = some d2 ∧
      WellFormed d2 ∧ d2.max_entries = new_size ∧ d2.num_entries = d1.num_entries ∧
      d2.load_factor = d1.load_factor ∧ (∀ p, p ∈ contents d2 ↔ p ∈ contents d1) ∧
      (contents d2).length = (contents d1).length := by
  obtain ⟨w1, w2⟩ := new_dictionary_wf new_size LOAD_FACTOR h2 h63
  obtain ⟨nd, c1, c2, c3, c4, c5⟩ := copy_pairs_spec f new_size (contents d1)
    (new_dictionary_size new_size) w1 rfl rfl
    (by
      show (0 : Int) = ((contents (new_dictionary_size_load new_size LOAD_FACTOR)).length : Int)
      rw [w2]; rfl)
    hw.nodup_contents
    (by
      intro p hp
      refine ⟨(hw.mem_contents p hp).1, ?_⟩
      show p.1 ∉ (contents (new_dictionary_size_load new_size LOAD_FACTOR)).map Prod.fst
      rw [w2]
      simp)
    (by
      show 2 * (((contents (new_dictionary_size_load new_size LOAD_FACTOR)).length : Int) +
        ((contents d1).length : Int)) ≤ new_size
      rw [w2]
      simp only [List.length_nil, Nat.cast_zero, zero_add]
      exact hsz)
  have w3 : contents (new_dictionary_size new_size) = [] := w2
  refine ⟨{ d1 with
      keys := nd.keys
      values := nd.values
      max_entries := nd.max_entries
      num_collisions := nd.num_collisions
      maximum_chain := nd.maximum_chain },
    by simp only [dictionary_rebuild_table, enumerate_spec d1 hw, c1], ?_⟩
  refine ⟨c2.congr rfl rfl rfl, c3, rfl, rfl, ?_, ?_⟩
  · intro p
    have e : contents { d1 with
        keys := nd.keys
        values := nd.values
        max_entries := nd.max_entries
        num_collisions := nd.num_collisions
        maximum_chain := nd.maximum_chain } = contents nd := contents_congr rfl rfl
    rw [e, c4 p, w3]
    simp
  · have e : contents { d1 with
        keys := nd.keys
        values := nd.values
        max_entries := nd.max_entries
        num_collisions := nd.num_collisions
        maximum_chain := nd.maximum_chain } = contents nd := contents_congr rfl rfl
    rw [e, c5, w3]
    simp

theorem put_spec (d : dictionary_t) (hinv : Inv d) (k : Key) (v : dict_value_t)
    (hk : k.length < MAX_KEY) (hlim : d.num_entries < ENTRY_LIMIT) (fuel : Nat) :
    ∃ d1 d2, dictionary_put_core d k v = some d1 ∧
      dictionary_put_key (fuel + 1) d k v = some (d2, assoc_value k (contents d)) ∧
      Inv d2 ∧
      (∀ p, p ∈ contents d2 ↔ p = (k, v) ∨ (p.1 ≠ k ∧ p ∈ contents d)) ∧
      d2.num_entries = d1.num_entries ∧ d2.load_factor = d.load_factor ∧
      d1.load_factor = d.load_factor ∧ d1.max_entries = d.max_entries ∧
      (k ∈ (contents d).map Prod.fst →
        d1.num_entries = d.num_entries ∧ (contents d2).length = (contents d).length) ∧
      (k ∉ (contents d).map Prod.fst →
        d1.num_entries = d.num_entries + 1 ∧
        (contents d2).length = (contents d).length + 1) ∧
      d2.max_entries = (if resize_needed d1 = true then
        select_next_prime (int_of_long (d1.num_entries * 2)) else d.max_entries) := by
  obtain ⟨hw, hcount⟩ := hinv
  obtain ⟨d1, c1, c2, c3, c4, c5, c6, c7⟩ := put_core_spec d hw k v hk
  have hpos : 1 ≤ (contents d1).length := by
    have : (k, v) ∈ contents d1 := (c5 (k, v)).mpr (Or.inl rfl)
    exact List.length_pos_of_mem this
  have hcount1 : ((contents d1).length : Int) ≤ d1.num_entries ∧
      d1.num_entries ≤ d.num_entries + 1 := by
    by_cases hin : k ∈ (contents d).map Prod.fst
    · obtain ⟨a, b⟩ := c6 hin
      rw [a, b]
      omega
    · obtain ⟨a, b⟩ := c7 hin
      rw [a, b]
      push_cast
      omega
  unfold ENTRY_LIMIT at hlim
  by_cases hr : resize_needed d1 = true
  · have hn1 : d1.num_entries * 2 ≤ 1073741823 := by omega
    have hconv : int_of_long (d1.num_entries * 2) = d1.num_entries * 2 :=
      int_of_long_eq _ (by omega) (by omega)
    have hb := select_next_prime_bounds (d1.num_entries * 2) hn1
    obtain ⟨d2, r1, r2, r3, r4, r5, r6, r7⟩ := rebuild_spec fuel d1 c2
      (select_next_prime (int_of_long (d1.num_entries * 2)))
      (by rw [hconv]; omega) (by rw [hconv]; omega) (by rw [hconv]; omega)
    refine ⟨d1, d2, c1, put_body_resize _ d d1 d2 hw k v c1 hr r1, ⟨r2, ?_⟩, ?_, r4,
      by rw [r5, c4], c4, c3, ?_, ?_, ?_⟩
    · rw [r7, r4]; exact hcount1.1
    · intro p
      rw [r6 p, c5 p]
    · intro hin
      rw [r7]
      exact c6 hin
    · intro hin
      rw [r7]
      exact c7 hin
    · rw [if_pos hr, r3]
  · have hr' : resize_needed d1 = false := by simpa using hr
    refine ⟨d1, d1, c1, put_body_no_resize _ d d1 hw k v c1 hr', ⟨c2, hcount1.1⟩, c5, rfl,
      c4, c4, c3, c6, c7, ?_⟩
    rw [if_neg hr, c3]

theorem swap_remove_perm {α : Type} (l : List α) (j : Nat) (last : α)
    (hl : l[l.length - 1]? = some last) (hj : j < l.length) :
    ((l.set j last).take (l.length - 1)).Perm (l.eraseIdx j) := by
  induction l generalizing j with
  | nil => simp at hj
  | cons x xs ih =>
    cases xs with
    | nil =>
      have : j = 0 := by simp at hj; omega
      subst this
      simp
    | cons y ys =>
      have hl' : (y :: ys)[(y :: ys).length - 1]? = some last := by
        simpa using hl
      cases j with
      | zero =>
        simp only [List.set_cons_zero, List.length_cons, Nat.add_sub_cancel, List.take_succ_cons,
          List.eraseIdx_cons_zero]
        have h1 : (y :: ys).dropLast ++ [last] = y :: ys := by
          apply List.dropLast_append_getLast?
          rw [List.getLast?_eq_getElem?]
          exact hl'
        have h2 : (y :: ys).dropLast = (y :: ys).take ys.length := by
          rw [List.dropLast_eq_take]
          simp
        rw [h2] at h1
        have hp : ([last] ++ List.take ys.length (y :: ys)).Perm
            (List.take ys.length (y :: ys) ++ [last]) := List.perm_append_comm
        rw [h1] at hp
        exact hp
      | succ j =>
        have := ih j hl' (by simpa using hj)
        simp only [List.set_cons_succ, List.length_cons, Nat.add_sub_cancel, List.take_succ_cons,
          List.eraseIdx_cons_succ]
        simp only [List.length_cons, Nat.add_sub_cancel] at this
        exact List.Perm.cons x this

theorem eraseIdx_spec (l : List (Key × dict_value_t)) (j : Nat) (k : Key) (v : dict_value_t)
    (hn : (l.map Prod.fst).Nodup) (hj : l[j]? = some (k, v)) :
    (∀ p, p ∈ l.eraseIdx j ↔ p.1 ≠ k ∧ p ∈ l) ∧ ((l.eraseIdx j).map Prod.fst).Nodup ∧
      (l.eraseIdx j).length + 1 = l.length := by
  induction l generalizing j with
  | nil => simp at hj
  | cons x xs ih =>
    simp only [List.map_cons, List.nodup_cons] at hn
    cases j with
    | zero =>
      simp only [List.getElem?_cons_zero, Option.some.injEq] at hj
      subst hj
      simp only [List.eraseIdx_cons_zero, List.length_cons, and_true]
      refine ⟨?_, hn.2⟩
      intro p
      simp only [List.mem_cons]
      constructor
      · intro hp
        refine ⟨?_, Or.inr hp⟩
        intro e
        have hmem := List.mem_map_of_mem Prod.fst hp
        rw [e] at hmem
        exact hn.1 hmem
      · rintro ⟨h1, h2 | h2⟩
        · rw [h2] at h1; exact absurd rfl h1
        · exact h2
    | succ j =>
      simp only [List.getElem?_cons_succ] at hj
      obtain ⟨i1, i2, i3⟩ := ih j hn.2 hj
      have hxk : x.1 ≠ k := by
        intro e
        apply hn.1
        rw [e]
        have hmem : (k, v) ∈ xs := List.mem_iff_getElem?.mpr ⟨j, hj⟩
        exact List.mem_map_of_mem Prod.fst hmem
      simp only [List.eraseIdx_cons_succ, List.length_cons, List.map_cons, List.nodup_cons]
      refine ⟨?_, ⟨?_, i2⟩, by omega⟩
      · intro p
        simp only [List.mem_cons, i1 p]
        constructor
        · rintro (h | ⟨h1, h2⟩)
          · exact ⟨by rw [h]; exact hxk, Or.inl h⟩
          · exact ⟨h1, Or.inr h2⟩
        · rintro ⟨h1, h2 | h2⟩
          · left; exact h2
          · right; exact ⟨h1, h2⟩
      · intro hmem
        apply hn.1
        obtain ⟨q, hq, e⟩ := List.mem_map.mp hmem
        rw [← e]
        exact List.mem_map_of_mem Prod.fst ((i1 q).mp hq).2

theorem remove_scan_none (k : Key) (l : List (Key × dict_value_t)) :
    remove_scan k l = none ↔ k ∉ l.map Prod.fst := by
  induction l with
  | nil => simp [remove_scan]
  | cons p rest ih =>
    simp only [remove_scan, List.map_cons, List.mem_cons, not_or]
    by_cases e : k = p.1
    · rw [if_pos ((strcmp_eq_zero_iff _ _).mpr e)]
      simp [e]
    · rw [if_neg (fun h => e ((strcmp_eq_zero_iff _ _).mp h))]
      simp only [Option.map_eq_none', ih]
      tauto

theorem remove_scan_some (k : Key) (l : List (Key × dict_value_t)) (j : Nat)
    (h : remove_scan k l = some j) : ∃ v, l[j]? = some (k, v) := by
  induction l generalizing j with
  | nil => simp [remove_scan] at h
  | cons p rest ih =>
    simp only [remove_scan] at h
    by_cases e : k = p.1
    · rw [if_pos ((strcmp_eq_zero_iff _ _).mpr e)] at h
      cases h
      exact ⟨p.2, by simp [e]⟩
    · rw [if_neg (fun h => e ((strcmp_eq_zero_iff _ _).mp h))] at h
      simp only [Option.map_eq_some'] at h
      obtain ⟨j', h1, h2⟩ := h
      subst h2
      obtain ⟨v, hv⟩ := ih j' h1
      exact ⟨v, by simpa using hv⟩

theorem remove_lift (d d1 : dictionary_t) (hw : WellFormed d) (k : Key)
    (i : Nat) (key key1 : Option Key) (entry entry1 : entry_t)
    (hi : hash_index d.max_entries k = some i)
    (hkey : d.keys[i]? = some key) (hval : d.values[i]? = some entry)
    (hk1 : d1.keys = d.keys.set i key1) (hv1 : d1.values = d.values.set i entry1)
    (hm : d1.max_entries = d.max_entries) (hs : slot_ok d.max_entries i key1 entry1)
    (ha : ∀ p, p ∈ slot_pairs key1 entry1 ↔ p.1 ≠ k ∧ p ∈ slot_pairs key entry)
    (hlen : (slot_pairs key1 entry1).length + 1 = (slot_pairs key entry).length) :
    WellFormed d1 ∧ (∀ p, p ∈ contents d1 ↔ p.1 ≠ k ∧ p ∈ contents d) ∧
      (contents d1).length + 1 = (contents d).length := by
  obtain ⟨A, B, h1, h2, h3⟩ := hw.contents_split k i key entry hi hkey hval
  have h4 := h3 d1 key1 entry1 hk1 hv1
  refine ⟨hw.update i key1 entry1 hk1 hv1 hm hs, ?_, ?_⟩
  · intro p
    rw [h4, h1]
    have hA : p ∈ A → p.1 ≠ k := fun hp => (h2 p (List.mem_append_left _ hp)).1
    have hB : p ∈ B → p.1 ≠ k := fun hp => (h2 p (List.mem_append_right _ hp)).1
    simp only [List.mem_append, ha p]
    tauto
  · rw [h4, h1]
    simp only [List.length_append]
    omega

theorem remove_spec (d : dictionary_t) (hw : WellFormed d) (k : Key) :
    ∃ d1, dictionary_remove d (some k) = some (d1, assoc_value k (contents d)) ∧
      WellFormed d1 ∧ d1.max_entries = d.max_entries ∧ d1.load_factor = d.load_factor ∧
      (∀ p, p ∈ contents d1 ↔ p.1 ≠ k ∧ p ∈ contents d) ∧
      (k ∉ (contents d).map Prod.fst → d1 = d) ∧
      (k ∈ (contents d).map Prod.fst → (contents d1).length + 1 = (contents d).length ∧
        (d1.num_entries = d.num_entries - 1 ∨ d1.num_entries = d.num_entries)) ∧
      (∀ i, hash_index d.max_entries k = some i → d.keys[i]? = some none →
        d1.num_entries = d.num_entries) ∧
      (∀ i, hash_index d.max_entries k = some i → d.keys[i]? = some (some k) →
        d1.num_entries = d.num_entries - 1) := by
  obtain ⟨i, key, entry, hi, -, hkey, hval, hs⟩ := hw.slot_of_key k
  obtain ⟨hassoc, hmem⟩ := hw.assoc_contents k i key entry hi hkey hval
  have hsame : k ∉ (contents d).map Prod.fst →
      ∀ p, p ∈ contents d ↔ p.1 ≠ k ∧ p ∈ contents d := by
    intro hnot p
    constructor
    · intro hp
      refine ⟨?_, hp⟩
      intro e
      apply hnot
      rw [← e]
      exact List.mem_map_of_mem Prod.fst hp
    · exact fun h => h.2
  have hidx : ∀ i', hash_index d.max_entries k = some i' → i' = i := by
    intro i' h
    rw [hi] at h
    exact (Option.some.inj h).symm
  rw [hassoc]
  have hs' := hs
  unfold slot_ok at hs
  cases key with
  | none =>
    cases entry with
    | value v0 =>
      have hv0 : v0 = 0 := hs.1
      subst hv0
      have hnot : k ∉ (contents d).map Prod.fst := by
        rw [hmem]; simp [slot_pairs]
      refine ⟨d, by simp [dictionary_remove, hi, hkey, hval, slot_pairs, assoc_value],
        hw, rfl, rfl, hsame hnot, fun _ => rfl, fun h => absurd h hnot, fun _ _ _ => rfl, ?_⟩
      intro i' h1 h2
      rw [hidx i' h1, hkey] at h2
      simp at h2
    | collision_buckets b =>
      simp only [slot_pairs] at hmem ⊢
      cases hscan : remove_scan k (bucket_pairs b) with
      | none =>
        have hnotb := (remove_scan_none k _).mp hscan
        have hnot : k ∉ (contents d).map Prod.fst := by rw [hmem]; exact hnotb
        refine ⟨d, by
            simp only [dictionary_remove, hi, hkey, hval, hscan]
            rw [assoc_value_of_not_mem k _ hnotb],
          hw, rfl, rfl, hsame hnot, fun _ => rfl, fun h => absurd h hnot, fun _ _ _ => rfl, ?_⟩
        intro i' h1 h2
        rw [hidx i' h1, hkey] at h2
        simp at h2
      | some j =>
        obtain ⟨v0, hj⟩ := remove_scan_some k _ j hscan
        have hjmem : (k, v0) ∈ bucket_pairs b := List.mem_iff_getElem?.mpr ⟨j, hj⟩
        have hin : k ∈ (contents d).map Prod.fst := by
          rw [hmem]; exact List.mem_map_of_mem Prod.fst hjmem
        have hval0 : assoc_value k (bucket_pairs b) = v0 :=
          assoc_value_of_mem k v0 _ hs.1.2.2 hjmem
        rw [hval0]
        obtain ⟨e1, e2, e3⟩ := eraseIdx_spec (bucket_pairs b) j k v0 hs.1.2.2 hj
        have hsize : 2 ≤ (bucket_pairs b).length := hs.1.2.1
        have hjlt : j < (bucket_pairs b).length := by
          by_contra hcon
          rw [List.getElem?_eq_none (by omega)] at hj
          simp at hj
        have hkeys : d.keys = d.keys.set i none := set_eq_self_of_getElem? _ _ _ hkey
        by_cases hone : collision_bucket_size b - 1 = 1
        · have hlen2 : (bucket_pairs b).length = 2 := by
            unfold collision_bucket_size at hone; omega
          obtain ⟨a, c, hac⟩ := List.length_eq_two.mp hlen2
          have hlast : ∃ last, (bucket_pairs b)[if j = 0 then 1 else 0]? = some last ∧
              (bucket_pairs b).eraseIdx j = [last] := by
            rw [hac]
            rw [hac] at hjlt
            simp only [List.length_cons, List.length_nil] at hjlt
            have : j = 0 ∨ j = 1 := by omega
            rcases this with h | h
            · subst h; exact ⟨c, rfl, rfl⟩
            · subst h; exact ⟨a, rfl, rfl⟩
          obtain ⟨last, hl1, hl2⟩ := hlast
          rw [hl2] at e1 e2 e3
          have hl := remove_lift d
              ({ d with
                num_collisions := d.num_collisions - 1
                keys := d.keys.set i (some last.1)
                values := d.values.set i (entry_t.value last.2) })
              hw k i none (some last.1) (entry_t.collision_buckets b)
            (entry_t.value last.2) hi hkey hval
              rfl rfl rfl
            ⟨trivial, by
              intro p hp
              simp only [slot_pairs, List.mem_singleton] at hp
              have : p ∈ bucket_pairs b := ((e1 p).mp (by rw [hp]; simp)).2
              exact hs.2 p this⟩
            (by
              intro p
              simp only [slot_pairs]
              exact e1 p)
            (by simp only [slot_pairs]; exact e3)
          refine ⟨_, by
              simp only [dictionary_remove, hi, hkey, hval, hscan, hone, if_true, hj, hl1],
            hl.1, rfl, rfl, hl.2.1, fun h => absurd hin h, fun _ => ⟨hl.2.2, Or.inr rfl⟩,
            fun _ _ _ => rfl, ?_⟩
          intro i' h1 h2
          rw [hidx i' h1, hkey] at h2
          simp at h2
        · have hlastlt : collision_bucket_size b - 1 < (bucket_pairs b).length := by
            unfold collision_bucket_size; omega
          have hl1 : (bucket_pairs b)[collision_bucket_size b - 1]? =
              some ((bucket_pairs b)[collision_bucket_size b - 1]) :=
            List.getElem?_eq_getElem hlastlt
          have hperm : (((bucket_pairs b).set j
              ((bucket_pairs b)[collision_bucket_size b - 1])).take
                (collision_bucket_size b - 1)).Perm ((bucket_pairs b).eraseIdx j) :=
            swap_remove_perm (bucket_pairs b) j _ hl1 hjlt
          have hl := remove_lift d
              ({ d with
                num_collisions := d.num_collisions - 1
                values := d.values.set i (entry_t.collision_buckets { b with keys_values := (some
                  (((bucket_pairs b).set j ((bucket_pairs b)[collision_bucket_size b - 1])).take
                    (collision_bucket_size b - 1))) }) })
              hw k i none none (entry_t.collision_buckets b)
            (entry_t.collision_buckets { b with keys_values := (some
              (((bucket_pairs b).set j ((bucket_pairs b)[collision_bucket_size b - 1])).take
                (collision_bucket_size b - 1))) }) hi hkey hval
              hkeys rfl rfl
            ⟨⟨rfl, by
                show 2 ≤ (List.take _ _).length
                rw [hperm.length_eq]
                unfold collision_bucket_size at hone
                omega, by
                show ((List.take _ _).map Prod.fst).Nodup
                exact ((hperm.map Prod.fst).nodup_iff).mpr e2⟩,
              by
                intro p hp
                have hp' : p ∈ (bucket_pairs b).eraseIdx j := hperm.mem_iff.mp hp
                exact hs.2 p ((e1 p).mp hp').2⟩
            (by
              intro p
              show p ∈ List.take _ _ ↔ _
              rw [hperm.mem_iff]
              exact e1 p)
            (by
              show (List.take _ _).length + 1 = _
              rw [hperm.length_eq]
              exact e3)
          refine ⟨_, by
              simp only [dictionary_remove, hi, hkey, hval, hscan, hone, if_false, hj, hl1],
            hl.1, rfl, rfl, hl.2.1, fun h => absurd hin h, fun _ => ⟨hl.2.2, Or.inr rfl⟩,
            fun _ _ _ => rfl, ?_⟩
          intro i' h1 h2
          rw [hidx i' h1, hkey] at h2
          simp at h2
  | some hkey0 =>
    cases entry with
    | value hv0 =>
      simp only [slot_pairs, List.map_cons, List.map_nil, List.mem_singleton] at hmem
      by_cases e : k = hkey0
      · subst e
        have hin : k ∈ (contents d).map Prod.fst := hmem.mpr rfl
        have hl := remove_lift d
            ({ d with
              values := d.values.set i (entry_t.value 0)
              keys := d.keys.set i none
              num_entries := d.num_entries - 1 })
            hw k i (some k) none (entry_t.value hv0) (entry_t.value 0)
          hi hkey hval
            rfl rfl rfl
          ⟨rfl, by simp [slot_pairs]⟩
          (by
            intro p
            simp only [slot_pairs, List.not_mem_nil, List.mem_singleton, false_iff, not_and,
              not_not]
            intro h1 h2
            rw [h2] at h1
            exact absurd rfl h1)
          (by simp [slot_pairs])
        refine ⟨_, by
            simp only [dictionary_remove, hi, hkey, hval, (strcmp_eq_zero_iff k k).mpr rfl,
              if_true, slot_pairs, assoc_value],
          hl.1, rfl, rfl, hl.2.1, fun h => absurd hin h, fun _ => ⟨hl.2.2, Or.inl rfl⟩, ?_,
          fun _ _ _ => rfl⟩
        intro i' h1 h2
        rw [hidx i' h1, hkey] at h2
        simp at h2
      · have hnot : k ∉ (contents d).map Prod.fst := by rw [hmem]; exact e
        have hne : ¬ strcmp k hkey0 = 0 := fun h => e ((strcmp_eq_zero_iff _ _).mp h)
        refine ⟨d, by
            simp only [dictionary_remove, hi, hkey, hval, if_neg hne, slot_pairs, assoc_value,
              if_neg (fun h : hkey0 = k => e h.symm)],
          hw, rfl, rfl, hsame hnot, fun _ => rfl, fun h => absurd h hnot, fun _ _ _ => rfl, ?_⟩
        intro i' h1 h2
        rw [hidx i' h1, hkey] at h2
        simp only [Option.some.injEq] at h2
        exact absurd h2.symm e
    | collision_buckets b => exact absurd hs.1 (by simp)

theorem Reachable.inv {d : dictionary_t} (hr : Reachable d) : Inv d := by
  induction hr with
  | create initial_size load_factor h2 h63 =>
    obtain ⟨w1, w2⟩ := new_dictionary_wf initial_size load_factor h2 h63
    refine ⟨w1, ?_⟩
    rw [w2]
    simp [new_dictionary_size_load]
  | put fuel dict key value dict1 previous _ hk hlim hput ih =>
    obtain ⟨d1, d2, -, c2, c3, -⟩ := put_spec dict ih key value hk hlim fuel
    have : dictionary_put (fuel + 1) dict (some key) value =
        dictionary_put_key (fuel + 1) dict key value := rfl
    rw [this, c2] at hput
    cases hput
    exact c3
  | remove dict key dict1 removed _ hrem ih =>
    obtain ⟨d1, c1, c2, -, -, -, c6, c7, -⟩ := remove_spec dict ih.1 key
    rw [c1] at hrem
    cases hrem
    refine ⟨c2, ?_⟩
    by_cases hin : key ∈ (contents dict).map Prod.fst
    · obtain ⟨a, b⟩ := c7 hin
      have := ih.2
      rcases b with b | b <;> rw [b] <;> omega
    · rw [c6 hin]
      exact ih.2

theorem assoc_value_congr (k : Key) (l1 l2 : List (Key × dict_value_t))
    (h2 : (l2.map Prod.fst).Nodup)
    (h : ∀ v, (k, v) ∈ l1 ↔ (k, v) ∈ l2) : assoc_value k l1 = assoc_value k l2 := by
  by_cases hin : k ∈ l1.map Prod.fst
  · have hm := assoc_value_mem k l1 hin
    exact (assoc_value_of_mem k _ l2 h2 ((h _).mp hm)).symm
  · have hin2 : k ∉ l2.map Prod.fst := by
      intro hc
      have hm := assoc_value_mem k l2 hc
      exact hin (List.mem_map_of_mem Prod.fst ((h _).mpr hm))
    rw [assoc_value_of_not_mem k l1 hin, assoc_value_of_not_mem k l2 hin2]

theorem Reachable.enumerate {d : dictionary_t} (hr : Reachable d) :
    dictionary_enumerate d = some (contents d) :=
  enumerate_spec d hr.inv.1

theorem example_empty_reachable : Reachable example_empty :=
  Reachable.create 5 (3 / 4) (by decide) (by decide)

theorem example_a_reachable : Reachable example_a :=
  Reachable.put 0 example_empty [97] 1 example_a 0 example_empty_reachable
    (by decide) (by decide) (by decide!)

theorem example_ae_reachable : Reachable example_ae :=
  Reachable.put 0 example_a [101] 2 example_ae 0 example_a_reachable
    (by decide) (by decide) (by decide!)

theorem search_spec_tight (x : Int) (fuel low high : Nat) (hlh : low < high) (hh : high ≤ 147)
    (hf : high - low ≤ fuel + 1) (hlo : primes.getD low 0 < x) (hx : x ≤ primes.getD high 0) :
    0 < select_next_prime_search x fuel low high ∧
    select_next_prime_search x fuel low high ≤ 147 ∧
    primes.getD (select_next_prime_search x fuel low high - 1) 0 < x ∧
    x ≤ primes.getD (select_next_prime_search x fuel low high) 0 := by
  induction fuel generalizing low high with
  | zero =>
    have e : high - 1 = low := by omega
    simp only [select_next_prime_search]
    rw [e]
    exact ⟨by omega, hh, hlo, hx⟩
  | succ fuel ih =>
    simp only [select_next_prime_search]
    split
    · split
      · rename_i h1 h2
        exact ih low ((high + low) / 2) (by omega) (by omega) (by omega) hlo h2
      · rename_i h1 h2
        exact ih ((high + low) / 2) high (by omega) hh (by omega) (by omega) hx
    · have e : high - 1 = low := by omega
      rw [e]
      exact ⟨by omega, hh, hlo, hx⟩

theorem primes_step : ∀ i, i < 147 → primes.getD i 0 < primes.getD (i + 1) 0 := by
  decide

theorem primes_mono (i j : Nat) (hij : i ≤ j) (hj : j < 148) :
    primes.getD i 0 ≤ primes.getD j 0 := by
  induction j with
  | zero =>
    have : i = 0 := by omega
    rw [this]
  | succ j ih =>
    by_cases e : i = j + 1
    · rw [e]
    · have h1 := ih (by omega) (by omega)
      have h2 := primes_step j (by omega)
      omega

theorem example_small_reachable : Reachable example_small :=
  Reachable.put 0 (new_dictionary_size_load 2 (1 / 2)) [97] 1 example_small 0
    (Reachable.create 2 (1 / 2) (by decide) (by decide)) (by decide) (by decide) (by decide!)

theorem trial_division_sound (n fuel d : Nat) (h : trial_division n fuel d = true) :
    ∀ m, d ≤ m → m % 2 = d % 2 → m * m ≤ n → ¬ m ∣ n := by
  induction fuel generalizing d with
  | zero => simp [trial_division] at h
  | succ fuel ih =>
    simp only [trial_division] at h
    intro m hdm hpar hmm
    cases hlt : Nat.blt n (d * d) with
    | true =>
      have h1 : n < d * d := by simpa [Nat.blt_eq] using hlt
      have h2 : d * d ≤ m * m := Nat.mul_le_mul hdm hdm
      omega
    | false =>
      rw [hlt] at h
      simp only [cond_false] at h
      cases hmod : Nat.beq (n % d) 0 with
      | true =>
        rw [hmod] at h
        simp at h
      | false =>
        rw [hmod] at h
        simp only [cond_false] at h
        have hnd : n % d ≠ 0 := by
          intro e
          rw [e] at hmod
          simp at hmod
        by_cases e : m = d
        · rw [e]
          intro hdvd
          exact hnd (Nat.mod_eq_zero_of_dvd hdvd)
        · exact ih (d + 2) h m (by omega) (by omega) hmm

theorem is_odd_prime_sound (n : Nat) (h : is_odd_prime n = true) : Nat.Prime n := by
  unfold is_odd_prime at h
  simp only [Bool.and_eq_true, Bool.not_eq_true'] at h
  obtain ⟨⟨h3, h2⟩, ht⟩ := h
  have h3' : 3 ≤ n := by simpa using h3
  have h2' : n % 2 ≠ 0 := by
    intro e
    rw [e] at h2
    simp at h2
  rw [Nat.prime_def_le_sqrt]
  refine ⟨by omega, ?_⟩
  intro m hm hsq hdvd
  have hmm : m * m ≤ n := Nat.le_sqrt.mp hsq
  by_cases hpar : m % 2 = 0
  · have h2m : 2 ∣ m := Nat.dvd_of_mod_eq_zero hpar
    have : 2 ∣ n := Nat.dvd_trans h2m hdvd
    omega
  · exact trial_division_sound n n 3 ht m (by omega) (by omega) hmm hdvd

theorem search_small (x : Int) (fuel high : Nat) (hx : x ≤ 3) (h0 : 0 < high)
    (hh : high ≤ 147) (hf : high ≤ fuel + 1) :
    select_next_prime_search x fuel 0 high = 1 := by
  induction fuel generalizing high with
  | zero =>
    simp only [select_next_prime_search]
    omega
  | succ fuel ih =>
    simp only [select_next_prime_search]
    split
    · have hb := (primes_getD_bounds ((high + 0) / 2) (by omega)).1
      rw [if_pos (by omega)]
      exact ih ((high + 0) / 2) (by omega) (by omega) (by omega)
    · omega

theorem select_next_prime_small (x : Int) (hx : x ≤ 3) : select_next_prime x = 5 := by
  unfold select_next_prime
  have h147 : primes.getD 147 0 = 160481183 := by decide
  rw [h147, if_neg (by omega), search_small x 147 147 hx (by omega) (by omega) (by omega)]
  rfl

theorem select_next_prime_mem (x : Int) (hx : x ≤ 160481183) : select_next_prime x ∈ primes := by
  unfold select_next_prime
  have h147 : primes.getD 147 0 = 160481183 := by decide
  rw [h147, if_neg (by omega)]
  have hs := search_spec x 147 0 147 (by omega) (by omega) (by rw [h147]; exact hx)
  have hlen : primes.length = 148 := rfl
  rw [List.getD_eq_getElem primes 0 (by omega)]
  exact List.getElem_mem _

theorem primes_all_odd_prime : primes.all (fun p => is_odd_prime p.toNat) = true := by
  decide!

theorem primes_all_prime : ∀ p ∈ primes, Nat.Prime p.toNat := by
  intro p hp
  exact is_odd_prime_sound _ (List.all_eq_true.mp primes_all_odd_prime p hp)

theorem hash_loop_eq_foldl (h : Nat) (bytes : List Nat) (hz : ∀ b ∈ bytes, b ≠ 0) :
    hash_loop h bytes =
      bytes.foldl (fun a c => (((a <<< 5) + a + c) % 2 ^ 64) &&& LONG_MAX) h := by
  induction bytes generalizing h with
  | nil => rfl
  | cons c rest ih =>
    simp only [hash_loop, List.foldl_cons]
    rw [if_neg (hz c (List.mem_cons_self _ _))]
    exact ih _ (fun b hb => hz b (List.mem_cons_of_mem _ hb))

theorem djb2_recurrence_eq_foldl (bytes : List Nat) (i : Nat) (hi : i ≤ bytes.length) :
    djb2_recurrence bytes i =
      (bytes.take i).foldl (fun a c => (((a <<< 5) + a + c) % 2 ^ 64) &&& LONG_MAX) 5381 := by
  induction i with
  | zero => rfl
  | succ i ih =>
    have hlt : i < bytes.length := by omega
    simp only [djb2_recurrence]
    rw [ih (by omega), List.take_succ, List.getElem?_eq_getElem hlt, List.foldl_append,
      List.getD_eq_getElem bytes 0 hlt]
    rfl

theorem hash_loop_lt (h : Nat) (bytes : List Nat) (hh : h < 2 ^ 63) :
    hash_loop h bytes < 2 ^ 63 := by
  induction bytes generalizing h with
  | nil => exact hh
  | cons c rest ih =>
    simp only [hash_loop]
    split
    · exact hh
    · apply ih
      have : (((h <<< 5) + h + c) % 2 ^ 64) &&& LONG_MAX ≤ LONG_MAX := Nat.and_le_right
      unfold LONG_MAX at this ⊢
      omega

theorem sum_map_set {α : Type} (f : α → Int) (l : List α) (i : Nat) (c0 c : α)
    (h : l[i]? = some c0) : ((l.set i c).map f).sum = (l.map f).sum - f c0 + f c := by
  induction l generalizing i with
  | nil => simp at h
  | cons a l ih =>
    cases i with
    | zero =>
      simp only [List.getElem?_cons_zero, Option.some.injEq] at h
      subst h
      simp only [List.set_cons_zero, List.map_cons, List.sum_cons]
      omega
    | succ i =>
      simp only [List.getElem?_cons_succ] at h
      simp only [List.set_cons_succ, List.map_cons, List.sum_cons, ih i h]
      omega

theorem collision_sum_update (d d1 : dictionary_t) (i : Nat) (key key1 : Option Key)
    (entry entry1 : entry_t) (hk : d.keys[i]? = some key) (hv : d.values[i]? = some entry)
    (hk1 : d1.keys = d.keys.set i key1) (hv1 : d1.values = d.values.set i entry1) :
    collision_sum d1 = collision_sum d - bucket_excess key entry + bucket_excess key1 entry1 := by
  unfold collision_sum
  rw [hk1, hv1, zip_set_set]
  exact sum_map_set (fun c : Option Key × entry_t => bucket_excess c.1 c.2) _ i (key, entry)
    (key1, entry1) ((getElem?_zip_some _ _ _ _ _).mpr ⟨hk, hv⟩)

theorem getElem?_set_self_some {α : Type} (l : List α) (i : Nat) (a b : α)
    (h : (l.set i a)[i]? = some b) : b = a := by
  rw [List.getElem?_set] at h
  simp only [if_true] at h
  split at h
  · exact (Option.some.inj h).symm
  · simp at h

theorem Stats.set_slot {d d1 : dictionary_t} (hs : Stats d) (i : Nat) (key key1 : Option Key)
    (entry entry1 : entry_t) (hk : d.keys[i]? = some key) (hv : d.values[i]? = some entry)
    (hk1 : d1.keys = d.keys.set i key1) (hv1 : d1.values = d.values.set i entry1)
    (hnc : d1.num_collisions =
      d.num_collisions - bucket_excess key entry + bucket_excess key1 entry1)
    (hmc : d.maximum_chain ≤ d1.maximum_chain)
    (hnew : ∀ b, key1 = none → entry1 = entry_t.collision_buckets b →
      (collision_bucket_size b : Int) ≤ d1.maximum_chain) : Stats d1 := by
  refine ⟨?_, ?_⟩
  · rw [hnc, hs.collisions, collision_sum_update d d1 i key key1 entry entry1 hk hv hk1 hv1]
  · intro j b hb
    unfold bucket_attached at hb
    rw [hk1, hv1] at hb
    by_cases e : i = j
    · subst e
      have e1 := getElem?_set_self_some _ _ _ _ hb.1
      have e2 := getElem?_set_self_some _ _ _ _ hb.2
      exact hnew b e1.symm e2.symm
    · rw [List.getElem?_set_ne e, List.getElem?_set_ne e] at hb
      exact le_trans (hs.chain j b hb) hmc

theorem Stats.same_table {d d1 : dictionary_t} (hs : Stats d) (hk : d1.keys = d.keys)
    (hv : d1.values = d.values) (hnc : d1.num_collisions = d.num_collisions)
    (hmc : d1.maximum_chain = d.maximum_chain) : Stats d1 := by
  refine ⟨?_, ?_⟩
  · rw [hnc, hs.collisions]
    unfold collision_sum
    rw [hk, hv]
  · intro j b hb
    unfold bucket_attached at hb
    rw [hk, hv] at hb
    rw [hmc]
    exact hs.chain j b hb

theorem new_dictionary_stats (cap : Int) (lf : ℚ) : Stats (new_dictionary_size_load cap lf) := by
  refine ⟨?_, ?_⟩
  · show (0 : Int) = collision_sum (new_dictionary_size_load cap lf)
    unfold collision_sum
    symm
    apply List.sum_eq_zero
    intro x hx
    obtain ⟨c, hc, e⟩ := List.mem_map.mp hx
    obtain ⟨j, hj⟩ := List.mem_iff_getElem?.mp hc
    obtain ⟨kj, ej⟩ := c
    have h := (getElem?_zip_some _ _ _ _ _).mp hj
    simp only [new_dictionary_size_load, List.getElem?_replicate] at h
    obtain ⟨h1, h2⟩ := h
    split at h1
    · rename_i hlt
      rw [if_pos hlt] at h2
      cases h1
      cases h2
      rw [← e]
      rfl
    · simp at h1
  · intro j b hb
    unfold bucket_attached at hb
    simp only [new_dictionary_size_load, List.getElem?_replicate] at hb
    obtain ⟨h1, h2⟩ := hb
    split at h2
    · cases h2
    · simp at h2

theorem put_core_stats (d : dictionary_t) (hw : WellFormed d) (hs : Stats d) (k : Key)
    (v : dict_value_t) (hk : k.length < MAX_KEY) (d1 : dictionary_t)
    (h : dictionary_put_core d k v = some d1) :
    Stats d1 ∧ d.maximum_chain ≤ d1.maximum_chain := by
  obtain ⟨i, key, entry, hi, -, hkey, hval, hso⟩ := hw.slot_of_key k
  unfold slot_ok at hso
  cases key with
  | none =>
    cases entry with
    | value v0 =>
      have hv0 : v0 = 0 := hso.1
      subst hv0
      simp only [dictionary_put_core, hi, hkey, hval] at h
      rw [if_pos trivial] at h
      have e := Option.some.inj h
      subst e
      exact ⟨hs.set_slot i none (some k) (entry_t.value 0) (entry_t.value v) hkey hval rfl rfl
        (by simp [bucket_excess]) (le_refl _) (by intro b e; cases e), le_refl _⟩
    | collision_buckets b =>
      have hkeys : d.keys = d.keys.set i none := set_eq_self_of_getElem? _ _ _ hkey
      have hold := hs.chain i b ⟨hkey, hval⟩
      have hsize : 2 ≤ collision_bucket_size b := hso.1.2.1
      simp only [dictionary_put_core, hi, hkey, hval] at h
      by_cases hin : k ∈ (bucket_pairs b).map Prod.fst
      · obtain ⟨r1, -, -, r4, -⟩ := addpair_present b k v hk hso.1.2.2 hin
        generalize collision_bucket_addpair b (some k) v = r at h r1 r4
        rw [r1, if_neg (by decide)] at h
        have e := Option.some.inj h
        subst e
        have hsz : collision_bucket_size r.1 = collision_bucket_size b := r4
        exact ⟨hs.set_slot i none none (entry_t.collision_buckets b)
          (entry_t.collision_buckets r.1) hkey hval hkeys rfl
          (by simp only [bucket_excess, hsz]; omega) (le_refl _)
          (by
            intro b1 _ e
            cases e
            rw [hsz]
            exact hold), le_refl _⟩
      · obtain ⟨r1, r2, -⟩ := addpair_absent b k v hk hin
        have hsz : collision_bucket_size (collision_bucket_addpair b (some k) v).1 =
            collision_bucket_size b + 1 := by
          unfold collision_bucket_size
          rw [r2]
          simp
        generalize collision_bucket_addpair b (some k) v = r at h r1 hsz
        rw [r1, if_pos (by decide)] at h
        have e := Option.some.inj h
        subst e
        refine ⟨hs.set_slot i none none (entry_t.collision_buckets b)
          (entry_t.collision_buckets r.1) hkey hval hkeys rfl ?_ ?_ ?_, ?_⟩
        · simp only [bucket_excess]
          rw [if_pos (by omega), hsz]
          push_cast
          omega
        · show d.maximum_chain ≤ if _ then _ else _
          split <;> omega
        · intro b1 _ e
          cases e
          show _ ≤ if _ then _ else _
          split <;> omega
        · show d.maximum_chain ≤ if _ then _ else _
          split <;> omega
  | some hkey0 =>
    cases entry with
    | value hv0 =>
      have hlen0 := (hso.2 (hkey0, hv0) (by simp [slot_pairs]))
      have hiff := strncmp_eq_zero_iff_right hkey0 k MAX_KEY hk
      have hkeys : d.keys = d.keys.set i (some hkey0) := set_eq_self_of_getElem? _ _ _ hkey
      simp only [dictionary_put_core, hi, hkey, hval] at h
      by_cases e : hkey0 = k
      · rw [if_pos (hiff.mpr e)] at h
        have e1 := Option.some.inj h
        subst e1
        exact ⟨hs.set_slot i (some hkey0) (some hkey0) (entry_t.value hv0) (entry_t.value v)
          hkey hval hkeys rfl (by simp [bucket_excess]) (le_refl _)
          (by intro b e2; cases e2), le_refl _⟩
      · rw [if_neg (fun h1 => e (hiff.mp h1))] at h
        have hb1 : bucket_pairs new_collision_bucket = [] := rfl
        obtain ⟨-, a2, -⟩ := addpair_absent new_collision_bucket k v hk (by simp [hb1])
        rw [hb1, List.nil_append] at a2
        obtain ⟨c1, c2, -⟩ := addpair_absent
          (collision_bucket_addpair new_collision_bucket (some k) v).1 hkey0 hv0 hlen0.1
          (by rw [a2]; simpa using e)
        rw [a2] at c2
        have hsz : collision_bucket_size (collision_bucket_addpair
            (collision_bucket_addpair new_collision_bucket (some k) v).1 (some hkey0) hv0).1 = 2 := by
          unfold collision_bucket_size
          rw [c2]
          rfl
        generalize collision_bucket_addpair
          (collision_bucket_addpair new_collision_bucket (some k) v).1 (some hkey0) hv0 = r
          at h c1 hsz
        have e1 := Option.some.inj h
        subst e1
        refine ⟨hs.set_slot i (some hkey0) none (entry_t.value hv0)
          (entry_t.collision_buckets r.1) hkey hval rfl rfl ?_ ?_ ?_, ?_⟩
        · simp only [bucket_excess]
          rw [if_pos ⟨by rw [c1]; decide, by omega⟩, hsz]
          push_cast
          omega
        · show d.maximum_chain ≤ if _ then _ else _
          split <;> omega
        · intro b1 _ e2
          cases e2
          show _ ≤ if _ then _ else _
          rw [c1, hsz]
          split
          · exact le_refl _
          · rename_i hneg
            simp only [not_and, not_lt] at hneg
            exact hneg (by decide)
        · show d.maximum_chain ≤ if _ then _ else _
          split <;> omega
    | collision_buckets b => exact absurd hso.1 (by simp)

theorem remove_stats (d : dictionary_t) (hw : WellFormed d) (hs : Stats d) (k : Key)
    (d1 : dictionary_t) (r : dict_value_t)
    (h : dictionary_remove d (some k) = some (d1, r)) :
    Stats d1 ∧ d1.maximum_chain = d.maximum_chain := by
  obtain ⟨i, key, entry, hi, -, hkey, hval, hso⟩ := hw.slot_of_key k
  unfold slot_ok at hso
  cases key with
  | none =>
    cases entry with
    | value v0 =>
      have hv0 : v0 = 0 := hso.1
      subst hv0
      simp only [dictionary_remove, hi, hkey, hval] at h
      rw [if_pos trivial] at h
      have e := congrArg Prod.fst (Option.some.inj h)
      simp only at e
      subst e
      exact ⟨hs, rfl⟩
    | collision_buckets b =>
      have hkeys : d.keys = d.keys.set i none := set_eq_self_of_getElem? _ _ _ hkey
      have hold := hs.chain i b ⟨hkey, hval⟩
      have hsize : 2 ≤ collision_bucket_size b := hso.1.2.1
      cases hscan : remove_scan k (bucket_pairs b) with
      | none =>
        simp only [dictionary_remove, hi, hkey, hval, hscan] at h
        have e := congrArg Prod.fst (Option.some.inj h)
        simp only at e
        subst e
        exact ⟨hs, rfl⟩
      | some j =>
        obtain ⟨v0, hj⟩ := remove_scan_some k _ j hscan
        have hjlt : j < (bucket_pairs b).length := by
          by_contra hcon
          rw [List.getElem?_eq_none (by omega)] at hj
          simp at hj
        by_cases hone : collision_bucket_size b - 1 = 1
        · have hlen2 : (bucket_pairs b).length = 2 := by
            unfold collision_bucket_size at hone; omega
          have hlast : ∃ last, (bucket_pairs b)[if j = 0 then 1 else 0]? = some last := by
            have hlt : (if j = 0 then 1 else 0) < (bucket_pairs b).length := by
              split <;> omega
            exact ⟨_, List.getElem?_eq_getElem hlt⟩
          obtain ⟨last, hl1⟩ := hlast
          simp only [dictionary_remove, hi, hkey, hval, hscan, hone, if_true, hj, hl1] at h
          have e := congrArg Prod.fst (Option.some.inj h)
          simp only at e
          subst e
          refine ⟨hs.set_slot i none (some last.1) (entry_t.collision_buckets b)
            (entry_t.value last.2) hkey hval rfl rfl ?_ (le_refl _) (by intro b1 e; cases e),
            rfl⟩
          simp only [bucket_excess]
          unfold collision_bucket_size at hone ⊢
          omega
        · have hlastlt : collision_bucket_size b - 1 < (bucket_pairs b).length := by
            unfold collision_bucket_size; omega
          have hl1 : (bucket_pairs b)[collision_bucket_size b - 1]? =
              some ((bucket_pairs b)[collision_bucket_size b - 1]) :=
            List.getElem?_eq_getElem hlastlt
          simp only [dictionary_remove, hi, hkey, hval, hscan, hone, if_false, hj, hl1] at h
          have e := congrArg Prod.fst (Option.some.inj h)
          simp only at e
          subst e
          have hnewsize : collision_bucket_size { b with keys_values := (some
              (((bucket_pairs b).set j ((bucket_pairs b)[collision_bucket_size b - 1])).take
                (collision_bucket_size b - 1))) } = collision_bucket_size b - 1 := by
            show (List.take _ _).length = _
            rw [List.length_take, List.length_set]
            unfold collision_bucket_size
            omega
          refine ⟨hs.set_slot i none none (entry_t.collision_buckets b) _ hkey hval hkeys rfl
            ?_ (le_refl _) ?_, rfl⟩
          · simp only [bucket_excess, hnewsize]
            omega
          · intro b1 _ e
            cases e
            rw [hnewsize]
            show ((collision_bucket_size b - 1 : Nat) : Int) ≤ d.maximum_chain
            omega
  | some hkey0 =>
    cases entry with
    | value hv0 =>
      simp only [dictionary_remove, hi, hkey, hval] at h
      by_cases e : k = hkey0
      · rw [if_pos ((strcmp_eq_zero_iff _ _).mpr e)] at h
        have e1 := congrArg Prod.fst (Option.some.inj h)
        simp only at e1
        subst e1
        exact ⟨hs.set_slot i (some hkey0) none (entry_t.value hv0) (entry_t.value 0) hkey hval
          rfl rfl (by simp [bucket_excess]) (le_refl _) (by intro b _ e2; cases e2), rfl⟩
      · rw [if_neg (fun h1 => e ((strcmp_eq_zero_iff _ _).mp h1))] at h
        have e1 := congrArg Prod.fst (Option.some.inj h)
        simp only at e1
        subst e1
        exact ⟨hs, rfl⟩
    | collision_buckets b => exact absurd hso.1 (by simp)

theorem copy_pairs_invariant (P : dictionary_t → Prop)
    (hP : ∀ d k v d1, WellFormed d → P d → k.length < MAX_KEY →
      dictionary_put_core d k v = some d1 → P d1)
    (f : Nat) (cap : Int) (l : List (Key × dict_value_t)) (nd : dictionary_t)
    (hw : WellFormed nd) (hcap : nd.max_entries = cap) (hlf : nd.load_factor = LOAD_FACTOR)
    (hn : nd.num_entries = ((contents nd).length : Int))
    (hnd : (l.map Prod.fst).Nodup)
    (hl : ∀ p ∈ l, p.1.length < MAX_KEY ∧ p.1 ∉ (contents nd).map Prod.fst)
    (hsz : 2 * (((contents nd).length : Int) + (l.length : Int)) ≤ cap)
    (hp : P nd) (nd1 : dictionary_t)
    (h : copy_pairs (fun d k v => (dictionary_put_key f d k v).map Prod.fst) nd l = some nd1) :
    P nd1 := by
  induction l generalizing nd with
  | nil =>
    simp only [copy_pairs] at h
    rw [← Option.some.inj h]
    exact hp
  | cons p rest ih =>
    obtain ⟨hp1, hp2⟩ := hl p (List.mem_cons_self _ _)
    simp only [List.map_cons, List.nodup_cons] at hnd
    simp only [List.length_cons, Nat.cast_add, Nat.cast_one] at hsz
    obtain ⟨nd', c1, c2, c3, c4, c5, -, c7⟩ := put_core_spec nd hw p.1 p.2 hp1
    obtain ⟨c7a, c7b⟩ := c7 hp2
    have hres : resize_needed nd' = false := by
      apply no_resize_of_half nd' (by rw [c4, hlf])
      · rw [c7a, hn, c3, hcap]; omega
      · rw [c7a, hn]; omega
    obtain ⟨rb, hrb⟩ := put_key_eq_body f
    have hput : dictionary_put_key f nd p.1 p.2 = some (nd', assoc_value p.1 (contents nd)) := by
      rw [hrb]
      exact put_body_no_resize rb nd nd' hw p.1 p.2 c1 hres
    have hmem' : ∀ q, q ∈ contents nd' ↔ q = p ∨ q ∈ contents nd := by
      intro q
      rw [c5 q]
      constructor
      · rintro (h | ⟨-, h⟩)
        · left; exact h
        · right; exact h
      · rintro (h | h)
        · left; exact h
        · right
          refine ⟨?_, h⟩
          intro e
          apply hp2
          rw [← e]
          exact List.mem_map_of_mem Prod.fst h
    simp only [copy_pairs, hput, Option.map_some'] at h
    exact ih nd' c2 (by rw [c3, hcap]) (by rw [c4, hlf])
      (by rw [c7a, hn, c7b]; push_cast; rfl) hnd.2
      (by
        intro q hq
        refine ⟨(hl q (List.mem_cons_of_mem _ hq)).1, ?_⟩
        intro hmem
        obtain ⟨q', hq', e⟩ := List.mem_map.mp hmem
        rcases (hmem' q').mp hq' with h | h
        · apply hnd.1
          rw [← h, e]
          exact List.mem_map_of_mem Prod.fst hq
        · apply (hl q (List.mem_cons_of_mem _ hq)).2
          rw [← e]
          exact List.mem_map_of_mem Prod.fst h)
      (by rw [c7b]; push_cast; omega)
      (hP nd p.1 p.2 nd' hw hp hp1 c1) h

theorem rebuild_stats (f : Nat) (d1 : dictionary_t) (hw : WellFormed d1) (new_size : Int)
    (h2 : 2 ≤ new_size) (h63 : new_size < 2 ^ 63)
    (hsz : 2 * ((contents d1).length : Int) ≤ new_size) (d2 : dictionary_t)
    (h : dictionary_rebuild_table (fun d k v => (dictionary_put_key f d k v).map Prod.fst)
        d1 new_size = some d2) : Stats d2 := by
  obtain ⟨w1, w2⟩ := new_dictionary_wf new_size LOAD_FACTOR h2 h63
  simp only [dictionary_rebuild_table, enumerate_spec d1 hw] at h
  cases hc : copy_pairs (fun d k v => (dictionary_put_key f d k v).map Prod.fst)
      (new_dictionary_size new_size) (contents d1) with
  | none =>
    rw [hc] at h
    cases h
  | some nd =>
    rw [hc] at h
    have hs : Stats nd := copy_pairs_invariant Stats
      (fun d k v d1 hwd hsd hk hcore => (put_core_stats d hwd hsd k v hk d1 hcore).1)
      f new_size (contents d1) (new_dictionary_size new_size) w1 rfl rfl
      (by
        show (0 : Int) = ((contents (new_dictionary_size_load new_size LOAD_FACTOR)).length : Int)
        rw [w2]; rfl)
      hw.nodup_contents
      (by
        intro p hp
        refine ⟨(hw.mem_contents p hp).1, ?_⟩
        show p.1 ∉ (contents (new_dictionary_size_load new_size LOAD_FACTOR)).map Prod.fst
        rw [w2]
        simp)
      (by
        show 2 * (((contents (new_dictionary_size_load new_size LOAD_FACTOR)).length : Int) +
          ((contents d1).length : Int)) ≤ new_size
        rw [w2]
        simp only [List.length_nil, Nat.cast_zero, zero_add]
        exact hsz)
      (new_dictionary_stats new_size LOAD_FACTOR) nd hc
    rw [← Option.some.inj h]
    exact hs.same_table rfl rfl rfl rfl

theorem put_stats (d : dictionary_t) (hinv : Inv d) (hs : Stats d) (k : Key) (v : dict_value_t)
    (hk : k.length < MAX_KEY) (hlim : d.num_entries < ENTRY_LIMIT) (fuel : Nat)
    (d2 : dictionary_t) (prev : dict_value_t)
    (h : dictionary_put_key (fuel + 1) d k v = some (d2, prev)) :
    Stats d2 ∧ ∃ d1, dictionary_put_core d k v = some d1 ∧ WellFormed d1 ∧
      d.maximum_chain ≤ d1.maximum_chain ∧ (resize_needed d1 = false → d2 = d1) := by
  obtain ⟨hw, hcount⟩ := hinv
  obtain ⟨d1, c1, c2, c3, c4, c5, c6, c7⟩ := put_core_spec d hw k v hk
  obtain ⟨s1, s2⟩ := put_core_stats d hw hs k v hk d1 c1
  have hcount1 : ((contents d1).length : Int) ≤ d1.num_entries ∧
      d1.num_entries ≤ d.num_entries + 1 := by
    by_cases hin : k ∈ (contents d).map Prod.fst
    · obtain ⟨a, b⟩ := c6 hin
      rw [a, b]
      omega
    · obtain ⟨a, b⟩ := c7 hin
      rw [a, b]
      push_cast
      omega
  unfold ENTRY_LIMIT at hlim
  by_cases hr : resize_needed d1 = true
  · have hn1 : d1.num_entries * 2 ≤ 1073741823 := by omega
    have hconv : int_of_long (d1.num_entries * 2) = d1.num_entries * 2 :=
      int_of_long_eq _ (by omega) (by omega)
    have hb := select_next_prime_bounds (d1.num_entries * 2) hn1
    obtain ⟨d2', r1, -⟩ := rebuild_spec fuel d1 c2
      (select_next_prime (int_of_long (d1.num_entries * 2)))
      (by rw [hconv]; omega) (by rw [hconv]; omega) (by rw [hconv]; omega)
    have hput := put_body_resize _ d d1 d2' hw k v c1 hr r1
    have e : d2 = d2' := by
      have := h.symm.trans hput
      exact congrArg Prod.fst (Option.some.inj this)
    subst e
    refine ⟨rebuild_stats fuel d1 c2 _ (by rw [hconv]; omega) (by rw [hconv]; omega)
      (by rw [hconv]; omega) d2 r1, d1, c1, c2, s2, ?_⟩
    intro hf
    rw [hf] at hr
    cases hr
  · have hr' : resize_needed d1 = false := by simpa using hr
    have hput := put_body_no_resize
      (dictionary_rebuild_table (fun d k v => (dictionary_put_key fuel d k v).map Prod.fst))
      d d1 hw k v c1 hr'
    have e : d2 = d1 := by
      have := h.symm.trans hput
      exact congrArg Prod.fst (Option.some.inj this)
    subst e
    exact ⟨s1, d2, c1, c2, s2, fun _ => rfl⟩

theorem Reachable.stats {d : dictionary_t} (hr : Reachable d) : Stats d := by
  induction hr with
  | create initial_size load_factor h2 h63 => exact new_dictionary_stats _ _
  | put fuel dict key value dict1 previous hd hk hlim hput ih =>
    exact (put_stats dict hd.inv ih key value hk hlim fuel dict1 previous hput).1
  | remove dict key dict1 removed hd hrem ih =>
    exact (remove_stats dict hd.inv.1 ih key dict1 removed hrem).1

theorem example_aeb_reachable : Reachable example_aeb :=
  Reachable.put 0 example_ae [98] 3 example_aeb 0 example_ae_reachable
    (by decide) (by decide) (by decide!)

theorem example_aebd_put :
    dictionary_put 1 example_aeb (some [100]) 4 = some (example_aebd, 0) := by
  decide!

theorem slot_not_empty_of_mem {d : dictionary_t} (hw : WellFormed d) (q : Key × dict_value_t)
    (hq : q ∈ contents d) (i : Nat) (hi : hash_index d.max_entries q.1 = some i) :
    ¬ slot_is_empty d i := by
  rintro ⟨e1, e2⟩
  obtain ⟨-, j, kj, ej, hj, hkj, hej, hmem⟩ := hw.mem_contents q hq
  rw [hi] at hj
  cases hj
  rw [e1] at hkj
  rw [e2] at hej
  cases hkj
  cases hej
  simp [slot_pairs] at hmem

theorem bucket_two_pairs {d : dictionary_t} (hw : WellFormed d) (i : Nat)
    (b : collision_bucket_t) (hb : bucket_attached d i b) :
    2 ≤ collision_bucket_size b ∧
    ∃ p q : Key × dict_value_t, p ∈ contents d ∧ q ∈ contents d ∧ p.1 ≠ q.1 ∧
      hash_index d.max_entries p.1 = some i ∧ hash_index d.max_entries q.1 = some i := by
  have hso := hw.slots i none (entry_t.collision_buckets b) hb.1 hb.2
  unfold slot_ok at hso
  obtain ⟨⟨-, hsize, hnd⟩, hall⟩ := hso
  refine ⟨hsize, ?_⟩
  have hin : ∀ p, p ∈ bucket_pairs b → p ∈ contents d := by
    intro p hp
    exact (mem_contents_iff d p).mpr ⟨i, none, entry_t.collision_buckets b, hb.1, hb.2, hp⟩
  have hall' : ∀ p, p ∈ bucket_pairs b → hash_index d.max_entries p.1 = some i :=
    fun p hp => (hall p hp).2
  unfold collision_bucket_size at hsize
  rcases hl : bucket_pairs b with _ | ⟨p, _ | ⟨q, rest⟩⟩
  · rw [hl] at hsize
    simp at hsize
  · rw [hl] at hsize
    simp at hsize
  · rw [hl] at hnd hin hall'
    simp only [List.map_cons, List.nodup_cons, List.mem_cons, not_or] at hnd
    exact ⟨p, q, hin p (by simp), hin q (by simp), hnd.1.1, hall' p (by simp),
      hall' q (by simp)⟩

theorem slot_shape {d : dictionary_t} (hw : WellFormed d) (i : Nat)
    (hi : i < d.max_entries.toNat) :
    ((slot_is_empty d i ∧ ¬ slot_is_direct d i ∧ ¬ slot_is_bucketed d i) ∨
      (¬ slot_is_empty d i ∧ slot_is_direct d i ∧ ¬ slot_is_bucketed d i) ∨
      (¬ slot_is_empty d i ∧ ¬ slot_is_direct d i ∧ slot_is_bucketed d i)) ∧
    (∀ k b, d.keys[i]? = some (some k) → d.values[i]? ≠ some (entry_t.collision_buckets b)) := by
  obtain ⟨key, entry, hkey, hval, hso⟩ := hw.slot_at i hi
  unfold slot_ok at hso
  unfold slot_is_empty slot_is_direct slot_is_bucketed bucket_attached
  rw [hkey, hval]
  cases key with
  | none =>
    cases entry with
    | value v0 =>
      have hv0 : v0 = 0 := hso.1
      subst hv0
      refine ⟨Or.inl ⟨⟨rfl, rfl⟩, ?_, ?_⟩, ?_⟩
      · rintro ⟨k, v, h1, -⟩
        cases h1
      · rintro ⟨b, -, h2⟩
        cases h2
      · intro k b h1
        cases h1
    | collision_buckets b =>
      refine ⟨Or.inr (Or.inr ⟨?_, ?_, ⟨b, rfl, rfl⟩⟩), ?_⟩
      · rintro ⟨-, h2⟩
        cases h2
      · rintro ⟨k, v, h1, -⟩
        cases h1
      · intro k b1 h1
        cases h1
  | some k0 =>
    cases entry with
    | value v0 =>
      refine ⟨Or.inr (Or.inl ⟨?_, ⟨k0, v0, rfl, rfl⟩, ?_⟩), ?_⟩
      · rintro ⟨h1, -⟩
        cases h1
      · rintro ⟨b, h1, -⟩
        cases h1
      · intro k b h1 h2
        cases h2
    | collision_buckets b => exact absurd hso.1 (by simp)

theorem put_no_rebuild_eq (d : dictionary_t) (hw : WellFormed d) (k : Key) (v : dict_value_t)
    (hk : k.length < MAX_KEY) (fuel : Nat) (d2 : dictionary_t) (prev : dict_value_t)
    (hnr : put_rebuilds d k v = false)
    (h : dictionary_put fuel d (some k) v = some (d2, prev)) :
    dictionary_put_core d k v = some d2 := by
  obtain ⟨d1, c1, -⟩ := put_core_spec d hw k v hk
  have hres : resize_needed d1 = false := by
    unfold put_rebuilds at hnr
    rw [c1] at hnr
    exact hnr
  obtain ⟨rb, hrb⟩ := put_key_eq_body fuel
  have hput : dictionary_put fuel d (some k) v = some (d1, assoc_value k (contents d)) := by
    show dictionary_put_key fuel d k v = _
    rw [hrb]
    exact put_body_no_resize rb d d1 hw k v c1 hres
  have e : d2 = d1 := congrArg Prod.fst (Option.some.inj (h.symm.trans hput))
  rw [e]
  exact c1

theorem remove_keeps_bucketed_occupied (d : dictionary_t) (hw : WellFormed d) (i : Nat)
    (k : Key) (d1 : dictionary_t) (r : dict_value_t)
    (h : dictionary_remove d (some k) = some (d1, r)) (hb : slot_is_bucketed d i) :
    ¬ slot_is_empty d1 i := by
  obtain ⟨b, hb⟩ := hb
  obtain ⟨-, p, q, hp, hq, hne, hpi, hqi⟩ := bucket_two_pairs hw i b hb
  obtain ⟨d1', c1, c2, c3, -, c5, -⟩ := remove_spec d hw k
  have e : d1 = d1' := congrArg Prod.fst (Option.some.inj (h.symm.trans c1))
  subst e
  by_cases hpk : p.1 = k
  · have hqk : q.1 ≠ k := fun e => hne (hpk.trans e.symm)
    exact slot_not_empty_of_mem c2 q ((c5 q).mpr ⟨hqk, hq⟩) i (by rw [c3]; exact hqi)
  · exact slot_not_empty_of_mem c2 p ((c5 p).mpr ⟨hpk, hp⟩) i (by rw [c3]; exact hpi)

theorem put_core_keeps_bucketed_occupied (d : dictionary_t) (hw : WellFormed d) (i : Nat)
    (k : Key) (v : dict_value_t) (hk : k.length < MAX_KEY) (d1 : dictionary_t)
    (h : dictionary_put_core d k v = some d1) (hb : slot_is_bucketed d i) :
    ¬ slot_is_empty d1 i := by
  obtain ⟨b, hb⟩ := hb
  obtain ⟨-, p, q, hp, hq, hne, hpi, hqi⟩ := bucket_two_pairs hw i b hb
  obtain ⟨d1', c1, c2, c3, -, c5, -⟩ := put_core_spec d hw k v hk
  have e : d1 = d1' := Option.some.inj (h.symm.trans c1)
  subst e
  by_cases hpk : p.1 = k
  · have hqk : q.1 ≠ k := fun e => hne (hpk.trans e.symm)
    exact slot_not_empty_of_mem c2 q ((c5 q).mpr (Or.inr ⟨hqk, hq⟩)) i (by rw [c3]; exact hqi)
  · exact slot_not_empty_of_mem c2 p ((c5 p).mpr (Or.inr ⟨hpk, hp⟩)) i (by rw [c3]; exact hpi)

theorem djb2_step_eq (a c : Nat) :
    (((a <<< 5) + a + c) % 2 ^ 64) &&& LONG_MAX = (33 * a + c) % 2 ^ 63 := by
  unfold LONG_MAX
  rw [Nat.and_pow_two_sub_one_eq_mod, Nat.shiftLeft_eq,
    Nat.mod_mod_of_dvd _ (by norm_num : 2 ^ 63 ∣ 2 ^ 64)]
  congr 1
  ring

theorem foldl_step_eq_mod (h : Nat) (bytes : List Nat) (hh : h < 2 ^ 63) :
    bytes.foldl (fun a c => (((a <<< 5) + a + c) % 2 ^ 64) &&& LONG_MAX) h =
      (bytes.foldl (fun a c => 33 * a + c) h) % 2 ^ 63 := by
  induction bytes using List.reverseRecOn with
  | nil => exact (Nat.mod_eq_of_lt hh).symm
  | append_singleton l c ih =>
    rw [List.foldl_append, List.foldl_append]
    simp only [List.foldl_cons, List.foldl_nil]
    rw [djb2_step_eq, ih]
    omega

theorem foldl_linear_eq (h : Nat) (bytes : List Nat) :
    bytes.foldl (fun a c => 33 * a + c) h =
      h * 33 ^ bytes.length +
        ((List.range bytes.length).map
          (fun i => bytes.getD i 0 * 33 ^ (bytes.length - (i + 1)))).sum := by
  induction bytes generalizing h with
  | nil => simp
  | cons c cs ih =>
    rw [List.foldl_cons, ih, List.length_cons, List.range_succ_eq_map]
    simp only [List.map_cons, List.sum_cons, List.map_map]
    have e : ((fun i => (c :: cs).getD i 0 * 33 ^ (cs.length + 1 - (i + 1))) ∘ Nat.succ) =
        (fun i => cs.getD i 0 * 33 ^ (cs.length - (i + 1))) := by
      funext i
      simp
    rw [e]
    simp only [List.getD_cons_zero, Nat.zero_add, Nat.add_sub_cancel]
    ring

theorem hash_index_eq (m : Int) (k : Key) (i : Nat) (h2 : 2 ≤ m) (h63 : m < 2 ^ 63)
    (h : hash_index m k = some i) :
    (i : Int) = (hash k : Int) % (m - 1) ∧ i < (m - 1).toNat := by
  unfold hash_index at h
  have e : ((m - 1) % 2 ^ 64).toNat = (m - 1).toNat := by
    rw [Int.emod_eq_of_lt (by omega) (by omega)]
  rw [e] at h
  have hpos : 0 < (m - 1).toNat := by omega
  rw [if_neg (by omega)] at h
  have hi := Option.some.inj h
  refine ⟨?_, by rw [← hi]; exact Nat.mod_lt _ hpos⟩
  rw [← hi, Int.natCast_mod, Int.toNat_of_nonneg (by omega)]

theorem last_slot_empty {d : dictionary_t} (hw : WellFormed d) :
    slot_is_empty d (d.max_entries - 1).toNat := by
  have h2 := hw.capacity_ge
  have h63 := hw.capacity_lt
  have hlt : (d.max_entries - 1).toNat < d.max_entries.toNat := by omega
  rcases (slot_shape hw _ hlt).1 with h | h | h
  · exact h.1
  · obtain ⟨k, v, hk, hv⟩ := h.2.1
    have hso := hw.slots _ _ _ hk hv
    have hp := (hso.2 (k, v) (by simp [slot_pairs])).2
    have := (hash_index_eq _ _ _ h2 h63 hp).2
    omega
  · obtain ⟨b, hb⟩ := h.2.2
    obtain ⟨-, p, -, -, -, -, hp, -⟩ := bucket_two_pairs hw _ b hb
    have := (hash_index_eq _ _ _ h2 h63 hp).2
    omega

theorem hash_index_two (k : Key) : hash_index 2 k = some 0 := by
  unfold hash_index
  have e : (((2 : Int) - 1) % 2 ^ 64).toNat = 1 := by decide
  rw [e, if_neg (by decide), Nat.mod_one]

theorem resize_not_needed_two_slots (key : Key) (value : dict_value_t) :
    resize_needed (example_two_slots key value) = false := by
  apply no_resize_of_half_load
  · show (1 / 2 : ℚ) ≤ 3 / 4
    norm_num
  · show (2 : Int) * 1 ≤ 2
    decide
  · show (0 : Int) ≤ 1
    decide

theorem two_slots_put_first (k1 : Key) (v : dict_value_t) (fuel : Nat) :
    dictionary_put fuel (new_dictionary_size_load 2 (3 / 4)) (some k1) v =
      some (example_two_slots k1 v, 0) := by
  obtain ⟨rb, hrb⟩ := put_key_eq_body fuel
  have hget : dictionary_get (new_dictionary_size_load 2 (3 / 4)) (some k1) = some 0 := by
    simp [dictionary_get, new_dictionary_size_load, hash_index_two]
  have hcore : dictionary_put_core (new_dictionary_size_load 2 (3 / 4)) k1 v =
      some (example_two_slots k1 v) := by
    simp [dictionary_put_core, new_dictionary_size_load, hash_index_two, example_two_slots]
  show dictionary_put_key fuel _ k1 v = _
  rw [hrb]
  simp [dictionary_put_body, hget, hcore, resize_not_needed_two_slots]

theorem two_slots_long_keys (k1 k2 : Key) (v w : dict_value_t) (fuel : Nat)
    (htake : k1.take MAX_KEY = k2.take MAX_KEY) (hne : k1 ≠ k2) :
    dictionary_get (example_two_slots k1 v) (some k2) = some v ∧
    dictionary_put fuel (example_two_slots k1 v) (some k2) w =
      some (example_two_slots k1 w, v) ∧
    dictionary_remove (example_two_slots k1 v) (some k2) = some (example_two_slots k1 v, 0) := by
  have h1 : strncmp k2 k1 MAX_KEY = 0 := by
    unfold strncmp
    rw [if_pos htake.symm]
  have h2 : strncmp k1 k2 MAX_KEY = 0 := by
    unfold strncmp
    rw [if_pos htake]
  have h3 : strcmp k2 k1 ≠ 0 := by
    unfold strcmp
    rw [if_neg (fun e => hne e.symm)]
    decide
  have hget : dictionary_get (example_two_slots k1 v) (some k2) = some v := by
    simp [dictionary_get, example_two_slots, hash_index_two, h1]
  have hcore : dictionary_put_core (example_two_slots k1 v) k2 w =
      some (example_two_slots k1 w) := by
    simp [dictionary_put_core, example_two_slots, hash_index_two, h2]
  refine ⟨hget, ?_, ?_⟩
  · obtain ⟨rb, hrb⟩ := put_key_eq_body fuel
    show dictionary_put_key fuel _ k2 w = _
    rw [hrb]
    simp [dictionary_put_body, hget, hcore, resize_not_needed_two_slots]
  · simp [dictionary_remove, example_two_slots, hash_index_two, h3]

theorem two_slots_same_key (k1 : Key) (v : dict_value_t) :
    dictionary_get (example_two_slots k1 v) (some k1) = some v ∧
    dictionary_remove (example_two_slots k1 v) (some k1) =
      some (new_dictionary_size_load 2 (3 / 4), v) := by
  constructor
  · simp [dictionary_get, example_two_slots, hash_index_two, strncmp]
  · simp [dictionary_remove, example_two_slots, hash_index_two, strcmp, new_dictionary_size_load]

theorem example_long_keys_prefix :
    example_long_key1.take MAX_KEY = example_long_key2.take MAX_KEY ∧
      example_long_key1 ≠ example_long_key2 := by
  unfold example_long_key1 example_long_key2 MAX_KEY
  constructor
  · rw [List.take_left' (List.length_replicate _ _), List.take_left' (List.length_replicate _ _)]
  · intro e
    have := List.append_cancel_left e
    exact absurd this (by decide)

theorem get_scan_eq_assoc_of_short (k : Key) (hk : k.length < MAX_KEY)
    (l : List (Key × dict_value_t)) :
    collision_bucket_get_scan k l = assoc_value k l := by
  induction l with
  | nil => rfl
  | cons p rest ih =>
    simp only [collision_bucket_get_scan, assoc_value]
    by_cases e : p.1 = k
    · rw [if_pos ((strncmp_eq_zero_iff_left k p.1 MAX_KEY hk).mpr e.symm), if_pos e]
    · rw [if_neg (fun h => e ((strncmp_eq_zero_iff_left k p.1 MAX_KEY hk).mp h).symm),
        if_neg e, ih]

theorem replace_in_place (k : Key) (v : dict_value_t) (l : List (Key × dict_value_t))
    (hk : k.length < MAX_KEY) (h : k ∈ l.map Prod.fst) :
    ∃ l1 l2 v0, l = l1 ++ (k, v0) :: l2 ∧ k ∉ l1.map Prod.fst ∧
      collision_bucket_replace k v l = some (l1 ++ (k, v) :: l2) := by
  induction l with
  | nil => simp at h
  | cons p rest ih =>
    by_cases e : p.1 = k
    · refine ⟨[], rest, p.2, ?_, by simp, ?_⟩
      · rw [← e]
        rfl
      · simp only [collision_bucket_replace]
        rw [if_pos ((strncmp_eq_zero_iff_right p.1 k MAX_KEY hk).mpr e), e]
        rfl
    · have hr : k ∈ rest.map Prod.fst := by
        simp only [List.map_cons, List.mem_cons] at h
        rcases h with h | h
        · exact absurd h.symm e
        · exact h
      obtain ⟨l1, l2, v0, e1, e2, e3⟩ := ih hr
      refine ⟨p :: l1, l2, v0, by rw [e1]; rfl, ?_, ?_⟩
      · simp only [List.map_cons, List.mem_cons, not_or]
        exact ⟨fun h => e h.symm, e2⟩
      · simp only [collision_bucket_replace]
        rw [if_neg (fun h => e ((strncmp_eq_zero_iff_right p.1 k MAX_KEY hk).mp h)), e3]
        rfl

theorem assoc_value_middle (k : Key) (v : dict_value_t) (l1 l2 : List (Key × dict_value_t))
    (h : k ∉ l1.map Prod.fst) : assoc_value k (l1 ++ (k, v) :: l2) = v := by
  induction l1 with
  | nil => simp [assoc_value]
  | cons p rest ih =>
    simp only [List.map_cons, List.mem_cons, not_or] at h
    simp only [List.cons_append, assoc_value]
    rw [if_neg (fun e => h.1 e.symm)]
    exact ih h.2

theorem put_all_reachable (fuel : Nat) (ops : List (Key × dict_value_t)) (d : dictionary_t)
    (hr : Reachable d) (hkeys : ∀ p ∈ ops, p.1.length < MAX_KEY)
    (hlim : d.num_entries + (ops.length : Int) ≤ ENTRY_LIMIT) (d1 : dictionary_t)
    (h : put_all (fuel + 1) d ops = some d1) : Reachable d1 := by
  induction ops generalizing d with
  | nil =>
    simp only [put_all] at h
    rw [← Option.some.inj h]
    exact hr
  | cons q rest ih =>
    simp only [List.length_cons, Nat.cast_add, Nat.cast_one] at hlim
    have hq := hkeys q (List.mem_cons_self _ _)
    have hlen : (0 : Int) ≤ (rest.length : Int) := Int.natCast_nonneg _
    obtain ⟨c1, d2, -, c2, -, -, c5, -, -, -, c9, c10, -⟩ :=
      put_spec d hr.inv q.1 q.2 hq (by omega) fuel
    have hn2 : d2.num_entries ≤ d.num_entries + 1 := by
      by_cases hin : q.1 ∈ (contents d).map Prod.fst
      · rw [c5, (c9 hin).1]; omega
      · rw [c5, (c10 hin).1]
    simp only [put_all, dictionary_put, c2] at h
    exact ih d2 (Reachable.put fuel d q.1 q.2 d2 _ hr hq (by omega) c2)
      (fun p hp => hkeys p (List.mem_cons_of_mem _ hp)) (by omega) h

theorem example_low_load_reachable : Reachable example_low_load := by
  have h1 : put_all 1 (new_dictionary_size_load 5 (1 / 4)) [([97], 1), ([98], 2), ([99], 3)] =
      some { num_collisions := 0
             num_entries := 3
             maximum_chain := 0
             max_entries := 7
             keys := [some [99], none, none, none, some [97], some [98], none]
             values := [entry_t.value 3, entry_t.value 0, entry_t.value 0, entry_t.value 0,
               entry_t.value 1, entry_t.value 2, entry_t.value 0]
             load_factor := 1 / 4 } := by
    decide!
  have h2 := put_all_reachable 0 _ _ (Reachable.create 5 (1 / 4) (by decide) (by decide))
    (by decide) (by decide) _ h1
  exact Reachable.remove _ [99] example_low_load 3 h2 (by decide!)

theorem example_low_load_put :
    dictionary_put 1 example_low_load (some [97]) 9 = some (example_low_load_replaced, 1) := by
  decide!

theorem example_06_ab_reachable : Reachable example_06_ab :=
  put_all_reachable 0 [([97], 1), ([98], 2)] _
    (Reachable.create 5 example_load_06 (by decide) (by decide)) (by decide) (by decide) _
    (by decide! : put_all 1 (new_dictionary_size_load 5 example_load_06)
      [([97], 1), ([98], 2)] = some example_06_ab)

theorem example_06_put :
    dictionary_put 1 example_06_ab (some [99]) 3 = some (example_06_abc, 0) := by
  decide!

theorem example_eighth_a_reachable : Reachable example_eighth_a :=
  Reachable.put 0 (new_dictionary_size_load 11 (1 / 8)) [97] 1 example_eighth_a 0
    (Reachable.create 11 (1 / 8) (by decide) (by decide)) (by decide) (by decide) (by decide!)

theorem put_half_load (d : dictionary_t) (hinv : Inv d) (k : Key) (v : dict_value_t)
    (hk : k.length < MAX_KEY) (hlim : d.num_entries < ENTRY_LIMIT) (fuel : Nat)
    (hlf : 1 / 2 ≤ d.load_factor) :
    ∃ d1 d2, dictionary_put_core d k v = some d1 ∧
      dictionary_put (fuel + 1) d (some k) v = some (d2, assoc_value k (contents d)) ∧
      d2.load_factor = d.load_factor ∧
      resize_needed d2 = false ∧
      (resize_needed d1 = true → d.max_entries < d2.max_entries) ∧
      (resize_needed d1 = false → d2 = d1) ∧
      (k ∈ (contents d).map Prod.fst → resize_needed d = false →
        resize_needed d1 = false) := by
  obtain ⟨d1, d2, c1, c2, -, -, c5, c6, c7, c8, c9, c10, c11⟩ := put_spec d hinv k v hk hlim fuel
  have hcap := hinv.1.capacity_ge
  have hcount := hinv.2
  have hn : d1.num_entries ≤ d.num_entries + 1 := by
    by_cases hin : k ∈ (contents d).map Prod.fst
    · rw [(c9 hin).1]; omega
    · rw [(c10 hin).1]
  have hpos : 0 ≤ d1.num_entries := by
    by_cases hin : k ∈ (contents d).map Prod.fst
    · rw [(c9 hin).1]; omega
    · rw [(c10 hin).1]; omega
  unfold ENTRY_LIMIT at hlim
  have hsame : resize_needed d1 = false → d2 = d1 := by
    intro hres
    have hput := put_body_no_resize
      (dictionary_rebuild_table (fun d k v => (dictionary_put_key fuel d k v).map Prod.fst))
      d d1 hinv.1 k v c1 hres
    exact congrArg Prod.fst (Option.some.inj (c2.symm.trans hput))
  have hgt : resize_needed d1 = true → d.max_entries < d1.num_entries * 2 := by
    intro hres
    by_contra hle
    have := no_resize_of_half_load d1 (by rw [c7]; exact hlf) (by rw [c8]; omega) hpos
    rw [this] at hres
    cases hres
  refine ⟨d1, d2, c1, c2, c6, ?_, ?_, hsame, ?_⟩
  · by_cases hres : resize_needed d1 = true
    · have hb := (select_next_prime_bounds (d1.num_entries * 2) (by omega)).1
      apply no_resize_of_half_load d2 (by rw [c6]; exact hlf)
      · rw [c11, if_pos hres, int_of_long_eq _ (by omega) (by omega), c5]
        omega
      · rw [c5]
        exact hpos
    · have hres' : resize_needed d1 = false := by simpa using hres
      rw [hsame hres']
      exact hres'
  · intro hres
    have h1 := hgt hres
    rw [c11, if_pos hres, int_of_long_eq _ (by omega) (by omega)]
    have := (select_next_prime_bounds (d1.num_entries * 2) (by omega)).1
    omega
  · intro hin hb
    rw [resize_needed_congr d d1 (c9 hin).1 c7 c8]
    exact hb

theorem Reachable.no_resize {d : dictionary_t} (hr : Reachable d)
    (hlf : 1 / 2 ≤ d.load_factor) : resize_needed d = false := by
  have hinv := hr.inv
  induction hr with
  | create initial_size load_factor h2 h63 =>
    exact no_resize_of_half_load _ hlf (by show 2 * (0 : Int) ≤ initial_size; omega)
      (le_refl _)
  | put fuel dict key value dict1 previous hd hk hlim hput ih =>
    have hl : dict1.load_factor = dict.load_factor → 1 / 2 ≤ dict.load_factor := by
      intro e
      rw [← e]
      exact hlf
    by_cases hl2 : 1 / 2 ≤ dict.load_factor
    · obtain ⟨d1, d2, -, c2, -, c4, -⟩ := put_half_load dict hd.inv key value hk hlim fuel hl2
      have e : dict1 = d2 := congrArg Prod.fst (Option.some.inj (hput.symm.trans c2))
      rw [e]
      exact c4
    · obtain ⟨d1, d2, -, c2, -, -, -, c6, -⟩ := put_spec dict hd.inv key value hk hlim fuel
      have e : dict1 = d2 := congrArg Prod.fst (Option.some.inj (hput.symm.trans c2))
      exact absurd (hl (by rw [e, c6])) hl2
  | remove dict key dict1 removed hd hrem ih =>
    obtain ⟨d1, c1, -, c3, c4, -, c6, c7, -⟩ := remove_spec dict hd.inv.1 key
    have e : dict1 = d1 := congrArg Prod.fst (Option.some.inj (hrem.symm.trans c1))
    subst e
    have ih1 := ih (by rw [← c4]; exact hlf) hd.inv
    have hcount := hinv.2
    by_cases hin : key ∈ (contents dict).map Prod.fst
    · rcases (c7 hin).2 with b | b
      · unfold resize_needed at ih1 ⊢
        rw [decide_eq_false_iff_not] at ih1 ⊢
        rw [c3, c4, b]
        have h0 : (0 : ℚ) ≤ ((dict.num_entries - 1 : Int) : ℚ) := by
          exact_mod_cast (by omega : 0 ≤ dict.num_entries - 1)
        have h1 : ((dict.num_entries - 1 : Int) : ℚ) ≤ (dict.num_entries : ℚ) := by
          exact_mod_cast (by omega : dict.num_entries - 1 ≤ dict.num_entries)
        exact not_lt.mpr (le_trans (round_double_mono h0 h1) (not_lt.mp ih1))
      · rw [resize_needed_congr dict dict1 b c4 c3]
        exact ih1
    · rw [c6 hin]
      exact ih1

theorem slot_keys_set_values (d d1 : dictionary_t) (i : Nat) (key : Option Key)
    (entry entry1 : entry_t) (hkey : d.keys[i]? = some key) (hval : d.values[i]? = some entry)
    (hk1 : d1.keys = d.keys) (hv1 : d1.values = d.values.set i entry1)
    (he : (slot_pairs key entry1).map Prod.fst = (slot_pairs key entry).map Prod.fst) :
    ∀ j, slot_keys d1 j = slot_keys d j := by
  intro j
  unfold slot_keys
  rw [hk1, hv1]
  by_cases e : i = j
  · subst e
    obtain ⟨hlt, -⟩ := List.getElem?_eq_some.mp hval
    rw [List.getElem?_set, if_pos rfl, if_pos hlt, hkey, hval]
    exact he
  · rw [List.getElem?_set_ne e]

theorem put_core_replace_placement (d : dictionary_t) (hw : WellFormed d) (k : Key)
    (v : dict_value_t) (hk : k.length < MAX_KEY) (hin : k ∈ (contents d).map Prod.fst)
    (d1 : dictionary_t) (h : dictionary_put_core d k v = some d1) :
    d1.keys = d.keys ∧ ∀ j, slot_keys d1 j = slot_keys d j := by
  obtain ⟨i, key, entry, hi, -, hkey, hval, hso⟩ := hw.slot_of_key k
  have hmem := ((hw.assoc_contents k i key entry hi hkey hval).2).mp hin
  unfold slot_ok at hso
  cases key with
  | none =>
    cases entry with
    | value v0 => simp [slot_pairs] at hmem
    | collision_buckets b =>
      have hinb : k ∈ (bucket_pairs b).map Prod.fst := hmem
      simp only [dictionary_put_core, hi, hkey, hval] at h
      obtain ⟨r1, -, r3, -⟩ := addpair_present b k v hk hso.1.2.2 hinb
      generalize collision_bucket_addpair b (some k) v = r at h r1 r3
      rw [r1, if_neg (by decide)] at h
      have e := Option.some.inj h
      subst e
      exact ⟨rfl, slot_keys_set_values d _ i none (entry_t.collision_buckets b)
        (entry_t.collision_buckets r.1) hkey hval rfl rfl r3⟩
  | some hkey0 =>
    cases entry with
    | value hv0 =>
      have e0 : hkey0 = k := by
        simp only [slot_pairs, List.map_cons, List.map_nil, List.mem_singleton] at hmem
        exact hmem.symm
      simp only [dictionary_put_core, hi, hkey, hval] at h
      rw [if_pos ((strncmp_eq_zero_iff_right hkey0 k MAX_KEY hk).mpr e0)] at h
      have e := Option.some.inj h
      subst e
      exact ⟨rfl, slot_keys_set_values d _ i (some hkey0) (entry_t.value hv0)
        (entry_t.value v) hkey hval rfl rfl rfl⟩
    | collision_buckets b => exact absurd hso.1 (by simp)

theorem example_iae_reachable : Reachable example_iae :=
  put_all_reachable 0 [([105], 9), ([97], 1), ([101], 2)] _
    (Reachable.create 5 (3 / 4) (by decide) (by decide)) (by decide) (by decide) _
    (by decide! : put_all 1 (new_dictionary_size_load 5 (3 / 4))
      [([105], 9), ([97], 1), ([101], 2)] = some example_iae)

theorem remove_scan_eq (k : Key) (l : List (Key × dict_value_t)) (j : Nat) (v : dict_value_t)
    (hn : (l.map Prod.fst).Nodup) (hj : l[j]? = some (k, v)) : remove_scan k l = some j := by
  induction l generalizing j with
  | nil => simp at hj
  | cons p rest ih =>
    simp only [List.map_cons, List.nodup_cons] at hn
    cases j with
    | zero =>
      simp only [List.getElem?_cons_zero, Option.some.injEq] at hj
      subst hj
      simp [remove_scan, strcmp]
    | succ j =>
      simp only [List.getElem?_cons_succ] at hj
      have hmem : k ∈ rest.map Prod.fst :=
        List.mem_map.mpr ⟨(k, v), List.mem_iff_getElem?.mpr ⟨j, hj⟩, rfl⟩
      have hne : ¬ k = p.1 := by
        intro e
        rw [e] at hmem
        exact hn.1 hmem
      simp only [remove_scan, strcmp, if_neg hne]
      rw [if_neg (by decide), ih j hn.2 hj]
      rfl

theorem remove_bucket_large (d : dictionary_t) (k : Key) (i : Nat) (b : collision_bucket_t)
    (j : Nat) (removed last : Key × dict_value_t)
    (hi : hash_index d.max_entries k = some i) (hb : bucket_attached d i b)
    (hscan : remove_scan k (bucket_pairs b) = some j)
    (hsz : collision_bucket_size b - 1 ≠ 1)
    (hj : (bucket_pairs b)[j]? = some removed)
    (hlast : (bucket_pairs b)[collision_bucket_size b - 1]? = some last) :
    dictionary_remove d (some k) =
      some ({ d with
        num_collisions := d.num_collisions - 1
        values := d.values.set i (entry_t.collision_buckets
          { max_elements := b.max_elements
            keys_values :=
              some (((bucket_pairs b).set j last).take (collision_bucket_size b - 1)) }) },
        removed.2) := by
  simp only [dictionary_remove, hi, hb.1, hb.2, hscan, hj, hlast, if_neg hsz]

theorem remove_bucket_pair (d : dictionary_t) (k : Key) (i : Nat) (b : collision_bucket_t)
    (j : Nat) (removed last : Key × dict_value_t)
    (hi : hash_index d.max_entries k = some i) (hb : bucket_attached d i b)
    (hscan : remove_scan k (bucket_pairs b) = some j)
    (hsz : collision_bucket_size b - 1 = 1)
    (hj : (bucket_pairs b)[j]? = some removed)
    (hlast : (bucket_pairs b)[if j = 0 then 1 else 0]? = some last) :
    dictionary_remove d (some k) =
      some ({ d with
        num_collisions := d.num_collisions - 1
        keys := d.keys.set i (some last.1)
        values := d.values.set i (entry_t.value last.2) }, removed.2) := by
  simp only [dictionary_remove, hi, hb.1, hb.2, hscan, hj, hlast, if_pos hsz]

theorem example_i_reachable : Reachable example_i :=
  Reachable.put 0 example_empty [105] 9 example_i 0 example_empty_reachable
    (by decide) (by decide) (by decide!)

theorem put_no_rebuild_spec (d : dictionary_t) (hw : WellFormed d) (k : Key) (v : dict_value_t)
    (hk : k.length < MAX_KEY) (fuel : Nat) (hnr : put_rebuilds d k v = false) :
    ∃ d1, dictionary_put fuel d (some k) v = some (d1, assoc_value k (contents d)) ∧
      WellFormed d1 ∧ d1.max_entries = d.max_entries ∧
      (∀ p, p ∈ contents d1 ↔ p = (k, v) ∨ (p.1 ≠ k ∧ p ∈ contents d)) := by
  obtain ⟨d1, c1, c2, c3, -, c5, -⟩ := put_core_spec d hw k v hk
  have hres : resize_needed d1 = false := by
    unfold put_rebuilds at hnr
    rw [c1] at hnr
    exact hnr
  obtain ⟨rb, hrb⟩ := put_key_eq_body fuel
  refine ⟨d1, ?_, c2, c3, c5⟩
  show dictionary_put_key fuel d k v = _
  rw [hrb]
  exact put_body_no_resize rb d d1 hw k v c1 hres

theorem mem_slot_of_mem_contents {d : dictionary_t} (hw : WellFormed d) (i : Nat)
    (key : Option Key) (entry : entry_t) (hkey : d.keys[i]? = some key)
    (hval : d.values[i]? = some entry) (p : Key × dict_value_t) (hp : p ∈ contents d)
    (hi : hash_index d.max_entries p.1 = some i) : p ∈ slot_pairs key entry := by
  obtain ⟨-, j, kj, ej, hj, hkj, hej, hmem⟩ := hw.mem_contents p hp
  rw [hi] at hj
  cases hj
  rw [hkey] at hkj
  rw [hval] at hej
  cases hkj
  cases hej
  exact hmem

theorem slot_direct_of_single {d : dictionary_t} (hw : WellFormed d) (i : Nat)
    (q : Key × dict_value_t) (hq : q ∈ contents d)
    (hi : hash_index d.max_entries q.1 = some i)
    (hall : ∀ p ∈ contents d, hash_index d.max_entries p.1 = some i → p = q) :
    d.keys[i]? = some (some q.1) ∧ d.values[i]? = some (entry_t.value q.2) := by
  have hlt := hash_index_lt d.max_entries q.1 i hw.capacity_ge hw.capacity_lt hi
  obtain ⟨key, entry, hkey, hval, hso⟩ := hw.slot_at i hlt
  have hmem := mem_slot_of_mem_contents hw i key entry hkey hval q hq hi
  cases key with
  | none =>
    cases entry with
    | value v0 => simp [slot_pairs] at hmem
    | collision_buckets b =>
      obtain ⟨-, p1, p2, h1, h2, hne, e1, e2⟩ := bucket_two_pairs hw i b ⟨hkey, hval⟩
      have a1 := hall p1 h1 e1
      have a2 := hall p2 h2 e2
      rw [a1, a2] at hne
      exact absurd rfl hne
  | some k0 =>
    cases entry with
    | value v0 =>
      simp only [slot_pairs, List.mem_singleton] at hmem
      rw [hmem]
      exact ⟨hkey, hval⟩
    | collision_buckets b =>
      unfold slot_ok at hso
      exact absurd hso.1 (by simp)

theorem slot_bucket_of_two {d : dictionary_t} (hw : WellFormed d) (i : Nat)
    (p q : Key × dict_value_t) (hp : p ∈ contents d) (hq : q ∈ contents d) (hne : p.1 ≠ q.1)
    (hip : hash_index d.max_entries p.1 = some i)
    (hiq : hash_index d.max_entries q.1 = some i)
    (hall : ∀ x ∈ contents d, hash_index d.max_entries x.1 = some i → x = p ∨ x = q) :
    ∃ bucket, bucket_attached d i bucket ∧ collision_bucket_size bucket = 2 ∧
      ∀ x, x ∈ bucket_pairs bucket ↔ x = p ∨ x = q := by
  have hlt := hash_index_lt d.max_entries p.1 i hw.capacity_ge hw.capacity_lt hip
  obtain ⟨key, entry, hkey, hval, hso⟩ := hw.slot_at i hlt
  have hmp := mem_slot_of_mem_contents hw i key entry hkey hval p hp hip
  have hmq := mem_slot_of_mem_contents hw i key entry hkey hval q hq hiq
  cases key with
  | none =>
    cases entry with
    | value v0 => simp [slot_pairs] at hmp
    | collision_buckets b =>
      unfold slot_ok at hso
      obtain ⟨⟨-, hsize, hnd⟩, hpairs⟩ := hso
      have hsub : ∀ x, x ∈ bucket_pairs b → x = p ∨ x = q := by
        intro x hx
        exact hall x ((mem_contents_iff d x).mpr ⟨i, none, entry_t.collision_buckets b, hkey,
          hval, hx⟩) (hpairs x hx).2
      refine ⟨b, ⟨hkey, hval⟩, ?_, ?_⟩
      · have hle : (bucket_pairs b).length ≤ [p, q].length := by
          apply List.Subperm.length_le
          apply List.Nodup.subperm (List.Nodup.of_map Prod.fst hnd)
          intro x hx
          rcases hsub x hx with e | e <;> simp [e]
        unfold collision_bucket_size at hsize ⊢
        simp only [List.length_cons, List.length_nil] at hle
        omega
      · intro x
        constructor
        · exact hsub x
        · rintro (e | e)
          · rw [e]; exact hmp
          · rw [e]; exact hmq
  | some k0 =>
    cases entry with
    | value v0 =>
      simp only [slot_pairs, List.mem_singleton] at hmp hmq
      rw [hmp, hmq] at hne
      exact absurd rfl hne
    | collision_buckets b =>
      unfold slot_ok at hso
      exact absurd hso.1 (by simp)

theorem get_of_mem {d : dictionary_t} (hw : WellFormed d) (k : Key) (v : dict_value_t)
    (h : (k, v) ∈ contents d) : dictionary_get d (some k) = some v := by
  rw [get_spec d hw k, assoc_value_of_mem k v (contents d) hw.nodup_contents h]

/-! ## Claims -/

/-- C3 (defect): `example_ae` is `create(5, 0.75)` after `put("a", 1)` and
`put("e", 2)`; it holds "a" and "e" in one collision bucket (slot 2).
`dictionary_remove("a")` returns 1, the value stored for "a", yet
`num_entries` is 2 before and still 2 afterwards: the bucket branch of
`dictionary_remove` decrements `num_collisions` only. -/
theorem remove_from_bucket_keeps_num_entries :
    put_all 1 (new_dictionary_size_load 5 (3 / 4)) [([97], 1), ([101], 2)] = some example_ae ∧
    dictionary_enumerate example_ae = some [([101], 2), ([97], 1)] ∧
    example_ae.keys[2]? = some none ∧
    example_ae.num_entries = 2 ∧
    (dictionary_remove example_ae (some [97])).map (fun r => (r.2, r.1.num_entries)) =
      some (1, 2) := by
  decide!

/-- C4 (defect): after `dictionary_remove("a")` on `example_ae` one pair is
stored while `num_entries` is 2.  Two further puts ("b", then "c") reach
`num_entries = 4 > 0.75 * 5` and rebuild the table: the table rebuilt by
`copy_pair` counts 3 entries while the dictionary being rebuilt counts 4, and
after the put the dictionary enumerates 3 pairs with `num_entries = 4`. -/
theorem rebuild_entry_count_mismatch :
    put_all 1 (new_dictionary_size_load 5 (3 / 4)) [([97], 1), ([101], 2)] = some example_ae ∧
    (dictionary_remove example_ae (some [97])).bind
      (fun r => (dictionary_enumerate r.1).map (fun l => (l.length, r.1.num_entries))) =
      some (1, 2) ∧
    ((((dictionary_remove example_ae (some [97])).bind
      (fun r => dictionary_put 1 r.1 (some [98]) 3)).bind
      (fun r => dictionary_put_core r.1 [99] 4)).bind
      (fun d1 => (dictionary_enumerate d1).bind
        (fun pairs => (copy_pairs (fun d k v => (dictionary_put_key 0 d k v).map Prod.fst)
          (new_dictionary_size (select_next_prime (int_of_long (d1.num_entries * 2)))) pairs).map
          (fun new_dict => (resize_needed d1, d1.num_entries, new_dict.num_entries))))) =
      some (true, 4, 3) ∧
    ((((dictionary_remove example_ae (some [97])).bind
      (fun r => dictionary_put 1 r.1 (some [98]) 3)).bind
      (fun r => dictionary_put 1 r.1 (some [99]) 4)).bind
      (fun r => (dictionary_enumerate r.1).map (fun l => (l.length, r.1.num_entries)))) =
      some (3, 4) := by
  decide!

/-- C5: on a reachable dictionary, after `dictionary_remove` of a stored key
`dictionary_get` of that key returns `NULL`, a second `dictionary_remove` of
it returns `NULL` (and changes nothing), and `dictionary_get` of every other
key returns what it returned before. -/
theorem remove_then_absent (d : dictionary_t) (hr : Reachable d) (k : Key)
    (l : List (Key × dict_value_t)) (hl : dictionary_enumerate d = some l)
    (hin : k ∈ l.map Prod.fst) :
    ∃ d1 removed, dictionary_remove d (some k) = some (d1, removed) ∧
      dictionary_get d1 (some k) = some 0 ∧
      dictionary_remove d1 (some k) = some (d1, 0) ∧
      ∀ k1, k1 ≠ k → dictionary_get d1 (some k1) = dictionary_get d (some k1) := by
  rw [hr.enumerate] at hl
  cases hl
  obtain ⟨d1, c1, c2, -, -, c5, -, -⟩ := remove_spec d hr.inv.1 k
  have hnot : k ∉ (contents d1).map Prod.fst := by
    intro h
    obtain ⟨p, hp, e⟩ := List.mem_map.mp h
    exact ((c5 p).mp hp).1 e
  refine ⟨d1, _, c1, ?_, ?_, ?_⟩
  · rw [get_spec d1 c2 k, assoc_value_of_not_mem k _ hnot]
  · obtain ⟨d2, e1, -, -, -, -, e6, -⟩ := remove_spec d1 c2 k
    rw [e1, e6 hnot, assoc_value_of_not_mem k _ hnot]
  · intro k1 hne
    rw [get_spec d1 c2 k1, get_spec d hr.inv.1 k1]
    congr 1
    apply assoc_value_congr k1 _ _ hr.inv.1.nodup_contents
    intro v
    rw [c5 (k1, v)]
    exact ⟨fun h => h.2, fun h => ⟨hne, h⟩⟩

/-- Witness of C5: removing "a" from the bucket shared with "e", which
dissolves the bucket. -/
theorem remove_then_absent_witness :
    ∃ d1 removed, dictionary_remove example_ae (some [97]) = some (d1, removed) ∧
      dictionary_get d1 (some [97]) = some 0 ∧
      dictionary_remove d1 (some [97]) = some (d1, 0) ∧
      ∀ k1, k1 ≠ [97] → dictionary_get d1 (some k1) = dictionary_get example_ae (some k1) :=
  remove_then_absent example_ae example_ae_reachable [97] [([101], 2), ([97], 1)]
    (by decide) (by decide)

/-- C6: on a reachable dictionary, `dictionary_remove` of a key that is not
stored, or of a null key, returns `NULL` and returns the dictionary itself:
no field, slot or bucket changes. -/
theorem remove_absent_unchanged (d : dictionary_t) (hr : Reachable d) (k : Key)
    (l : List (Key × dict_value_t)) (hl : dictionary_enumerate d = some l)
    (hnot : k ∉ l.map Prod.fst) :
    dictionary_remove d (some k) = some (d, 0) ∧ dictionary_remove d none = some (d, 0) := by
  rw [hr.enumerate] at hl
  cases hl
  obtain ⟨d1, c1, -, -, -, -, c6, -⟩ := remove_spec d hr.inv.1 k
  rw [c1, c6 hnot, assoc_value_of_not_mem k _ hnot]
  exact ⟨rfl, rfl⟩

/-- Witness of C6: removing "i", which hashes to the slot of the bucket of
"a" and "e" and is not stored. -/
theorem remove_absent_unchanged_witness :
    dictionary_remove example_ae (some [105]) = some (example_ae, 0) ∧
      dictionary_remove example_ae none = some (example_ae, 0) :=
  remove_absent_unchanged example_ae example_ae_reachable [105] [([101], 2), ([97], 1)]
    (by decide) (by decide)

/-- C10 (counterexample): `example_eighth_a` is reachable with load factor
1/8 and capacity 11; `dictionary_put("b", 2)` finds `2 > 0.125 * 11`, rebuilds
the table, and the capacity after the rebuild is `select_next_prime(4) = 5`,
the smallest tabulated prime that is at least 4: smaller than before. -/
theorem resize_shrinks_capacity :
    Reachable example_eighth_a ∧
    (0 : ℚ) < example_eighth_a.load_factor ∧ example_eighth_a.load_factor ≤ 1 ∧
    put_rebuilds example_eighth_a [98] 2 = true ∧
    dictionary_put 1 example_eighth_a (some [98]) 2 = some (example_eighth_ab, 0) ∧
    example_eighth_a.max_entries = 11 ∧ example_eighth_ab.max_entries = 5 ∧
    select_next_prime 4 = 5 ∧ smallest_tabulated_prime 4 = some 5 ∧
    ¬ example_eighth_a.max_entries < example_eighth_ab.max_entries :=
  ⟨example_eighth_a_reachable, by decide!, by decide!, by decide!, by decide!, by decide,
    by decide, by decide, by decide, by decide⟩

/-- C10 (amended): on a reachable dictionary whose load factor is at least
1/2, a `dictionary_put` (key shorter than `MAX_KEY`) that rebuilds the table
leaves a capacity strictly greater than the capacity before; a put that does
not rebuild leaves the capacity unchanged. -/
theorem resize_grows_capacity (d : dictionary_t) (hr : Reachable d) (k : Key) (v : dict_value_t)
    (fuel : Nat) (hk : k.length < MAX_KEY) (hlim : d.num_entries < ENTRY_LIMIT)
    (hlf : 1 / 2 ≤ d.load_factor) :
    ∃ d1 d2 previous, dictionary_put_core d k v = some d1 ∧
      dictionary_put (fuel + 1) d (some k) v = some (d2, previous) ∧
      (resize_needed d1 = true → d.max_entries < d2.max_entries) ∧
      (resize_needed d1 = false → d2.max_entries = d.max_entries) := by
  obtain ⟨d1, d2, c1, c2, -, -, c5, c6, -⟩ := put_half_load d hr.inv k v hk hlim fuel hlf
  obtain ⟨d1', s1, -, s3, -⟩ := put_core_spec d hr.inv.1 k v hk
  have e : d1' = d1 := Option.some.inj (s1.symm.trans c1)
  subst e
  refine ⟨d1', d2, _, c1, c2, c5, ?_⟩
  intro hres
  rw [c6 hres, s3]

/-- Witness of C10 (amended): the second key put into a dictionary of
capacity 2 and load factor 1/2, which rebuilds the table (2 > 0.5 * 2). -/
theorem resize_grows_capacity_witness :
    ∃ d1 d2 previous, dictionary_put_core example_small [98] 2 = some d1 ∧
      dictionary_put 1 example_small (some [98]) 2 = some (d2, previous) ∧
      (resize_needed d1 = true → example_small.max_entries < d2.max_entries) ∧
      (resize_needed d1 = false → d2.max_entries = example_small.max_entries) :=
  resize_grows_capacity example_small example_small_reachable [98] 2 0 (by decide) (by decide)
    (by decide!)

/-- C11 (defect): `select_next_prime(2)` and `select_next_prime(3)` return 5,
while the smallest entry of the table that is at least 2 (or 3) is
`primes[0] = 3`: the binary search starts with `low = 0` and never returns
`primes[low]`.  The target 2 is the one `dictionary_put` passes when
`num_entries` becomes 1 and a rebuild is due. -/
theorem select_next_prime_skips_three :
    select_next_prime 2 = 5 ∧ smallest_tabulated_prime 2 = some 3 ∧
    select_next_prime 3 = 5 ∧ smallest_tabulated_prime 3 = some 3 ∧
    (dictionary_put_core (new_dictionary_size_load 2 (1 / 4)) [97] 1).map
      (fun d1 => (resize_needed d1, int_of_long (d1.num_entries * 2))) = some (true, 2) := by
  decide!

/-- C12: for every target such that `2 * target + 1` is a 32-bit signed
integer, `select_next_prime(target)` is at least `target`, on the table path
and on the fallback path. -/
theorem select_next_prime_ge (x : Int) (_hlow : -(2 ^ 31) ≤ 2 * x + 1)
    (hhigh : 2 * x + 1 < 2 ^ 31) : x ≤ select_next_prime x :=
  (select_next_prime_bounds x (by omega)).1

/-- Witness of C12: the first target of the fallback path. -/
theorem select_next_prime_ge_witness :
    (-(2 ^ 31) ≤ 2 * (160481184 : Int) + 1 ∧ 2 * (160481184 : Int) + 1 < 2 ^ 31) ∧
      (160481184 : Int) ≤ select_next_prime 160481184 :=
  ⟨⟨by decide, by decide⟩, select_next_prime_ge 160481184 (by decide) (by decide)⟩

/-- C13: `select_next_prime` is monotonic: for targets `a ≤ b` with `2 * b + 1`
a 32-bit signed integer, `select_next_prime(a) ≤ select_next_prime(b)`, within
the table, within the fallback and across the two. -/
theorem select_next_prime_monotone (a b : Int) (hab : a ≤ b)
    (_hlow : -(2 ^ 31) ≤ 2 * b + 1) (hhigh : 2 * b + 1 < 2 ^ 31) :
    select_next_prime a ≤ select_next_prime b := by
  by_cases ha : a ≤ 160481183
  · by_cases hb : b ≤ 160481183
    · by_cases ha3 : a ≤ 3
      · rw [select_next_prime_small a ha3]
        exact (select_next_prime_table b hb).2.1
      · have h147 : primes.getD 147 0 = 160481183 := by decide
        have h0 : primes.getD 0 0 = 3 := by decide
        obtain ⟨a1, a2, a3, -⟩ := search_spec_tight a 147 0 147 (by omega) (by omega)
          (by omega) (by rw [h0]; omega) (by rw [h147]; exact ha)
        obtain ⟨-, b2, -, b4⟩ := search_spec_tight b 147 0 147 (by omega) (by omega)
          (by omega) (by rw [h0]; omega) (by rw [h147]; exact hb)
        unfold select_next_prime
        rw [h147, if_neg (by omega), if_neg (by omega)]
        apply primes_mono _ _ _ (by omega)
        by_contra hlt
        have := primes_mono (select_next_prime_search b 147 0 147)
          (select_next_prime_search a 147 0 147 - 1) (by omega) (by omega)
        omega
    · have h1 := (select_next_prime_table a ha).2.2
      rw [select_next_prime_fallback b (by omega) (by omega)]
      omega
  · rw [select_next_prime_fallback a (by omega) (by omega),
      select_next_prime_fallback b (by omega) (by omega)]
    omega

/-- Witness of C13: the largest target of the table path and the first target
of the fallback path. -/
theorem select_next_prime_monotone_witness :
    ((160481183 : Int) ≤ 160481184 ∧ -(2 ^ 31) ≤ 2 * (160481184 : Int) + 1 ∧
      2 * (160481184 : Int) + 1 < 2 ^ 31) ∧
      select_next_prime 160481183 ≤ select_next_prime 160481184 :=
  ⟨⟨by decide, by decide, by decide⟩,
    select_next_prime_monotone 160481183 160481184 (by decide) (by decide) (by decide)⟩

/-- C14: for every target up to 160481183, `select_next_prime(target)` is a
prime number that is at least `target`; indeed each of the 148 tabulated
capacities is prime. -/
theorem select_next_prime_is_prime (x : Int) (hx : x ≤ 160481183) :
    Nat.Prime (select_next_prime x).toNat ∧ 0 ≤ select_next_prime x ∧
      x ≤ select_next_prime x ∧ ∀ p ∈ primes, Nat.Prime p.toNat := by
  have h := select_next_prime_table x hx
  exact ⟨primes_all_prime _ (select_next_prime_mem x hx), by omega, h.1, primes_all_prime⟩

/-- Witness of C14: the target 8 that `dictionary_put` passes at the fourth
entry. -/
theorem select_next_prime_is_prime_witness :
    (8 : Int) ≤ 160481183 ∧ (Nat.Prime (select_next_prime 8).toNat ∧
      0 ≤ select_next_prime 8 ∧ 8 ≤ select_next_prime 8 ∧ ∀ p ∈ primes, Nat.Prime p.toNat) :=
  ⟨by decide, select_next_prime_is_prime 8 (by decide)⟩

/-- C15: for every zero-free byte string `b1 .. bn`, `hash` returns `h n` of
the recurrence `h 0 = 5381`, `h i = (((h (i-1) << 5) + h (i-1) + b i) mod 2^64)
AND (2^63 - 1)`; the hash of the empty string is 5381, the result is below
`2^63`, and equal strings have equal hashes. -/
theorem hash_is_djb2_recurrence (bytes : List Nat) (hz : ∀ b ∈ bytes, b ≠ 0) :
    hash bytes = djb2_recurrence bytes bytes.length ∧ hash [] = 5381 ∧
      hash bytes < 2 ^ 63 ∧ ∀ other : List Nat, other = bytes → hash other = hash bytes := by
  refine ⟨?_, rfl, hash_loop_lt 5381 bytes (by decide), fun other h => by rw [h]⟩
  rw [djb2_recurrence_eq_foldl bytes bytes.length (le_refl _), List.take_length]
  exact hash_loop_eq_foldl 5381 bytes hz

/-- Witness of C15: the string "apple". -/
theorem hash_is_djb2_recurrence_witness :
    (∀ b ∈ [97, 112, 112, 108, 101], b ≠ 0) ∧
      (hash [97, 112, 112, 108, 101] = djb2_recurrence [97, 112, 112, 108, 101]
          [97, 112, 112, 108, 101].length ∧ hash [] = 5381 ∧
        hash [97, 112, 112, 108, 101] < 2 ^ 63 ∧
        ∀ other : List Nat, other = [97, 112, 112, 108, 101] →
          hash other = hash [97, 112, 112, 108, 101]) :=
  ⟨by decide, hash_is_djb2_recurrence [97, 112, 112, 108, 101] (by decide)⟩

/-- C16: for every dictionary, `dictionary_put`, `dictionary_get` and
`dictionary_remove` called with a null key return `NULL`, and put and remove
return the dictionary itself: nothing is added, counted or rebuilt. -/
theorem null_key_is_noop (dict : dictionary_t) (fuel : Nat) (value : dict_value_t) :
    dictionary_put fuel dict none value = some (dict, 0) ∧
      dictionary_get dict none = some 0 ∧ dictionary_remove dict none = some (dict, 0) :=
  ⟨rfl, rfl, rfl⟩

/-- C18 (counterexample): `example_aeb` is reachable and its slot 2 is Bucketed
(the bucket of "e" and "a"); the single operation `dictionary_put("d", 4)`
rebuilds the table with 11 slots, and slot 2 of the dictionary is Empty
afterwards. -/
theorem resize_empties_bucketed_slot :
    Reachable example_aeb ∧ example_aeb.num_entries < ENTRY_LIMIT ∧
    slot_is_bucketed example_aeb 2 ∧
    dictionary_put 1 example_aeb (some [100]) 4 = some (example_aebd, 0) ∧
    slot_is_empty example_aebd 2 :=
  ⟨example_aeb_reachable, by decide,
    ⟨{ max_elements := 16, keys_values := some [([101], 2), ([97], 1)] }, by decide, by decide⟩,
    example_aebd_put, by decide, by decide⟩

/-- C18 (amended): in every reachable dictionary each slot is exactly one of
Empty, Direct and Bucketed; no bucket is attached under a non-null key cell;
every attached bucket holds at least 2 pairs; and neither `dictionary_remove`
nor a `dictionary_put` that does not rebuild the table takes a Bucketed slot
to Empty. -/
theorem slot_representation (d : dictionary_t) (hr : Reachable d) (i : Nat)
    (hi : i < d.max_entries.toNat) :
    ((slot_is_empty d i ∧ ¬ slot_is_direct d i ∧ ¬ slot_is_bucketed d i) ∨
      (¬ slot_is_empty d i ∧ slot_is_direct d i ∧ ¬ slot_is_bucketed d i) ∨
      (¬ slot_is_empty d i ∧ ¬ slot_is_direct d i ∧ slot_is_bucketed d i)) ∧
    (∀ k b, d.keys[i]? = some (some k) → d.values[i]? ≠ some (entry_t.collision_buckets b)) ∧
    (∀ b, bucket_attached d i b → 2 ≤ collision_bucket_size b) ∧
    (∀ k d1 removed, dictionary_remove d (some k) = some (d1, removed) →
      slot_is_bucketed d i → ¬ slot_is_empty d1 i) ∧
    (∀ fuel k v d1 previous, k.length < MAX_KEY → put_rebuilds d k v = false →
      dictionary_put fuel d (some k) v = some (d1, previous) →
      slot_is_bucketed d i → ¬ slot_is_empty d1 i) := by
  have hw := hr.inv.1
  refine ⟨(slot_shape hw i hi).1, (slot_shape hw i hi).2,
    fun b hb => (bucket_two_pairs hw i b hb).1, ?_, ?_⟩
  · intro k d1 removed h hb
    exact remove_keeps_bucketed_occupied d hw i k d1 removed h hb
  · intro fuel k v d1 previous hk hnr h hb
    exact put_core_keeps_bucketed_occupied d hw i k v hk d1
      (put_no_rebuild_eq d hw k v hk fuel d1 previous hnr h) hb

/-- C18 (witness): slot 2 of `example_ae`, the bucket of "e" and "a". -/
theorem slot_representation_witness :
    2 < example_ae.max_entries.toNat ∧
    ((slot_is_empty example_ae 2 ∧ ¬ slot_is_direct example_ae 2 ∧
        ¬ slot_is_bucketed example_ae 2) ∨
      (¬ slot_is_empty example_ae 2 ∧ slot_is_direct example_ae 2 ∧
        ¬ slot_is_bucketed example_ae 2) ∨
      (¬ slot_is_empty example_ae 2 ∧ ¬ slot_is_direct example_ae 2 ∧
        slot_is_bucketed example_ae 2)) ∧
    (∀ k b, example_ae.keys[2]? = some (some k) →
      example_ae.values[2]? ≠ some (entry_t.collision_buckets b)) ∧
    (∀ b, bucket_attached example_ae 2 b → 2 ≤ collision_bucket_size b) ∧
    (∀ k d1 removed, dictionary_remove example_ae (some k) = some (d1, removed) →
      slot_is_bucketed example_ae 2 → ¬ slot_is_empty d1 2) ∧
    (∀ fuel k v d1 previous, k.length < MAX_KEY → put_rebuilds example_ae k v = false →
      dictionary_put fuel example_ae (some k) v = some (d1, previous) →
      slot_is_bucketed example_ae 2 → ¬ slot_is_empty d1 2) :=
  ⟨by decide, slot_representation example_ae example_ae_reachable 2 (by decide)⟩

/-- C19: in every reachable dictionary `num_collisions` equals the sum over
all attached buckets of (bucket size - 1). -/
theorem num_collisions_counts_bucket_excess (d : dictionary_t) (hr : Reachable d) :
    d.num_collisions = collision_sum d :=
  hr.stats.collisions

/-- C19 (witness): `example_aeb`, whose only bucket holds two pairs. -/
theorem num_collisions_counts_bucket_excess_witness :
    example_aeb.num_collisions = collision_sum example_aeb :=
  num_collisions_counts_bucket_excess example_aeb example_aeb_reachable

/-- C20 (counterexample): `example_aeb` is reachable, has a bucket of 2 pairs
and `maximum_chain` 2; `dictionary_put("d", 4)` rebuilds the table and leaves
`maximum_chain` 0, below its previous value and below the size of the bucket
that existed. -/
theorem maximum_chain_drops_on_resize :
    Reachable example_aeb ∧ example_aeb.num_entries < ENTRY_LIMIT ∧
    example_aeb.maximum_chain = 2 ∧
    (∃ b, bucket_attached example_aeb 2 b ∧ collision_bucket_size b = 2) ∧
    (∃ d1, dictionary_put 1 example_aeb (some [100]) 4 = some (d1, 0) ∧
      d1.maximum_chain = 0) :=
  ⟨example_aeb_reachable, by decide, by decide,
    ⟨{ max_elements := 16, keys_values := some [([101], 2), ([97], 1)] },
      ⟨by decide, by decide⟩, by decide⟩,
    ⟨example_aebd, example_aebd_put, by decide⟩⟩

/-- C20 (amended): in every reachable dictionary `maximum_chain` is at least
the size of every attached bucket; `dictionary_remove` leaves it unchanged and
a `dictionary_put` that does not rebuild the table never decreases it. -/
theorem maximum_chain_bounds (d : dictionary_t) (hr : Reachable d) :
    (∀ i b, bucket_attached d i b → (collision_bucket_size b : Int) ≤ d.maximum_chain) ∧
    (∀ k d1 removed, dictionary_remove d (some k) = some (d1, removed) →
      d1.maximum_chain = d.maximum_chain) ∧
    (∀ fuel k v d1 previous, k.length < MAX_KEY → put_rebuilds d k v = false →
      dictionary_put fuel d (some k) v = some (d1, previous) →
      d.maximum_chain ≤ d1.maximum_chain) := by
  have hw := hr.inv.1
  have hs := hr.stats
  refine ⟨hs.chain, ?_, ?_⟩
  · intro k d1 removed h
    exact (remove_stats d hw hs k d1 removed h).2
  · intro fuel k v d1 previous hk hnr h
    exact (put_core_stats d hw hs k v hk d1
      (put_no_rebuild_eq d hw k v hk fuel d1 previous hnr h)).2

/-- C20 (witness): the dictionary `example_ae`, whose bucket of 2 pairs is
matched by `maximum_chain` 2. -/
theorem maximum_chain_bounds_witness :
    (∀ i b, bucket_attached example_ae i b →
      (collision_bucket_size b : Int) ≤ example_ae.maximum_chain) ∧
    (∀ k d1 removed, dictionary_remove example_ae (some k) = some (d1, removed) →
      d1.maximum_chain = example_ae.maximum_chain) ∧
    (∀ fuel k v d1 previous, k.length < MAX_KEY → put_rebuilds example_ae k v = false →
      dictionary_put fuel example_ae (some k) v = some (d1, previous) →
      example_ae.maximum_chain ≤ d1.maximum_chain) :=
  maximum_chain_bounds example_ae example_ae_reachable

/-- C22: in every reachable dictionary every stored key, in a direct entry or
in the bucket of slot `i`, satisfies `i = hash(key) mod (max_entries - 1)`, the
stored keys are pairwise distinct, and the slot of index `max_entries - 1` is
Empty. -/
theorem placement_invariant (d : dictionary_t) (hr : Reachable d) :
    (∀ (i : Nat) key entry, d.keys[i]? = some key → d.values[i]? = some entry →
      ∀ p ∈ slot_pairs key entry, (i : Int) = (hash p.1 : Int) % (d.max_entries - 1)) ∧
    ((contents d).map Prod.fst).Nodup ∧
    slot_is_empty d (d.max_entries - 1).toNat := by
  have hw := hr.inv.1
  refine ⟨?_, hw.nodup_contents, last_slot_empty hw⟩
  intro i key entry hk hv p hp
  exact (hash_index_eq _ _ _ hw.capacity_ge hw.capacity_lt ((hw.slots i key entry hk hv).2 p hp).2).1

/-- C22 (witness): the rebuilt dictionary `example_aebd` of capacity 11. -/
theorem placement_invariant_witness :
    (∀ (i : Nat) key entry, example_aebd.keys[i]? = some key → example_aebd.values[i]? = some entry →
      ∀ p ∈ slot_pairs key entry,
        (i : Int) = (hash p.1 : Int) % (example_aebd.max_entries - 1)) ∧
    ((contents example_aebd).map Prod.fst).Nodup ∧
    slot_is_empty example_aebd (example_aebd.max_entries - 1).toNat :=
  placement_invariant example_aebd
    (Reachable.put 0 example_aeb [100] 4 example_aebd 0 example_aeb_reachable
      (by decide) (by decide) example_aebd_put)

/-- C29: in every reachable dictionary `maximum_chain` is at least the size of
every bucket attached to a slot, and it is 0 only if no bucket is attached. -/
theorem maximum_chain_upper_bound (d : dictionary_t) (hr : Reachable d) :
    (∀ i bucket, bucket_attached d i bucket →
      (collision_bucket_size bucket : Int) ≤ d.maximum_chain) ∧
    (d.maximum_chain = 0 → ∀ i bucket, ¬ bucket_attached d i bucket) := by
  refine ⟨hr.stats.chain, ?_⟩
  intro h0 i bucket hb
  have h1 := hr.stats.chain i bucket hb
  have h2 := (bucket_two_pairs hr.inv.1 i bucket hb).1
  omega

/-- C29 (witness): the dictionary `example_aeb`, with one bucket of 2 pairs and
`maximum_chain` 2. -/
theorem maximum_chain_upper_bound_witness :
    (∀ i bucket, bucket_attached example_aeb i bucket →
      (collision_bucket_size bucket : Int) ≤ example_aeb.maximum_chain) ∧
    (example_aeb.maximum_chain = 0 → ∀ i bucket, ¬ bucket_attached example_aeb i bucket) :=
  maximum_chain_upper_bound example_aeb example_aeb_reachable

/-- C30: for every zero-free byte string `b1 .. bn`, `hash` equals
`(5381 * 33^n + sum over i of b_i * 33^(n-i)) mod 2^63`, the right-hand side
computed in unbounded numbers: masking at every step equals one reduction at
the end. -/
theorem hash_eq_closed_form (bytes : List Nat) (hz : ∀ b ∈ bytes, b ≠ 0) :
    hash bytes = djb2_closed_form bytes := by
  unfold hash djb2_closed_form
  rw [hash_loop_eq_foldl 5381 bytes hz, foldl_step_eq_mod 5381 bytes (by norm_num),
    foldl_linear_eq]

/-- C30 (witness): the string "apple". -/
theorem hash_eq_closed_form_witness :
    (∀ b ∈ [97, 112, 112, 108, 101], b ≠ 0) ∧
      hash [97, 112, 112, 108, 101] = djb2_closed_form [97, 112, 112, 108, 101] :=
  ⟨by decide, hash_eq_closed_form [97, 112, 112, 108, 101] (by decide)⟩

/-- C26 (defect): with the power-of-two capacity 4 the key "a" is put into
slot 1, which is `hash("a") mod 3`, while the hash masked with `capacity - 1`,
equal to `hash("a") mod 4`, is 2: the slot index is not the bit mask that the
comment of `new_dictionary_size_load` states. -/
theorem power_of_two_index_is_not_mask :
    hash_index (new_dictionary_size_load 4 (3 / 4)).max_entries [97] = some 1 ∧
    hash [97] % 3 = 1 ∧ hash [97] &&& (4 - 1) = 2 ∧ hash [97] % 4 = 2 ∧
    (dictionary_put 1 (new_dictionary_size_load 4 (3 / 4)) (some [97]) 1).map
      (fun r => r.1.keys) = some [none, some [97], none, none] := by
  decide!

/-- C27: the keys `example_long_key1` and `example_long_key2` differ and agree
on their first 4096 bytes; on `new_dictionary_size_load(2, 0.75)` both map to
slot 0.  After `put(k1, 5)`, `get(k2)` returns 5 and `put(k2, 6)` replaces the
value (it returns 5 and `num_entries` stays 1), yet `remove(k2)` returns `NULL`
and leaves the dictionary as it is, before and after that put. -/
theorem long_keys_identity_inconsistent :
    example_long_key1 ≠ example_long_key2 ∧
    example_long_key1.take MAX_KEY = example_long_key2.take MAX_KEY ∧
    hash_index 2 example_long_key1 = hash_index 2 example_long_key2 ∧
    ∃ d1 d2, dictionary_put 1 (new_dictionary_size_load 2 (3 / 4)) (some example_long_key1) 5 =
        some (d1, 0) ∧
      d1.num_entries = 1 ∧
      dictionary_get d1 (some example_long_key2) = some 5 ∧
      dictionary_remove d1 (some example_long_key2) = some (d1, 0) ∧
      dictionary_put 1 d1 (some example_long_key2) 6 = some (d2, 5) ∧
      d2.num_entries = 1 ∧
      dictionary_remove d2 (some example_long_key2) = some (d2, 0) ∧
      dictionary_get d2 (some example_long_key1) = some 6 ∧
      dictionary_remove d2 (some example_long_key1) =
        some (new_dictionary_size_load 2 (3 / 4), 6) := by
  obtain ⟨htake, hne⟩ := example_long_keys_prefix
  obtain ⟨a1, a2, a3⟩ := two_slots_long_keys example_long_key1 example_long_key2 5 6 1 htake hne
  obtain ⟨b1, -, b3⟩ := two_slots_long_keys example_long_key1 example_long_key2 6 6 1 htake hne
  refine ⟨hne, htake, by rw [hash_index_two, hash_index_two],
    example_two_slots example_long_key1 5, example_two_slots example_long_key1 6,
    two_slots_put_first _ _ _, rfl, a1, a3, a2, rfl, b3,
    (two_slots_same_key example_long_key1 6).1, (two_slots_same_key example_long_key1 6).2⟩

/-- C24: for every collision bucket and every key shorter than `MAX_KEY`,
`collision_bucket_addpair` overwrites in place the value of the first pair
with that key and returns 0, size, capacity and all other pairs unchanged; when
no pair has the key it appends `(key, value)` as the last pair and returns 1,
the size grows by 1, the earlier pairs are unchanged and in order, and the size
is at most `max_elements`; `cb_reinitializeArrays` keeps the pairs.  Afterwards
`collision_bucket_get` returns the value put, and in general the value of the
first pair whose key matches, `NULL` when there is none. -/
theorem addpair_replaces_or_appends (bucket : collision_bucket_t) (key : Key)
    (value : dict_value_t) (hk : key.length < MAX_KEY) :
    (key ∈ (bucket_pairs bucket).map Prod.fst →
      ∃ l1 l2 v0, bucket_pairs bucket = l1 ++ (key, v0) :: l2 ∧ key ∉ l1.map Prod.fst ∧
        (collision_bucket_addpair bucket (some key) value).2 = 0 ∧
        bucket_pairs (collision_bucket_addpair bucket (some key) value).1 =
          l1 ++ (key, value) :: l2 ∧
        collision_bucket_size (collision_bucket_addpair bucket (some key) value).1 =
          collision_bucket_size bucket ∧
        (collision_bucket_addpair bucket (some key) value).1.max_elements =
          bucket.max_elements) ∧
    (key ∉ (bucket_pairs bucket).map Prod.fst →
      (collision_bucket_addpair bucket (some key) value).2 = 1 ∧
      bucket_pairs (collision_bucket_addpair bucket (some key) value).1 =
        bucket_pairs bucket ++ [(key, value)] ∧
      collision_bucket_size (collision_bucket_addpair bucket (some key) value).1 =
        collision_bucket_size bucket + 1 ∧
      collision_bucket_size (collision_bucket_addpair bucket (some key) value).1 ≤
        (collision_bucket_addpair bucket (some key) value).1.max_elements) ∧
    (∀ new_size, bucket_pairs (cb_reinitializeArrays bucket new_size) = bucket_pairs bucket ∧
      (cb_reinitializeArrays bucket new_size).max_elements = new_size) ∧
    collision_bucket_get (collision_bucket_addpair bucket (some key) value).1 (some key) =
      value ∧
    (∀ b : collision_bucket_t, collision_bucket_get b (some key) =
      assoc_value key (bucket_pairs b)) := by
  have hget : ∀ b : collision_bucket_t, collision_bucket_get b (some key) =
      assoc_value key (bucket_pairs b) :=
    fun b => get_scan_eq_assoc_of_short key hk (bucket_pairs b)
  have hin : key ∈ (bucket_pairs bucket).map Prod.fst →
      ∃ l1 l2 v0, bucket_pairs bucket = l1 ++ (key, v0) :: l2 ∧ key ∉ l1.map Prod.fst ∧
        (collision_bucket_addpair bucket (some key) value).2 = 0 ∧
        bucket_pairs (collision_bucket_addpair bucket (some key) value).1 =
          l1 ++ (key, value) :: l2 ∧
        collision_bucket_size (collision_bucket_addpair bucket (some key) value).1 =
          collision_bucket_size bucket ∧
        (collision_bucket_addpair bucket (some key) value).1.max_elements =
          bucket.max_elements := by
    intro h
    obtain ⟨l1, l2, v0, e1, e2, e3⟩ := replace_in_place key value (bucket_pairs bucket) hk h
    have hsome : bucket.keys_values.isNone = false := by
      cases hkv : bucket.keys_values with
      | none =>
        unfold bucket_pairs at h
        rw [hkv] at h
        simp at h
      | some l => rfl
    have hr : collision_bucket_addpair bucket (some key) value =
        ({ bucket with keys_values := some (l1 ++ (key, value) :: l2) }, 0) := by
      simp only [collision_bucket_addpair, hsome, Bool.false_eq_true, if_false, e3]
    rw [hr]
    refine ⟨l1, l2, v0, e1, e2, rfl, rfl, ?_, rfl⟩
    unfold collision_bucket_size
    rw [e1]
    simp [bucket_pairs]
  have hout : key ∉ (bucket_pairs bucket).map Prod.fst →
      (collision_bucket_addpair bucket (some key) value).2 = 1 ∧
      bucket_pairs (collision_bucket_addpair bucket (some key) value).1 =
        bucket_pairs bucket ++ [(key, value)] ∧
      collision_bucket_size (collision_bucket_addpair bucket (some key) value).1 =
        collision_bucket_size bucket + 1 ∧
      collision_bucket_size (collision_bucket_addpair bucket (some key) value).1 ≤
        (collision_bucket_addpair bucket (some key) value).1.max_elements := by
    intro h
    obtain ⟨a1, a2, -⟩ := addpair_absent bucket key value hk h
    refine ⟨a1, a2, by unfold collision_bucket_size; rw [a2]; simp, ?_⟩
    have hnone := replace_eq_none key value (bucket_pairs bucket) hk h
    unfold collision_bucket_size
    rw [a2]
    cases hkv : bucket.keys_values with
    | none =>
      simp [collision_bucket_addpair, hkv, cb_reinitializeArrays, bucket_pairs,
        collision_bucket_replace, collision_bucket_size, CB_INITIAL_SIZE]
    | some l =>
      have hl : bucket_pairs bucket = l := by
        unfold bucket_pairs
        rw [hkv]
        rfl
      rw [hl] at hnone
      simp only [collision_bucket_addpair, hkv, Option.isNone_some, Bool.false_eq_true,
        if_false, hl, hnone, collision_bucket_size]
      split
      · simp [cb_reinitializeArrays, hl]
      · simp only [List.length_append, List.length_singleton]
        omega
  refine ⟨hin, hout, fun n => ⟨rfl, rfl⟩, ?_, hget⟩
  rw [hget]
  by_cases h : key ∈ (bucket_pairs bucket).map Prod.fst
  · obtain ⟨l1, l2, v0, -, e2, -, e4, -⟩ := hin h
    rw [e4]
    exact assoc_value_middle key value l1 l2 e2
  · rw [(hout h).2.1]
    have : assoc_value key (bucket_pairs bucket ++ [(key, value)]) =
        assoc_value key (bucket_pairs bucket ++ (key, value) :: []) := rfl
    rw [this]
    exact assoc_value_middle key value (bucket_pairs bucket) [] h

/-- C24 (witness): the key "a" put again into the bucket of "e" and "a". -/
theorem addpair_replaces_or_appends_witness :
    ([97] : Key).length < MAX_KEY ∧
    collision_bucket_get (collision_bucket_addpair
      { max_elements := 16, keys_values := some [([101], 2), ([97], 1)] } (some [97]) 7).1
      (some [97]) = 7 :=
  ⟨by decide, (addpair_replaces_or_appends
    { max_elements := 16, keys_values := some [([101], 2), ([97], 1)] } [97] 7
    (by decide)).2.2.2.1⟩

/-- C23 (counterexample): `example_low_load` is reachable with load factor
0.25 and stores "a"; `dictionary_put("a", 9)` only replaces the value of "a"
(it returns the old value 1 and `num_entries` stays 2), yet it rebuilds the
table: the capacity goes from 7 to 5 and "a" moves from slot 4 to slot 2. -/
theorem replacing_put_rebuilds :
    Reachable example_low_load ∧ example_low_load.load_factor = 1 / 4 ∧
    [97] ∈ (contents example_low_load).map Prod.fst ∧
    put_rebuilds example_low_load [97] 9 = true ∧
    dictionary_put 1 example_low_load (some [97]) 9 = some (example_low_load_replaced, 1) ∧
    example_low_load_replaced.num_entries = example_low_load.num_entries ∧
    example_low_load.max_entries = 7 ∧ example_low_load_replaced.max_entries = 5 ∧
    slot_keys example_low_load 4 = [[97]] ∧ slot_keys example_low_load_replaced 4 = [] ∧
    slot_keys example_low_load_replaced 2 = [[97]] :=
  ⟨example_low_load_reachable, by decide!, by decide, by decide!, example_low_load_put,
    by decide, by decide, by decide, by decide, by decide, by decide⟩

/-- C23 (amended): on a reachable dictionary whose load factor is at least
1/2, a `dictionary_put` that replaces the value of a stored key performs no
rebuild: `num_entries`, the capacity and the key cells are unchanged and every
slot holds the same keys in the same order. -/
theorem replacing_put_keeps_placement (d : dictionary_t) (hr : Reachable d) (k : Key)
    (v : dict_value_t) (fuel : Nat) (hk : k.length < MAX_KEY)
    (hlim : d.num_entries < ENTRY_LIMIT) (hlf : 1 / 2 ≤ d.load_factor)
    (hin : k ∈ (contents d).map Prod.fst) :
    put_rebuilds d k v = false ∧
    ∃ d1, dictionary_put (fuel + 1) d (some k) v = some (d1, assoc_value k (contents d)) ∧
      dictionary_put_core d k v = some d1 ∧
      d1.num_entries = d.num_entries ∧ d1.max_entries = d.max_entries ∧
      d1.keys = d.keys ∧ ∀ i, slot_keys d1 i = slot_keys d i := by
  obtain ⟨d1, d2, c1, c2, -, -, -, c6, c7⟩ := put_half_load d hr.inv k v hk hlim fuel hlf
  have hres := c7 hin (hr.no_resize hlf)
  have e := c6 hres
  subst e
  obtain ⟨q1, q2⟩ := put_core_replace_placement d hr.inv.1 k v hk hin d2 c1
  obtain ⟨d1', s1, -, s3, -, -, s6, -⟩ := put_core_spec d hr.inv.1 k v hk
  have e : d1' = d2 := Option.some.inj (s1.symm.trans c1)
  subst e
  refine ⟨?_, d1', c2, c1, (s6 hin).1, s3, q1, q2⟩
  unfold put_rebuilds
  rw [c1]
  exact hres

/-- C23 (witness): the value of "a" replaced in `example_aeb`, where "a" is
in the bucket of slot 2. -/
theorem replacing_put_keeps_placement_witness :
    put_rebuilds example_aeb [97] 7 = false ∧
    ∃ d1, dictionary_put (0 + 1) example_aeb (some [97]) 7 =
        some (d1, assoc_value [97] (contents example_aeb)) ∧
      dictionary_put_core example_aeb [97] 7 = some d1 ∧
      d1.num_entries = example_aeb.num_entries ∧ d1.max_entries = example_aeb.max_entries ∧
      d1.keys = example_aeb.keys ∧ ∀ i, slot_keys d1 i = slot_keys example_aeb i :=
  replacing_put_keeps_placement example_aeb example_aeb_reachable [97] 7 0 (by decide)
    (by decide) (by decide!) (by decide)

/-- C28 (counterexample): `example_06_abc` is reached from
`new_dictionary_size_load(5, 0.6)` by the puts of "a", "b" and "c"; the load
factor (the double nearest to 0.6) lies between 1/2 and 1, and after the third
put `num_entries = 3` exceeds `load_factor * max_entries` computed exactly
(2.99999999999999988...), because the double product rounds to 3.0 and the
test `3 > 3.0` fails. -/
theorem load_bound_fails_in_doubles :
    Reachable example_06_ab ∧
    (1 / 2 : ℚ) ≤ example_06_ab.load_factor ∧ example_06_ab.load_factor ≤ 1 ∧
    dictionary_put 1 example_06_ab (some [99]) 3 = some (example_06_abc, 0) ∧
    ¬ ((example_06_abc.num_entries : ℚ) ≤
      example_06_abc.load_factor * (example_06_abc.max_entries : ℚ)) ∧
    round_double (example_06_abc.load_factor * round_double (example_06_abc.max_entries : ℚ)) =
      round_double (example_06_abc.num_entries : ℚ) :=
  ⟨example_06_ab_reachable, by decide!, by decide!, example_06_put, by decide!, by decide!⟩

/-- C28 (amended): on every reachable dictionary whose load factor is at least
1/2 the test of `dictionary_put`, `num_entries > load_factor * max_entries`
evaluated in doubles, is false; every `dictionary_put` returns and the test is
false afterwards, a put that rebuilds the table strictly increases the
capacity, and a put of a stored key does not rebuild. -/
theorem load_test_false_after_put (d : dictionary_t) (hr : Reachable d)
    (hlf : 1 / 2 ≤ d.load_factor) :
    ¬ (round_double (d.num_entries : ℚ) >
      round_double (d.load_factor * round_double (d.max_entries : ℚ))) ∧
    ∀ (fuel : Nat) (k : Key) (v : dict_value_t), k.length < MAX_KEY →
      d.num_entries < ENTRY_LIMIT →
      ∃ d1 d2 previous, dictionary_put_core d k v = some d1 ∧
        dictionary_put (fuel + 1) d (some k) v = some (d2, previous) ∧
        ¬ (round_double (d2.num_entries : ℚ) >
          round_double (d2.load_factor * round_double (d2.max_entries : ℚ))) ∧
        (put_rebuilds d k v = true → d.max_entries < d2.max_entries) ∧
        (put_rebuilds d k v = false → d2 = d1) ∧
        (k ∈ (contents d).map Prod.fst → put_rebuilds d k v = false) := by
  have hd := hr.no_resize hlf
  refine ⟨by unfold resize_needed at hd; exact of_decide_eq_false hd, ?_⟩
  intro fuel k v hk hlim
  obtain ⟨d1, d2, c1, c2, -, c4, c5, c6, c7⟩ := put_half_load d hr.inv k v hk hlim fuel hlf
  have e : put_rebuilds d k v = resize_needed d1 := by
    unfold put_rebuilds
    rw [c1]
  rw [e]
  refine ⟨d1, d2, _, c1, c2, ?_, c5, c6, fun hin => c7 hin hd⟩
  unfold resize_needed at c4
  exact of_decide_eq_false c4

/-- C28 (witness): `example_small`, of capacity 2 and load factor 1/2, where
the put of a second key rebuilds the table. -/
theorem load_test_false_after_put_witness :
    (1 / 2 : ℚ) ≤ example_small.load_factor ∧
    (¬ (round_double (example_small.num_entries : ℚ) >
      round_double (example_small.load_factor *
        round_double (example_small.max_entries : ℚ))) ∧
    ∀ (fuel : Nat) (k : Key) (v : dict_value_t), k.length < MAX_KEY →
      example_small.num_entries < ENTRY_LIMIT →
      ∃ d1 d2 previous, dictionary_put_core example_small k v = some d1 ∧
        dictionary_put (fuel + 1) example_small (some k) v = some (d2, previous) ∧
        ¬ (round_double (d2.num_entries : ℚ) >
          round_double (d2.load_factor * round_double (d2.max_entries : ℚ))) ∧
        (put_rebuilds example_small k v = true → example_small.max_entries < d2.max_entries) ∧
        (put_rebuilds example_small k v = false → d2 = d1) ∧
        (k ∈ (contents example_small).map Prod.fst → put_rebuilds example_small k v = false)) :=
  ⟨by decide!, load_test_false_after_put example_small example_small_reachable (by decide!)⟩

/-- C25: in a reachable dictionary, for a bucket of size `n` attached to the
slot of `key` and holding `key` at position `j`, `dictionary_remove` returns
the value of that pair; when `n ≥ 3` it leaves a bucket of size `n - 1` in
which position `j` holds the pair that was at position `n - 1` and every other
position below `n - 1` is unchanged; when `n = 2` the bucket is torn down and
the other pair becomes the direct entry of the slot. -/
theorem remove_moves_last_pair (d : dictionary_t) (hr : Reachable d) (key : Key) (i : Nat)
    (bucket : collision_bucket_t) (j : Nat) (v : dict_value_t)
    (hi : hash_index d.max_entries key = some i) (hb : bucket_attached d i bucket)
    (hj : (bucket_pairs bucket)[j]? = some (key, v)) :
    ∃ d1, dictionary_remove d (some key) = some (d1, v) ∧
      (3 ≤ collision_bucket_size bucket →
        ∃ bucket1, bucket_attached d1 i bucket1 ∧
          collision_bucket_size bucket1 = collision_bucket_size bucket - 1 ∧
          (j < collision_bucket_size bucket - 1 →
            (bucket_pairs bucket1)[j]? =
              (bucket_pairs bucket)[collision_bucket_size bucket - 1]?) ∧
          ∀ m, m < collision_bucket_size bucket - 1 → m ≠ j →
            (bucket_pairs bucket1)[m]? = (bucket_pairs bucket)[m]?) ∧
      (collision_bucket_size bucket = 2 →
        ∃ other, (bucket_pairs bucket)[1 - j]? = some other ∧
          d1.keys[i]? = some (some other.1) ∧
          d1.values[i]? = some (entry_t.value other.2)) := by
  have hw := hr.inv.1
  have hso := hw.slots i none (entry_t.collision_buckets bucket) hb.1 hb.2
  unfold slot_ok at hso
  obtain ⟨⟨-, hsize, hnd⟩, -⟩ := hso
  have hscan := remove_scan_eq key (bucket_pairs bucket) j v hnd hj
  obtain ⟨hjlt, -⟩ := List.getElem?_eq_some.mp hj
  obtain ⟨hilt, -⟩ := List.getElem?_eq_some.mp hb.2
  have hlen : (bucket_pairs bucket).length = collision_bucket_size bucket := rfl
  by_cases hsz : collision_bucket_size bucket - 1 = 1
  · have hidx : (if j = 0 then 1 else 0) = 1 - j := by
      split <;> omega
    have hlt : 1 - j < (bucket_pairs bucket).length := by omega
    have hother : (bucket_pairs bucket)[if j = 0 then 1 else 0]? =
        some ((bucket_pairs bucket)[1 - j]) := by
      rw [hidx]
      exact List.getElem?_eq_getElem hlt
    refine ⟨_, remove_bucket_pair d key i bucket j (key, v) _ hi hb hscan hsz hj hother, ?_, ?_⟩
    · intro h3
      omega
    · intro _
      obtain ⟨hklt, -⟩ := List.getElem?_eq_some.mp hb.1
      refine ⟨(bucket_pairs bucket)[1 - j], List.getElem?_eq_getElem hlt, ?_, ?_⟩
      · exact List.getElem?_set_self hklt
      · exact List.getElem?_set_self hilt
  · have hlt : collision_bucket_size bucket - 1 < (bucket_pairs bucket).length := by omega
    have hlast : (bucket_pairs bucket)[collision_bucket_size bucket - 1]? =
        some ((bucket_pairs bucket)[collision_bucket_size bucket - 1]) :=
      List.getElem?_eq_getElem hlt
    refine ⟨_, remove_bucket_large d key i bucket j (key, v) _ hi hb hscan hsz hj hlast, ?_, ?_⟩
    · intro _
      refine ⟨_, ⟨hb.1, List.getElem?_set_self hilt⟩, ?_, ?_, ?_⟩
      · show (List.take _ _).length = _
        rw [List.length_take, List.length_set]
        omega
      · intro hjn
        show (List.take _ _)[j]? = _
        rw [List.getElem?_take_of_lt hjn, List.getElem?_set_self hjlt, hlast]
      · intro m hm hmj
        show (List.take _ _)[m]? = _
        rw [List.getElem?_take_of_lt hm, List.getElem?_set_ne (fun e => hmj e.symm)]
    · intro h2
      omega

/-- C25 (witness): the key "a" at position 0 of the bucket of "a", "i" and "e"
in slot 2 of `example_iae`. -/
theorem remove_moves_last_pair_witness :
    ∃ d1, dictionary_remove example_iae (some [97]) = some (d1, 1) ∧
      (3 ≤ collision_bucket_size example_bucket_aie →
        ∃ bucket1, bucket_attached d1 2 bucket1 ∧
          collision_bucket_size bucket1 = collision_bucket_size example_bucket_aie - 1 ∧
          (0 < collision_bucket_size example_bucket_aie - 1 →
            (bucket_pairs bucket1)[0]? =
              (bucket_pairs example_bucket_aie)[collision_bucket_size example_bucket_aie - 1]?) ∧
          ∀ m, m < collision_bucket_size example_bucket_aie - 1 → m ≠ 0 →
            (bucket_pairs bucket1)[m]? = (bucket_pairs example_bucket_aie)[m]?) ∧
      (collision_bucket_size example_bucket_aie = 2 →
        ∃ other, (bucket_pairs example_bucket_aie)[1 - 0]? = some other ∧
          d1.keys[2]? = some (some other.1) ∧
          d1.values[2]? = some (entry_t.value other.2)) :=
  remove_moves_last_pair example_iae example_iae_reachable [97] 2 example_bucket_aie 0 1
    (by decide) ⟨by decide, by decide⟩ (by decide)

/-- C21 (counterexample): "a" and "e" are distinct short keys that map to slot
2 of `example_i`, which already holds "i" there; no put rebuilds the table;
after `put("a")`, `put("e")`, `remove("a")` the dictionary is `example_ie`,
whose slot 2 is still Bucketed ("e" and "i") and not a direct entry. -/
theorem third_key_keeps_bucket :
    Reachable example_i ∧
    hash_index example_i.max_entries [97] = some 2 ∧
    hash_index example_i.max_entries [101] = some 2 ∧
    put_rebuilds example_i [97] 1 = false ∧
    (dictionary_put 1 example_i (some [97]) 1).map (fun r => put_rebuilds r.1 [101] 2) =
      some false ∧
    put_all 1 example_i [([97], 1), ([101], 2)] = some example_iae ∧
    dictionary_remove example_iae (some [97]) = some (example_ie, 1) ∧
    slot_is_bucketed example_ie 2 ∧ ¬ slot_is_direct example_ie 2 :=
  ⟨example_i_reachable, by decide, by decide, by decide!, by decide!, by decide!, by decide!,
    ⟨_, by decide, rfl⟩, fun h => by
      obtain ⟨k, v, h1, -⟩ := h
      have e : example_ie.keys[2]? = some none := by decide
      rw [e] at h1
      cases h1⟩

/-- C21 (amended): in a reachable dictionary let `a` and `b` be distinct keys
shorter than `MAX_KEY` that map to slot `i`, a slot that holds no key other
than `a` and `b`.  If the puts do not rebuild the table, then after `put(a)`,
`put(b)`, `remove(a)` (which returns the value of `a`) slot `i` is the direct
entry of `b`, `get(b)` returns the value of `b` and `get(a)` returns `NULL`;
the put of a further key `c` different from `b` that maps to slot `i` attaches
a bucket of exactly the two pairs of `b` and `c`, both retrievable. -/
theorem bucket_dissolves_to_direct (d : dictionary_t) (hr : Reachable d) (a b : Key)
    (va vb : dict_value_t) (i fuel : Nat)
    (ha : a.length < MAX_KEY) (hb : b.length < MAX_KEY) (hab : a ≠ b)
    (_hia : hash_index d.max_entries a = some i) (hib : hash_index d.max_entries b = some i)
    (hslot : ∀ p ∈ contents d, hash_index d.max_entries p.1 = some i → p.1 = a ∨ p.1 = b)
    (hn1 : put_rebuilds d a va = false) :
    ∃ d1 r1, dictionary_put fuel d (some a) va = some (d1, r1) ∧
      (put_rebuilds d1 b vb = false →
        ∃ d2 r2 d3, dictionary_put fuel d1 (some b) vb = some (d2, r2) ∧
          dictionary_remove d2 (some a) = some (d3, va) ∧
          d3.keys[i]? = some (some b) ∧ d3.values[i]? = some (entry_t.value vb) ∧
          dictionary_get d3 (some b) = some vb ∧ dictionary_get d3 (some a) = some 0 ∧
          ∀ (c : Key) (vc : dict_value_t), c.length < MAX_KEY → c ≠ b →
            hash_index d.max_entries c = some i → put_rebuilds d3 c vc = false →
            ∃ d4 r4 bucket, dictionary_put fuel d3 (some c) vc = some (d4, r4) ∧
              bucket_attached d4 i bucket ∧ collision_bucket_size bucket = 2 ∧
              (∀ p, p ∈ bucket_pairs bucket ↔ p = (b, vb) ∨ p = (c, vc)) ∧
              dictionary_get d4 (some b) = some vb ∧ dictionary_get d4 (some c) = some vc) := by
  have hw := hr.inv.1
  obtain ⟨d1, p1, w1, m1, c1⟩ := put_no_rebuild_spec d hw a va ha fuel hn1
  refine ⟨d1, _, p1, ?_⟩
  intro hn2
  obtain ⟨d2, p2, w2, m2, c2⟩ := put_no_rebuild_spec d1 w1 b vb hb fuel hn2
  obtain ⟨d3, r1, w3, m3, -, c3, -⟩ := remove_spec d2 w2 a
  have ha2 : (a, va) ∈ contents d2 :=
    (c2 _).mpr (Or.inr ⟨hab, (c1 _).mpr (Or.inl rfl)⟩)
  rw [assoc_value_of_mem a va _ w2.nodup_contents ha2] at r1
  have hb3 : (b, vb) ∈ contents d3 :=
    (c3 _).mpr ⟨fun e => hab e.symm, (c2 _).mpr (Or.inl rfl)⟩
  have hcap3 : d3.max_entries = d.max_entries := by rw [m3, m2, m1]
  have hall3 : ∀ p ∈ contents d3, hash_index d3.max_entries p.1 = some i → p = (b, vb) := by
    intro p hp hpi
    obtain ⟨hpa, hp2⟩ := (c3 p).mp hp
    rcases (c2 p).mp hp2 with e | ⟨hpb, hp1⟩
    · exact e
    · rcases (c1 p).mp hp1 with e | ⟨-, hp0⟩
      · rw [e] at hpa
        exact absurd rfl hpa
      · rcases hslot p hp0 (by rw [← hcap3]; exact hpi) with e | e
        · exact absurd e hpa
        · exact absurd e hpb
  obtain ⟨k3, v3⟩ := slot_direct_of_single w3 i (b, vb) hb3 (by rw [hcap3]; exact hib) hall3
  refine ⟨d2, _, d3, p2, r1, k3, v3, get_of_mem w3 b vb hb3, ?_, ?_⟩
  · rw [get_spec d3 w3 a, assoc_value_of_not_mem]
    intro hmem
    obtain ⟨p, hp, e⟩ := List.mem_map.mp hmem
    exact ((c3 p).mp hp).1 e
  · intro c vc hc hcb hic hn4
    obtain ⟨d4, p4, w4, m4, c4⟩ := put_no_rebuild_spec d3 w3 c vc hc fuel hn4
    have hb4 : (b, vb) ∈ contents d4 := (c4 _).mpr (Or.inr ⟨fun e => hcb e.symm, hb3⟩)
    have hc4 : (c, vc) ∈ contents d4 := (c4 _).mpr (Or.inl rfl)
    have hcap4 : d4.max_entries = d.max_entries := by rw [m4, hcap3]
    obtain ⟨bucket, a1, a2, a3⟩ := slot_bucket_of_two w4 i (b, vb) (c, vc) hb4 hc4
      (fun e => hcb e.symm) (by rw [hcap4]; exact hib) (by rw [hcap4]; exact hic)
      (by
        intro x hx hxi
        rcases (c4 x).mp hx with e | ⟨-, hx3⟩
        · exact Or.inr e
        · exact Or.inl (hall3 x hx3 (by rw [hcap3, ← hcap4]; exact hxi)))
    exact ⟨d4, _, bucket, p4, a1, a2, a3, get_of_mem w4 b vb hb4, get_of_mem w4 c vc hc4⟩

/-- C21 (witness): the keys "a" and "e", which map to the empty slot 2 of
`example_empty`. -/
theorem bucket_dissolves_to_direct_witness :
    ∃ d1 r1, dictionary_put 1 example_empty (some [97]) 1 = some (d1, r1) ∧
      (put_rebuilds d1 [101] 2 = false →
        ∃ d2 r2 d3, dictionary_put 1 d1 (some [101]) 2 = some (d2, r2) ∧
          dictionary_remove d2 (some [97]) = some (d3, 1) ∧
          d3.keys[2]? = some (some [101]) ∧ d3.values[2]? = some (entry_t.value 2) ∧
          dictionary_get d3 (some [101]) = some 2 ∧ dictionary_get d3 (some [97]) = some 0 ∧
          ∀ (c : Key) (vc : dict_value_t), c.length < MAX_KEY → c ≠ [101] →
            hash_index example_empty.max_entries c = some 2 →
            put_rebuilds d3 c vc = false →
            ∃ d4 r4 bucket, dictionary_put 1 d3 (some c) vc = some (d4, r4) ∧
              bucket_attached d4 2 bucket ∧ collision_bucket_size bucket = 2 ∧
              (∀ p, p ∈ bucket_pairs bucket ↔ p = ([101], 2) ∨ p = (c, vc)) ∧
              dictionary_get d4 (some [101]) = some 2 ∧ dictionary_get d4 (some c) = some vc) :=
  bucket_dissolves_to_direct example_empty example_empty_reachable [97] [101] 1 2 2 1
    (by decide) (by decide) (by decide) (by decide) (by decide) (by decide) (by decide!)

end Hashing
